import Mathlib

/-!
# Go-Progress-Bar: a shallow embedding of `progress_bar.go`

The development follows the source file top to bottom.

* Go `int` and `int64` values are `Int`; every machine operation that can leave
  the 64-bit range is wrapped with `wrap64`.
* Go `float64` values are the rationals they denote.  Every float operation is
  the exact operation followed by `f64round`, IEEE 754 binary64 rounding to
  nearest with ties to even (53-bit significand, gradual underflow).  The model
  has no infinities and no NaNs: no operation of this program overflows the
  binary64 range, and every divisor is non-zero as soon as `maxProgress ≥ 1`.
  A negative zero is not told apart from zero.  Operations are rounded one by
  one (no fused multiply-add), as on amd64.
* Go strings are lists of characters; `strings.ReplaceAll`, `strings.Contains`
  and `strings.Repeat` are modelled on them.  `byteLen` is Go's `len`, the number
  of bytes of the UTF-8 encoding.
* Memory is an input.  The strings that grow with the width of the bar, the results
  of `strings.Repeat`, of their concatenation, of the `strings.ReplaceAll` that puts
  the bar in, and the buffer of `fmt.Printf`, are allocated: a request above the
  allocator limit of `2^48` bytes panics, and below it the request is served or not,
  as the environment of the call says.
* `time.Now()` is an input: every call receives the clock readings it makes,
  in nanoseconds.
* The iteration order of the `replacements` map is an input: a permutation of
  its five entries.
* A run-time panic is an `Outcome.panicked`; the state written before the
  panic is kept, as it is in the Go heap.
-/

namespace GoProgressBar

/-! ## Machine integers -/

/-- Two's-complement wrap-around of a 64-bit signed integer operation. -/
def wrap64 (x : Int) : Int := (x + 2 ^ 63) % 2 ^ 64 - 2 ^ 63

/-- Membership in the range of Go's `int64` (and of `int` on 64-bit targets). -/
def inInt64 (x : Int) : Prop := -(2 ^ 63) ≤ x ∧ x < 2 ^ 63

instance (x : Int) : Decidable (inInt64 x) :=
  inferInstanceAs (Decidable (-(2 ^ 63) ≤ x ∧ x < 2 ^ 63))

/-! ## binary64 arithmetic -/

/-- Number of times `n` can be halved before it drops below `2`, with fuel. -/
def log2Fuel : Nat → Nat → Nat
  | 0, _ => 0
  | fuel + 1, n => if 2 ≤ n then log2Fuel fuel (n / 2) + 1 else 0

/-- Floor of the binary logarithm of a natural number (`0` for `0`). -/
def natLog2 (n : Nat) : Nat := log2Fuel n n

/-- Floor of the binary logarithm of `|q|` for a non-zero rational `q`. -/
def ilog2 (q : ℚ) : Int :=
  let e0 : Int := (natLog2 q.num.natAbs : Int) - (natLog2 q.den : Int)
  if (2 : ℚ) ^ e0 ≤ |q| then e0 else e0 - 1

/-- Rounding of a rational to the nearest integer, ties to the even one. -/
def roundHalfEven (x : ℚ) : Int :=
  let f := ⌊x⌋
  let r := x - f
  if r < 1 / 2 then f else if 1 / 2 < r then f + 1 else if f % 2 = 0 then f else f + 1

/-- The unit in the last place of the binary64 binade of `q`: `2 ^ (e - 52)`
where `e` is the exponent of `q`, not below the subnormal exponent `-1022`. -/
def f64ulp (q : ℚ) : ℚ := (2 : ℚ) ^ (max (ilog2 q) (-1022) - 52)

/-- Rounding of an exact result to binary64 (nearest, ties to even). -/
def f64round (q : ℚ) : ℚ :=
  if q = 0 then 0 else (roundHalfEven (q / f64ulp q) : ℚ) * f64ulp q

/-- Conversion `float64(n)` of an integer. -/
def f64ofInt (n : Int) : ℚ := f64round n

/-- Float addition. -/
def f64add (a b : ℚ) : ℚ := f64round (a + b)

/-- Float subtraction. -/
def f64sub (a b : ℚ) : ℚ := f64round (a - b)

/-- Float multiplication. -/
def f64mul (a b : ℚ) : ℚ := f64round (a * b)

/-- Float division. -/
def f64div (a b : ℚ) : ℚ := f64round (a / b)

/-- Truncation of a rational towards zero. -/
def truncQ (x : ℚ) : Int := if 0 ≤ x then ⌊x⌋ else ⌈x⌉

/-- Conversion `int(x)` of a float: the fraction is discarded.  A value outside
the `int` range gives the most negative integer, as the amd64 conversion
instruction does (Go leaves that case to the implementation). -/
def f64toInt (x : ℚ) : Int :=
  if -(2 ^ 63) ≤ truncQ x ∧ truncQ x < 2 ^ 63 then truncQ x else -(2 ^ 63)

/-- Go's builtin `max` on two floats. -/
def f64max (a b : ℚ) : ℚ := if a < b then b else a

/-! ## Strings -/

/-- A Go string, as its sequence of characters. -/
abbrev Str := List Char

/-- Go's `strings.Contains`: `sub` occurs in the string. -/
def strContains (sub : Str) : Str → Bool
  | [] => sub.isPrefixOf []
  | c :: cs => sub.isPrefixOf (c :: cs) || strContains sub cs

/-- Left-to-right scan of `strings.ReplaceAll` for a non-empty `old`: the
first argument counts the characters of a match still to be skipped. -/
def replaceFrom (old new : Str) : Nat → Str → Str
  | _, [] => []
  | skip + 1, _ :: cs => replaceFrom old new skip cs
  | 0, c :: cs =>
    if old.isPrefixOf (c :: cs) then new ++ replaceFrom old new (old.length - 1) cs
    else c :: replaceFrom old new 0 cs

/-- Go's `strings.ReplaceAll(s, old, new)`: the non-overlapping occurrences of
`old`, found from the left, are replaced by `new`; an empty `old` matches
before every character and at the end. -/
def replaceAll (s old new : Str) : Str :=
  if old = [] then new ++ (s.map fun c => c :: new).flatten else replaceFrom old new 0 s

/-- The result of a call: it returns, or it panics with a message.  A fatal error of
the runtime is written as a panic as well: the call does not return. -/
inductive Outcome (α : Type) where
  | returned : α → Outcome α
  | panicked : String → Outcome α
  deriving DecidableEq

/-- Application of a function to the value a call returned. -/
def Outcome.map {α β : Type} (f : α → β) : Outcome α → Outcome β
  | .returned a => .returned (f a)
  | .panicked m => .panicked m

/-- Go's `len(s)`: the number of bytes of the UTF-8 encoding of the string. -/
def byteLen (s : Str) : Nat := (s.map Char.utf8Size).sum

/-- The allocator limit of the Go runtime on linux/amd64 (`maxAlloc`): no object is
larger than `2^48` bytes. -/
def maxAlloc : Nat := 2 ^ 48

/-- The runtime allocates the `n` bytes of the string `s`.  Above the allocator limit
the call panics whatever the machine (the message is the one of `strings.Repeat` and
`strings.ReplaceAll`, which allocate through `strings.Builder`); below it the call gets
its memory or not, which is an input (`memory`); without memory the program stops with
a fatal error, written as a panic here: the call does not return.  Nothing is allocated
for an empty string. -/
def allocate (memory : Bool) (n : Nat) (s : Str) : Outcome Str :=
  if maxAlloc < n then .panicked "runtime error: makeslice: len out of range"
  else if n = 0 then .returned s
  else if memory then .returned s
  else .panicked "fatal error: runtime: out of memory"

/-- Go's `strings.Repeat(s, count)` (Go 1.21 and later, 64-bit): the counts `0` and `1`
return at once, a negative count panics, and so does a result longer than the `int`
range; the result is then allocated. -/
def strRepeat (memory : Bool) (s : Str) (count : Int) : Outcome Str :=
  if count = 0 then .returned []
  else if count = 1 then .returned s
  else if count < 0 then .panicked "strings: negative Repeat count"
  else if 2 ^ 63 ≤ (byteLen s : Int) * count then
    .panicked "strings: Repeat output length overflow"
  else if s = [] then .returned []
  else allocate memory (byteLen s * count.toNat) (List.replicate count.toNat s).flatten

/-- Go's string concatenation `a + b`: the result is allocated unless one of the two
strings is empty. -/
def strConcat (memory : Bool) (a b : Str) : Outcome Str :=
  if a = [] then .returned b
  else if b = [] then .returned a
  else allocate memory (byteLen a + byteLen b) (a ++ b)

/-! ## `fmt.Sprintf` verbs used by `render` -/

/-- Decimal digits of a natural number. -/
def natDigits (n : Nat) : Str := Nat.toDigits 10 n

/-- Zero padding on the left up to `width` characters. -/
def zeroPad (width : Nat) (s : Str) : Str := List.replicate (width - s.length) '0' ++ s

/-- Sign prefix followed by the body zero-padded to the width left over. -/
def signed (neg : Bool) (width : Nat) (body : Str) : Str :=
  if neg then '-' :: zeroPad (width - 1) body else zeroPad width body

/-- The verb `%d` with a zero-padded minimum width (`%d` is width `0`). -/
def fmtInt (width : Nat) (n : Int) : Str := signed (decide (n < 0)) width (natDigits n.natAbs)

/-- The verb `%.2f` with a zero-padded minimum width (`%.2f` is width `0`):
the exact value of the float rounded to hundredths, ties to even. -/
def fmtFixed2 (width : Nat) (v : ℚ) : Str :=
  let k := (roundHalfEven (|v| * 100)).toNat
  signed (decide (v < 0)) width
    (natDigits (k / 100) ++ ['.', Nat.digitChar (k / 10 % 10), Nat.digitChar (k % 10)])

/-! ## The clock -/

/-- Go's `time.Since(start)` at clock reading `now`: a `Duration` in
nanoseconds, saturated to the `int64` range. -/
def since (now start : Int) : Int := min (max (now - start) (-(2 ^ 63))) (2 ^ 63 - 1)

/-- Go's `Duration.Seconds`: whole seconds plus the remaining nanoseconds over `1e9`. -/
def seconds (d : Int) : ℚ :=
  f64add (f64ofInt (d.tdiv 1000000000)) (f64div (f64ofInt (d.tmod 1000000000)) 1000000000)

/-! ## Default values -/

/-- The constant `DefaultFormat`. -/
def DefaultFormat : Str := "%prog%% |%bar%| %curr%/%max% [%eta%, %spd%it/s]".toList

/-- The constant `DefaultBarChar`. -/
def DefaultBarChar : Str := "■".toList

/-- The constant `DefaultBarSize`. -/
def DefaultBarSize : Int := 80

/-- The constant `DefaultStep`. -/
def DefaultStep : Int := 1

/-! ## `ProgressBar` -/

/-- The struct `ProgressBar`; `startTime` is a clock reading in nanoseconds. -/
structure ProgressBar where
  barFormat : Str
  progress : Int
  maxProgress : Int
  barSize : Int
  barChar : Str
  speed : ℚ
  startTime : Int
  gamma : ℚ
  deriving DecidableEq

/-- The function `NewProgressBar`; `now` is the reading of `time.Now()`. -/
def NewProgressBar (format : Str) (max : Int) (size : Int) (char : Str) (now : Int) :
    ProgressBar :=
  let max := if max < 1 then 1 else max
  let format := if format = [] then DefaultFormat else format
  let char := if char = [] then DefaultBarChar else char
  { barFormat := format
    maxProgress := max
    barSize := size
    barChar := char
    startTime := now
    gamma := 1 / 2
    speed := 0
    progress := 0 }

/-- The function `customFormat`; `replacements` lists the entries of the map
in the order the `range` loop visits them. -/
def customFormat (format : Str) (replacements : List (Str × Str)) : Str :=
  replaceAll
    (replacements.foldl (fun format kv => replaceAll format ('%' :: kv.1 ++ ['%']) kv.2) format)
    ['\\', '%'] ['%']

/-- The local `timeRemaining` of `render`. -/
def ProgressBar.timeRemaining (pb : ProgressBar) : ℚ :=
  f64div (f64ofInt (wrap64 (pb.maxProgress - pb.progress))) (f64max pb.speed (f64round (1 / 100)))

/-- The local `speedStr` of `render`. -/
def ProgressBar.speedStr (pb : ProgressBar) : Str := fmtFixed2 0 pb.speed

/-- The local `timeStr` of `render`, format `%02d:%05.2f`. -/
def ProgressBar.timeStr (pb : ProgressBar) : Str :=
  let t := pb.timeRemaining
  fmtInt 2 (f64toInt (f64div t 60)) ++ ':' ::
    fmtFixed2 5 (f64sub (f64add (f64ofInt ((f64toInt t).tmod 60)) t) (f64ofInt (f64toInt t)))

/-- The local `currStr` of `render`. -/
def ProgressBar.currStr (pb : ProgressBar) : Str := fmtInt 0 pb.progress

/-- The local `maxStr` of `render`. -/
def ProgressBar.maxStr (pb : ProgressBar) : Str := fmtInt 0 pb.maxProgress

/-- The local `progressStr` of `render`. -/
def ProgressBar.progressStr (pb : ProgressBar) : Str :=
  fmtFixed2 0 (f64div (f64mul 100 (f64ofInt pb.progress)) (f64ofInt pb.maxProgress))

/-- The map `replacements` of `render`, entries in the order of the literal. -/
def ProgressBar.replacements (pb : ProgressBar) : Fin 5 → Str × Str :=
  ![("spd".toList, pb.speedStr), ("eta".toList, pb.timeStr), ("curr".toList, pb.currStr),
    ("max".toList, pb.maxStr), ("prog".toList, pb.progressStr)]

/-- The entries of `replacements` as the `range` loop of `customFormat` visits
them when the map iterates in the order `order`. -/
def ProgressBar.ranged (pb : ProgressBar) (order : Equiv.Perm (Fin 5)) : List (Str × Str) :=
  (List.finRange 5).map fun i => pb.replacements (order i)

/-- The local `filled` of `render`. -/
def ProgressBar.filled (pb : ProgressBar) : Int :=
  f64toInt (f64div (f64mul (f64ofInt pb.barSize) (f64ofInt pb.progress)) (f64ofInt pb.maxProgress))

/-- The local `bar` of `render`: `filled` copies of `barChar`, then spaces. -/
def ProgressBar.bar (pb : ProgressBar) (memory : Bool) : Outcome Str :=
  match strRepeat memory pb.barChar pb.filled with
  | .panicked m => .panicked m
  | .returned cells =>
    match strRepeat memory [' '] (wrap64 (pb.barSize - pb.filled)) with
    | .panicked m => .panicked m
    | .returned blanks => strConcat memory cells blanks

/-- The string `barStr` that `render` prints after the carriage return; the
`strings.ReplaceAll` that puts the bar in allocates its result. -/
def ProgressBar.barStr (pb : ProgressBar) (order : Equiv.Perm (Fin 5)) (memory : Bool) :
    Outcome Str :=
  let barStr := customFormat pb.barFormat (pb.ranged order)
  if strContains "%bar%".toList barStr then
    match pb.bar memory with
    | .panicked m => .panicked m
    | .returned bar =>
      allocate memory (byteLen (replaceAll barStr "%bar%".toList bar))
        (replaceAll barStr "%bar%".toList bar)
  else .returned barStr

/-- The method `render`: the text written to standard output; `fmt.Printf` builds it
in a buffer that it allocates. -/
def ProgressBar.render (pb : ProgressBar) (order : Equiv.Perm (Fin 5)) (memory : Bool) :
    Outcome Str :=
  match pb.barStr order memory with
  | .panicked m => .panicked m
  | .returned barStr => allocate memory (byteLen barStr + 1) ('\r' :: barStr)

/-- What one call of `SetProgress` reads from its environment: the clock at
`time.Since`, the clock at `time.Now`, the map iteration order in `render`, and
whether the runtime has the memory that `render` asks for. -/
structure Env where
  sinceClock : Int
  nowClock : Int
  order : Equiv.Perm (Fin 5)
  memory : Bool

/-- The method `SetProgress`: the bar after the call and what `render` did. -/
def ProgressBar.SetProgress (pb : ProgressBar) (env : Env) (prog : Int) :
    ProgressBar × Outcome Str :=
  let duration := seconds (since env.sinceClock pb.startTime)
  let duration := if duration ≤ f64round (1 / 1000000) then f64round (1 / 1000000) else duration
  let prog := if prog < 0 then 0 else if prog > pb.maxProgress then pb.maxProgress else prog
  let delta := f64ofInt (wrap64 (prog - pb.progress))
  let speed := f64add pb.speed (f64mul pb.gamma (f64sub (f64div delta duration) pb.speed))
  let pb := { pb with startTime := env.nowClock, speed := speed, progress := prog }
  (pb, pb.render env.order env.memory)

/-- The method `Step`. -/
def ProgressBar.Step (pb : ProgressBar) (env : Env) : ProgressBar × Outcome Str :=
  pb.SetProgress env (wrap64 (pb.progress + 1))

/-- The method `Reset`; `now` is the reading of `time.Now()`. -/
def ProgressBar.Reset (pb : ProgressBar) (now : Int) : ProgressBar :=
  { pb with progress := 0, speed := 0, startTime := now }

/-! ## `ProgressIterator` -/

/-- The struct `ProgressIterator[T]`; the bar behind the pointer `progress`
is held by the iterator. -/
structure ProgressIterator (T : Type) where
  iter : List T
  index : Int
  progress : ProgressBar

/-- The function `NewProgressIterator`. -/
def NewProgressIterator {T : Type} (iter : List T) (progress : ProgressBar) :
    ProgressIterator T :=
  { iter := iter, index := 0, progress := progress }

/-- The method `ProgressIterator.Next`: the iterator after the call, and the
returned pair (`none` is the pair `zero, false`) with the text written to
standard output.  The increment `it.index++` cannot overflow: it runs only
when `it.index` is below the length of a slice. -/
def ProgressIterator.Next {T : Type} (it : ProgressIterator T) (env : Env) :
    ProgressIterator T × Outcome (Option T × Str) :=
  if it.index ≥ it.iter.length then (it, .returned (none, []))
  else if it.index < 0 then (it, .panicked "index out of range")
  else
    match it.iter[it.index.toNat]? with
    | none => (it, .panicked "index out of range")
    | some value =>
      let index := it.index + 1
      let update := it.progress.SetProgress env index
      ({ it with index := index, progress := update.1 },
        update.2.map fun line => (some value, line))

/-- The method `ProgressIterator.Reset`; `now` is the reading of `time.Now()`. -/
def ProgressIterator.Reset {T : Type} (it : ProgressIterator T) (now : Int) :
    ProgressIterator T :=
  { it with index := 0, progress := it.progress.Reset now }

/-- The iterator after `k` successive calls of `Next`, call `i` made in the
environment `envs i`. -/
def ProgressIterator.after {T : Type} (it : ProgressIterator T) (envs : Nat → Env) :
    Nat → ProgressIterator T
  | 0 => it
  | k + 1 => ((it.after envs k).Next (envs k)).1

/-! ## `RangeIteratorImpl` -/

/-- The struct `RangeIteratorImpl` (the field `end` is written `end_`). -/
structure RangeIteratorImpl where
  start : Int
  end_ : Int
  step : Int
  current : Int
  progress : ProgressBar

/-- The function `NewRangeIterator`; `now` is the reading of `time.Now()`. -/
def NewRangeIterator (start end_ step : Int) (format : Str) (size : Int) (char : Str)
    (now : Int) : RangeIteratorImpl :=
  let step := if step = 0 then DefaultStep else step
  let pb := NewProgressBar format (wrap64 ((wrap64 (end_ - start)).tdiv step)) size char now
  { start := start, end_ := end_, step := step, current := start, progress := pb }

/-- The function `RangeIterator`. -/
def RangeIterator (start end_ : Int) (now : Int) : RangeIteratorImpl :=
  NewRangeIterator start end_ DefaultStep DefaultFormat DefaultBarSize DefaultBarChar now

/-- The function `StepRangeIterator`. -/
def StepRangeIterator (start end_ step : Int) (now : Int) : RangeIteratorImpl :=
  NewRangeIterator start end_ step DefaultFormat DefaultBarSize DefaultBarChar now

/-- The method `RangeIteratorImpl.Next`: the iterator after the call, and the
returned pair (`none` is the pair `0, false`) with the text written to standard
output. -/
def RangeIteratorImpl.Next (ri : RangeIteratorImpl) (env : Env) :
    RangeIteratorImpl × Outcome (Option Int × Str) :=
  if (ri.step > 0 ∧ ri.current ≥ ri.end_) ∨ (ri.step < 0 ∧ ri.current ≤ ri.end_) then
    (ri, .returned (none, []))
  else
    let val := ri.current
    let update := ri.progress.Step env
    ({ ri with current := wrap64 (ri.current + ri.step), progress := update.1 },
      update.2.map fun line => (some val, line))

/-- The iterator after `k` successive calls of `Next`, call `i` made in the
environment `envs i`. -/
def RangeIteratorImpl.after (ri : RangeIteratorImpl) (envs : Nat → Env) :
    Nat → RangeIteratorImpl
  | 0 => ri
  | k + 1 => ((ri.after envs k).Next (envs k)).1

/-! ## Predicates used by the statements -/

/-- The invariant of the data model: `maxProgress ≥ 1` and
`0 ≤ progress ≤ maxProgress`. -/
def ProgressBar.Inv (pb : ProgressBar) : Prop :=
  1 ≤ pb.maxProgress ∧ 0 ≤ pb.progress ∧ pb.progress ≤ pb.maxProgress

instance (pb : ProgressBar) : Decidable pb.Inv :=
  inferInstanceAs
    (Decidable (1 ≤ pb.maxProgress ∧ 0 ≤ pb.progress ∧ pb.progress ≤ pb.maxProgress))

/-- The characters that the five scalar fields of `render` are written with. -/
def fieldChars : Str := "0123456789.-:".toList

/-- The value `v` clamped into `[lo, hi]`. -/
def clamp (v lo hi : Int) : Int := max lo (min v hi)

/-- The value `v` lies strictly before `end_` in the direction of `step`. -/
def before (step end_ v : Int) : Prop := (step > 0 ∧ v < end_) ∨ (step < 0 ∧ v > end_)

instance (step end_ v : Int) : Decidable (before step end_ v) :=
  inferInstanceAs (Decidable ((step > 0 ∧ v < end_) ∨ (step < 0 ∧ v > end_)))

/-- The bar string that `render` builds when no call fails: `filled` copies of
`barChar`, then `barSize - filled` spaces. -/
def ProgressBar.barText (pb : ProgressBar) : Str :=
  (List.replicate pb.filled.toNat pb.barChar).flatten ++
    List.replicate (pb.barSize - pb.filled).toNat ' '

/-- The line that `render` writes after the carriage return when no call fails: the
formatted template, with the bar in the place of every `%bar%`. -/
def ProgressBar.line (pb : ProgressBar) (order : Equiv.Perm (Fin 5)) : Str :=
  if strContains "%bar%".toList (customFormat pb.barFormat (pb.ranged order)) then
    replaceAll (customFormat pb.barFormat (pb.ranged order)) "%bar%".toList pb.barText
  else customFormat pb.barFormat (pb.ranged order)

/-- The bar state can be drawn in an environment: if the formatted template contains
`%bar%` the width satisfies `0 ≤ barSize < 2^52`, the line to write, carriage return
included, is not longer than the allocator limit of `2^48` bytes, and the runtime has
the memory that `render` asks for. -/
def ProgressBar.drawable (pb : ProgressBar) (env : Env) : Prop :=
  (strContains "%bar%".toList (customFormat pb.barFormat (pb.ranged env.order)) = true →
    0 ≤ pb.barSize ∧ pb.barSize < 2 ^ 52) ∧
  byteLen (pb.line env.order) + 1 ≤ maxAlloc ∧ env.memory = true

instance (pb : ProgressBar) (env : Env) : Decidable (pb.drawable env) :=
  inferInstanceAs (Decidable
    ((strContains "%bar%".toList (customFormat pb.barFormat (pb.ranged env.order)) = true →
      0 ≤ pb.barSize ∧ pb.barSize < 2 ^ 52) ∧
    byteLen (pb.line env.order) + 1 ≤ maxAlloc ∧ env.memory = true))

/-- The names of the five scalar fields of `render`. -/
def fieldNames : List Str :=
  ["spd".toList, "eta".toList, "curr".toList, "max".toList, "prog".toList]

/-- No two placeholders of different fields share a `%` sign in the template: it
contains no `%a%b%` for distinct field names `a` and `b`. -/
def noSharedPercent (format : Str) : Prop :=
  ∀ a ∈ fieldNames, ∀ b ∈ fieldNames, a ≠ b →
    strContains ('%' :: a ++ '%' :: b ++ ['%']) format = false

instance (format : Str) : Decidable (noSharedPercent format) :=
  inferInstanceAs (Decidable (∀ a ∈ fieldNames, ∀ b ∈ fieldNames, a ≠ b →
    strContains ('%' :: a ++ '%' :: b ++ ['%']) format = false))

/-- The text that the statements on `customFormat` compare its result with: one pass
over a template from left to right that replaces every placeholder `%key%` of the
replacement list by its value; `skip` characters are passed over first. -/
def substituteFrom (replacements : List (Str × Str)) : Nat → Str → Str
  | _, [] => []
  | skip + 1, _ :: cs => substituteFrom replacements skip cs
  | 0, c :: cs =>
    match replacements.find? (fun kv => ('%' :: kv.1 ++ ['%']).isPrefixOf (c :: cs)) with
    | some kv => kv.2 ++ substituteFrom replacements (kv.1.length + 1) cs
    | none => c :: substituteFrom replacements 0 cs

/-- The step that `NewRangeIterator` stores: the default step in place of a zero
step. -/
def storedStep (step : Int) : Int := if step = 0 then DefaultStep else step

/-! ## Lemmas on binary64 rounding -/

/-- With enough fuel, `log2Fuel` brackets `n` between two consecutive powers of two. -/
theorem log2Fuel_spec : ∀ (fuel n : Nat), n ≤ fuel → 1 ≤ n →
    2 ^ log2Fuel fuel n ≤ n ∧ n < 2 ^ (log2Fuel fuel n + 1)
  | 0, n, h, h1 => by omega
  | fuel + 1, n, h, h1 => by
    unfold log2Fuel
    split_ifs with h2
    · have ih := log2Fuel_spec fuel (n / 2) (by omega) (by omega)
      rw [pow_succ, pow_succ]
      constructor <;> omega
    · constructor <;> simp <;> omega

theorem natLog2_spec (n : Nat) (h : 1 ≤ n) : 2 ^ natLog2 n ≤ n ∧ n < 2 ^ (natLog2 n + 1) :=
  log2Fuel_spec n n le_rfl h

theorem abs_eq_natAbs_div_den (q : ℚ) : |q| = (q.num.natAbs : ℚ) / (q.den : ℚ) := by
  have h := Rat.num_div_den q
  have hd : (0 : ℚ) < q.den := by exact_mod_cast q.den_pos
  conv_lhs => rw [← h]
  rw [abs_div, abs_of_pos hd]
  congr 1
  rw [Nat.cast_natAbs, Int.cast_abs]

/-- The exponent found by `ilog2` brackets `|q|`: `2^e ≤ |q| < 2^(e+1)`. -/
theorem ilog2_spec (q : ℚ) (hq : q ≠ 0) :
    (2 : ℚ) ^ ilog2 q ≤ |q| ∧ |q| < (2 : ℚ) ^ (ilog2 q + 1) := by
  have hn : 1 ≤ q.num.natAbs := by
    have : q.num ≠ 0 := Rat.num_ne_zero.mpr hq
    omega
  have hd : 1 ≤ q.den := q.den_pos
  obtain ⟨ha1, ha2⟩ := natLog2_spec _ hn
  obtain ⟨hb1, hb2⟩ := natLog2_spec _ hd
  have hdq : (0 : ℚ) < q.den := by exact_mod_cast q.den_pos
  have ha1' : (2 : ℚ) ^ (natLog2 q.num.natAbs : ℤ) ≤ (q.num.natAbs : ℚ) := by
    rw [zpow_natCast]; exact_mod_cast ha1
  have ha2' : (q.num.natAbs : ℚ) < (2 : ℚ) ^ ((natLog2 q.num.natAbs : ℤ) + 1) := by
    rw [show ((natLog2 q.num.natAbs : ℤ) + 1) = ((natLog2 q.num.natAbs + 1 : ℕ) : ℤ) by push_cast; ring,
      zpow_natCast]; exact_mod_cast ha2
  have hb1' : (2 : ℚ) ^ (natLog2 q.den : ℤ) ≤ (q.den : ℚ) := by
    rw [zpow_natCast]; exact_mod_cast hb1
  have hb2' : (q.den : ℚ) < (2 : ℚ) ^ ((natLog2 q.den : ℤ) + 1) := by
    rw [show ((natLog2 q.den : ℤ) + 1) = ((natLog2 q.den + 1 : ℕ) : ℤ) by push_cast; ring,
      zpow_natCast]; exact_mod_cast hb2
  have h2 : (0 : ℚ) < 2 := by norm_num
  have habs := abs_eq_natAbs_div_den q
  unfold ilog2
  simp only
  split_ifs with hc
  · refine ⟨hc, ?_⟩
    rw [habs, div_lt_iff₀ hdq]
    calc (q.num.natAbs : ℚ) < (2 : ℚ) ^ ((natLog2 q.num.natAbs : ℤ) + 1) := ha2'
      _ = (2 : ℚ) ^ ((natLog2 q.num.natAbs : ℤ) - (natLog2 q.den : ℤ) + 1) * (2 : ℚ) ^ (natLog2 q.den : ℤ) := by
          rw [← zpow_add₀ (ne_of_gt h2)]; congr 1; ring
      _ ≤ _ := by
          apply mul_le_mul_of_nonneg_left hb1' (le_of_lt (zpow_pos h2 _))
  · push_neg at hc
    refine ⟨?_, ?_⟩
    · rw [habs, le_div_iff₀ hdq]
      calc (2 : ℚ) ^ ((natLog2 q.num.natAbs : ℤ) - (natLog2 q.den : ℤ) - 1) * (q.den : ℚ)
          ≤ (2 : ℚ) ^ ((natLog2 q.num.natAbs : ℤ) - (natLog2 q.den : ℤ) - 1) * (2 : ℚ) ^ ((natLog2 q.den : ℤ) + 1) := by
            apply mul_le_mul_of_nonneg_left (le_of_lt hb2') (le_of_lt (zpow_pos h2 _))
        _ = (2 : ℚ) ^ (natLog2 q.num.natAbs : ℤ) := by
            rw [← zpow_add₀ (ne_of_gt h2)]; congr 1; ring
        _ ≤ _ := ha1'
    · rw [sub_add_cancel]; exact hc

theorem roundHalfEven_cases (x : ℚ) : roundHalfEven x = ⌊x⌋ ∨ roundHalfEven x = ⌊x⌋ + 1 := by
  unfold roundHalfEven
  simp only
  split_ifs <;> simp

theorem roundHalfEven_le (x : ℚ) : (roundHalfEven x : ℚ) ≤ x + 1 / 2 := by
  have hf := Int.floor_le x
  unfold roundHalfEven
  simp only
  split_ifs with h1 h2 h3
  · linarith
  · push_cast; linarith
  · linarith
  · push_cast; linarith

theorem roundHalfEven_ge (x : ℚ) : x - 1 / 2 ≤ (roundHalfEven x : ℚ) := by
  have hf := Int.lt_floor_add_one x
  unfold roundHalfEven
  simp only
  split_ifs with h1 h2 h3
  · linarith
  · push_cast; linarith
  · linarith
  · push_cast; linarith

theorem roundHalfEven_intCast (n : ℤ) : roundHalfEven (n : ℚ) = n := by
  unfold roundHalfEven
  simp

/-- Rounding to the nearest integer is monotone. -/
theorem roundHalfEven_mono {x y : ℚ} (h : x ≤ y) : roundHalfEven x ≤ roundHalfEven y := by
  have hfl : ⌊x⌋ ≤ ⌊y⌋ := Int.floor_le_floor h
  rcases lt_or_eq_of_le hfl with hlt | heq
  · have h1 : roundHalfEven x ≤ ⌊x⌋ + 1 := by
      rcases roundHalfEven_cases x with h | h <;> omega
    have h2 : ⌊y⌋ ≤ roundHalfEven y := by
      rcases roundHalfEven_cases y with h | h <;> omega
    omega
  · unfold roundHalfEven
    simp only
    rw [← heq]
    split_ifs <;> first | omega | (exfalso; linarith)

theorem roundHalfEven_nonneg {x : ℚ} (h : 0 ≤ x) : 0 ≤ roundHalfEven x := by
  have := roundHalfEven_mono h
  rwa [show (0 : ℚ) = ((0 : ℤ) : ℚ) by simp, roundHalfEven_intCast] at this

theorem f64ulp_pos (q : ℚ) : 0 < f64ulp q := by
  unfold f64ulp
  exact zpow_pos (by norm_num) _

theorem ilog2_mono {a b : ℚ} (ha : 0 < a) (h : a ≤ b) : ilog2 a ≤ ilog2 b := by
  have hb : 0 < b := lt_of_lt_of_le ha h
  obtain ⟨h1, _⟩ := ilog2_spec a (ne_of_gt ha)
  obtain ⟨_, h2⟩ := ilog2_spec b (ne_of_gt hb)
  rw [abs_of_pos ha] at h1
  rw [abs_of_pos hb] at h2
  have : (2 : ℚ) ^ ilog2 a < (2 : ℚ) ^ (ilog2 b + 1) := lt_of_le_of_lt (le_trans h1 h) h2
  have := (zpow_lt_zpow_iff_right₀ (by norm_num : (1 : ℚ) < 2)).mp this
  omega

theorem f64round_zero : f64round 0 = 0 := by
  unfold f64round
  simp

theorem f64round_nonneg {q : ℚ} (h : 0 ≤ q) : 0 ≤ f64round q := by
  unfold f64round
  split_ifs with h0
  · exact le_refl _
  · apply mul_nonneg _ (le_of_lt (f64ulp_pos q))
    have : 0 ≤ roundHalfEven (q / f64ulp q) :=
      roundHalfEven_nonneg (div_nonneg h (le_of_lt (f64ulp_pos q)))
    exact_mod_cast this

theorem f64round_of_ne_zero {q : ℚ} (h : q ≠ 0) :
    f64round q = (roundHalfEven (q / f64ulp q) : ℚ) * f64ulp q := by
  unfold f64round
  rw [if_neg h]

theorem two_zpow_53_mul (e : ℤ) : (2 : ℚ) ^ (53 : ℤ) * (2 : ℚ) ^ (e - 52) = (2 : ℚ) ^ (e + 1) := by
  rw [← zpow_add₀ (by norm_num : (2 : ℚ) ≠ 0)]
  congr 1
  ring

theorem two_zpow_52_mul (e : ℤ) : (2 : ℚ) ^ (52 : ℤ) * (2 : ℚ) ^ (e - 52) = (2 : ℚ) ^ e := by
  rw [← zpow_add₀ (by norm_num : (2 : ℚ) ≠ 0)]
  congr 1
  ring

/-- A rounded positive value does not leave its binade upwards. -/
theorem f64round_le_pow {q : ℚ} (hq : 0 < q) :
    f64round q ≤ (2 : ℚ) ^ (max (ilog2 q) (-1022) + 1) := by
  obtain ⟨_, h2⟩ := ilog2_spec q (ne_of_gt hq)
  rw [abs_of_pos hq] at h2
  have hle : (2 : ℚ) ^ (ilog2 q + 1) ≤ (2 : ℚ) ^ (max (ilog2 q) (-1022) + 1) :=
    zpow_le_zpow_right₀ (by norm_num) (by have := le_max_left (ilog2 q) (-1022); omega)
  have hu := f64ulp_pos q
  have hdiv : q / f64ulp q ≤ (((2 : ℤ) ^ (53 : ℕ) : ℤ) : ℚ) := by
    rw [div_le_iff₀ hu]
    have : (((2 : ℤ) ^ (53 : ℕ) : ℤ) : ℚ) * f64ulp q = (2 : ℚ) ^ (max (ilog2 q) (-1022) + 1) := by
      unfold f64ulp
      rw [← two_zpow_53_mul]
      norm_num
    rw [this]
    linarith
  have hr := roundHalfEven_mono hdiv
  rw [roundHalfEven_intCast] at hr
  rw [f64round_of_ne_zero (ne_of_gt hq)]
  have hr' : (roundHalfEven (q / f64ulp q) : ℚ) ≤ (2 : ℚ) ^ (53 : ℤ) := by
    have : ((roundHalfEven (q / f64ulp q) : ℤ) : ℚ) ≤ (((2 : ℤ) ^ (53 : ℕ) : ℤ) : ℚ) := by
      exact_mod_cast hr
    calc _ ≤ _ := this
      _ = _ := by norm_num
  calc (roundHalfEven (q / f64ulp q) : ℚ) * f64ulp q ≤ (2 : ℚ) ^ (53 : ℤ) * f64ulp q :=
        mul_le_mul_of_nonneg_right hr' (le_of_lt hu)
    _ = _ := by unfold f64ulp; exact two_zpow_53_mul _

/-- A rounded normal value does not leave its binade downwards. -/
theorem f64round_ge_pow {q : ℚ} (hq : 0 < q) (hn : -1022 ≤ ilog2 q) :
    (2 : ℚ) ^ ilog2 q ≤ f64round q := by
  obtain ⟨h1, _⟩ := ilog2_spec q (ne_of_gt hq)
  rw [abs_of_pos hq] at h1
  have hu := f64ulp_pos q
  have hue : f64ulp q = (2 : ℚ) ^ (ilog2 q - 52) := by
    unfold f64ulp
    rw [max_eq_left hn]
  have hdiv : (((2 : ℤ) ^ (52 : ℕ) : ℤ) : ℚ) ≤ q / f64ulp q := by
    rw [le_div_iff₀ hu]
    have : (((2 : ℤ) ^ (52 : ℕ) : ℤ) : ℚ) * f64ulp q = (2 : ℚ) ^ ilog2 q := by
      rw [hue, ← two_zpow_52_mul (ilog2 q)]
      norm_num
    rw [this]
    exact h1
  have hr := roundHalfEven_mono hdiv
  rw [roundHalfEven_intCast] at hr
  rw [f64round_of_ne_zero (ne_of_gt hq)]
  have hr' : (2 : ℚ) ^ (52 : ℤ) ≤ (roundHalfEven (q / f64ulp q) : ℚ) := by
    have : (((2 : ℤ) ^ (52 : ℕ) : ℤ) : ℚ) ≤ ((roundHalfEven (q / f64ulp q) : ℤ) : ℚ) := by
      exact_mod_cast hr
    calc _ = (((2 : ℤ) ^ (52 : ℕ) : ℤ) : ℚ) := by norm_num
      _ ≤ _ := this
  calc (2 : ℚ) ^ ilog2 q = (2 : ℚ) ^ (52 : ℤ) * f64ulp q := by rw [hue, two_zpow_52_mul]
    _ ≤ _ := mul_le_mul_of_nonneg_right hr' (le_of_lt hu)

/-- Rounding to binary64 is monotone on the non-negative rationals. -/
theorem f64round_mono {a b : ℚ} (ha : 0 ≤ a) (h : a ≤ b) : f64round a ≤ f64round b := by
  rcases eq_or_lt_of_le ha with h0 | hpos
  · rw [← h0, f64round_zero]
    exact f64round_nonneg (le_trans ha h)
  · have hb : 0 < b := lt_of_lt_of_le hpos h
    have hlog := ilog2_mono hpos h
    rcases eq_or_lt_of_le (max_le_max_right (-1022) hlog) with heq | hlt
    · have hu : f64ulp a = f64ulp b := by
        unfold f64ulp
        rw [heq]
      rw [f64round_of_ne_zero (ne_of_gt hpos), f64round_of_ne_zero (ne_of_gt hb), hu]
      apply mul_le_mul_of_nonneg_right _ (le_of_lt (f64ulp_pos b))
      have := roundHalfEven_mono (div_le_div_of_nonneg_right h (le_of_lt (f64ulp_pos b)))
      exact_mod_cast this
    · have hbn : -1022 ≤ ilog2 b := by
        by_contra hc
        push_neg at hc
        have h1 : max (ilog2 b) (-1022) = -1022 := max_eq_right (le_of_lt hc)
        have h2 := le_max_right (ilog2 a) (-1022)
        omega
      have hmb : max (ilog2 b) (-1022) = ilog2 b := max_eq_left hbn
      calc f64round a ≤ (2 : ℚ) ^ (max (ilog2 a) (-1022) + 1) := f64round_le_pow hpos
        _ ≤ (2 : ℚ) ^ ilog2 b := zpow_le_zpow_right₀ (by norm_num) (by omega)
        _ ≤ f64round b := f64round_ge_pow hb hbn

/-- A value `m * 2^k` with `|m| < 2^53` and `k ≥ -1074` is a float: rounding keeps it. -/
theorem f64round_exact (m k : ℤ) (hm : |m| < 2 ^ 53) (hk : -1074 ≤ k) :
    f64round ((m : ℚ) * (2 : ℚ) ^ k) = (m : ℚ) * (2 : ℚ) ^ k := by
  have h2 : (2 : ℚ) ≠ 0 := by norm_num
  have hpk : (0 : ℚ) < (2 : ℚ) ^ k := zpow_pos (by norm_num) _
  rcases eq_or_ne m 0 with h0 | h0
  · rw [h0]
    simp [f64round_zero]
  · have hq : (m : ℚ) * (2 : ℚ) ^ k ≠ 0 := mul_ne_zero (by exact_mod_cast h0) (ne_of_gt hpk)
    obtain ⟨h1, _⟩ := ilog2_spec _ hq
    rw [abs_mul, abs_of_pos hpk] at h1
    have hmq : |(m : ℚ)| < (2 : ℚ) ^ (53 : ℤ) := by
      have : ((|m| : ℤ) : ℚ) < (((2 : ℤ) ^ (53 : ℕ) : ℤ) : ℚ) := by exact_mod_cast hm
      rw [Int.cast_abs] at this
      calc _ < _ := this
        _ = _ := by norm_num
    have hlt : (2 : ℚ) ^ ilog2 ((m : ℚ) * (2 : ℚ) ^ k) < (2 : ℚ) ^ (53 + k) := by
      calc _ ≤ |(m : ℚ)| * (2 : ℚ) ^ k := h1
        _ < (2 : ℚ) ^ (53 : ℤ) * (2 : ℚ) ^ k := mul_lt_mul_of_pos_right hmq hpk
        _ = _ := by rw [← zpow_add₀ h2]
    have he := (zpow_lt_zpow_iff_right₀ (by norm_num : (1 : ℚ) < 2)).mp hlt
    have hE : max (ilog2 ((m : ℚ) * (2 : ℚ) ^ k)) (-1022) - 52 ≤ k := by
      rcases max_cases (ilog2 ((m : ℚ) * (2 : ℚ) ^ k)) (-1022) with ⟨h, _⟩ | ⟨h, _⟩ <;> omega
    obtain ⟨n, hn⟩ := Int.eq_ofNat_of_zero_le (sub_nonneg.mpr hE)
    have hu : f64ulp ((m : ℚ) * (2 : ℚ) ^ k) = (2 : ℚ) ^ (k - (n : ℤ)) := by
      unfold f64ulp
      congr 1
      omega
    have hdiv : (m : ℚ) * (2 : ℚ) ^ k / f64ulp ((m : ℚ) * (2 : ℚ) ^ k) = ((m * 2 ^ n : ℤ) : ℚ) := by
      rw [hu, zpow_sub₀ h2, zpow_natCast]
      push_cast
      field_simp
      ring
    rw [f64round_of_ne_zero hq, hdiv, roundHalfEven_intCast, hu, zpow_sub₀ h2, zpow_natCast]
    push_cast
    field_simp
    ring

/-- Integers below `2^53` in absolute value convert exactly. -/
theorem f64ofInt_exact (n : ℤ) (h : |n| < 2 ^ 53) : f64ofInt n = n := by
  have := f64round_exact n 0 h (by norm_num)
  simpa [f64ofInt] using this

/-- Rounding a positive normal value raises it by at most the factor `1 + 2^-53`. -/
theorem f64round_le_rel {q : ℚ} (hq : 0 < q) (hn : -1022 ≤ ilog2 q) :
    f64round q ≤ q * (1 + 1 / 2 ^ 53) := by
  obtain ⟨h1, _⟩ := ilog2_spec q (ne_of_gt hq)
  rw [abs_of_pos hq] at h1
  have hu := f64ulp_pos q
  have hue : f64ulp q = (2 : ℚ) ^ ilog2 q / 2 ^ 52 := by
    unfold f64ulp
    rw [max_eq_left hn, zpow_sub₀ (by norm_num : (2 : ℚ) ≠ 0)]
    norm_num
  have hul : f64ulp q ≤ q / 2 ^ 52 := by
    rw [hue]
    exact div_le_div_of_nonneg_right h1 (by norm_num)
  rw [f64round_of_ne_zero (ne_of_gt hq)]
  calc (roundHalfEven (q / f64ulp q) : ℚ) * f64ulp q
      ≤ (q / f64ulp q + 1 / 2) * f64ulp q :=
        mul_le_mul_of_nonneg_right (roundHalfEven_le _) (le_of_lt hu)
    _ = q + f64ulp q / 2 := by field_simp; ring
    _ ≤ q + q / 2 ^ 52 / 2 := by linarith
    _ = _ := by ring

/-- Rounding a positive normal value lowers it by at most the factor `1 - 2^-53`. -/
theorem f64round_ge_rel {q : ℚ} (hq : 0 < q) (hn : -1022 ≤ ilog2 q) :
    q * (1 - 1 / 2 ^ 53) ≤ f64round q := by
  obtain ⟨h1, _⟩ := ilog2_spec q (ne_of_gt hq)
  rw [abs_of_pos hq] at h1
  have hu := f64ulp_pos q
  have hue : f64ulp q = (2 : ℚ) ^ ilog2 q / 2 ^ 52 := by
    unfold f64ulp
    rw [max_eq_left hn, zpow_sub₀ (by norm_num : (2 : ℚ) ≠ 0)]
    norm_num
  have hul : f64ulp q ≤ q / 2 ^ 52 := by
    rw [hue]
    exact div_le_div_of_nonneg_right h1 (by norm_num)
  rw [f64round_of_ne_zero (ne_of_gt hq)]
  calc q * (1 - 1 / 2 ^ 53) = q - q / 2 ^ 52 / 2 := by ring
    _ ≤ q - f64ulp q / 2 := by linarith
    _ = (q / f64ulp q - 1 / 2) * f64ulp q := by field_simp; ring
    _ ≤ (roundHalfEven (q / f64ulp q) : ℚ) * f64ulp q :=
        mul_le_mul_of_nonneg_right (roundHalfEven_ge _) (le_of_lt hu)

theorem ilog2_nonneg {q : ℚ} (hq : 1 ≤ q) : 0 ≤ ilog2 q := by
  have hpos : 0 < q := lt_of_lt_of_le one_pos hq
  obtain ⟨_, h2⟩ := ilog2_spec q (ne_of_gt hpos)
  rw [abs_of_pos hpos] at h2
  have : (2 : ℚ) ^ (0 : ℤ) < (2 : ℚ) ^ (ilog2 q + 1) := by
    rw [zpow_zero]; linarith
  have := (zpow_lt_zpow_iff_right₀ (by norm_num : (1 : ℚ) < 2)).mp this
  omega

theorem truncQ_of_nonneg {x : ℚ} (h : 0 ≤ x) : truncQ x = ⌊x⌋ := by
  unfold truncQ
  rw [if_pos h]

theorem f64toInt_of_nonneg {x : ℚ} (h : 0 ≤ x) (hx : x < 2 ^ 63) : f64toInt x = ⌊x⌋ := by
  unfold f64toInt
  rw [truncQ_of_nonneg h]
  have h0 : 0 ≤ ⌊x⌋ := Int.floor_nonneg.mpr h
  have h1 : ⌊x⌋ < 2 ^ 63 := by
    have : (⌊x⌋ : ℚ) < ((2 ^ 63 : ℤ) : ℚ) := by
      push_cast
      exact lt_of_le_of_lt (Int.floor_le x) hx
    exact_mod_cast this
  rw [if_pos ⟨by omega, h1⟩]

theorem le_ilog2 {q : ℚ} {k : ℤ} (hq : 0 < q) (h : (2 : ℚ) ^ k ≤ q) : k ≤ ilog2 q := by
  obtain ⟨_, h2⟩ := ilog2_spec q (ne_of_gt hq)
  rw [abs_of_pos hq] at h2
  have := (zpow_lt_zpow_iff_right₀ (by norm_num : (1 : ℚ) < 2)).mp (lt_of_le_of_lt h h2)
  omega

/-- The model agrees with binary64 on known values: `0.1` is
`3602879701896397 * 2^-55`, `0.01` is `5764607523034235 * 2^-59`, and the integers
`2^53 + 1` and `2^53 + 3`, which lie halfway between two floats, go to the even
neighbours `2^53` and `2^53 + 4`. -/
theorem f64round_known_values :
    f64round (1 / 10) = 3602879701896397 / 2 ^ 55 ∧
    f64round (1 / 100) = 5764607523034235 / 2 ^ 59 ∧
    f64ofInt (2 ^ 53 + 1) = 2 ^ 53 ∧
    f64ofInt (2 ^ 53 + 3) = 2 ^ 53 + 4 ∧
    f64ofInt (2 ^ 60 - 1) = 2 ^ 60 := by
  decide!

/-! ## Lemmas on the bar and the iterators -/

theorem wrap64_of_inInt64 {x : Int} (h : inInt64 x) : wrap64 x = x := by
  unfold inInt64 at h
  unfold wrap64
  omega

theorem f64round_one : f64round 1 = 1 := by
  have := f64round_exact 1 0 (by norm_num) (by norm_num)
  simpa using this

theorem f64ofInt_nonneg {n : ℤ} (h : 0 ≤ n) : 0 ≤ f64ofInt n :=
  f64round_nonneg (by exact_mod_cast h)

theorem f64ofInt_mono {a b : ℤ} (ha : 0 ≤ a) (h : a ≤ b) : f64ofInt a ≤ f64ofInt b :=
  f64round_mono (by exact_mod_cast ha) (by exact_mod_cast h)

theorem f64ofInt_ge_one {n : ℤ} (h : 1 ≤ n) : 1 ≤ f64ofInt n := by
  have := f64round_mono (a := 1) (b := (n : ℚ)) (by norm_num) (by exact_mod_cast h)
  rwa [f64round_one] at this

/-- Upper bound on the float quotient `(B * P) / M` computed by `filled`. -/
theorem f64_scaled_quotient_le {B P M : ℚ} (n : ℤ) (hB : B = n) (hn0 : 0 ≤ n) (hn : n < 2 ^ 52)
    (hP : 0 ≤ P) (hPM : P ≤ M) (hM : 1 ≤ M) :
    f64div (f64mul B P) M ≤ B + 1 / 2 := by
  have hB0 : (0 : ℚ) ≤ B := by rw [hB]; exact_mod_cast hn0
  have hBle : B ≤ 2 ^ 52 := by
    rw [hB]
    have : ((n : ℤ) : ℚ) ≤ (((2 : ℤ) ^ (52 : ℕ) : ℤ) : ℚ) := by exact_mod_cast (le_of_lt hn)
    calc _ ≤ _ := this
      _ = _ := by norm_num
  have hMpos : (0 : ℚ) < M := lt_of_lt_of_le one_pos hM
  have hxy : f64mul B P ≤ f64round (B * M) :=
    f64round_mono (mul_nonneg hB0 hP) (mul_le_mul_of_nonneg_left hPM hB0)
  have hy : f64round (B * M) ≤ B * M * (1 + 1 / 2 ^ 53) := by
    rcases eq_or_lt_of_le hn0 with h0 | hpos
    · have : B = 0 := by rw [hB, ← h0]; simp
      rw [this]
      simp [f64round_zero]
    · have hB1 : (1 : ℚ) ≤ B := by rw [hB]; exact_mod_cast hpos
      have h1 : (1 : ℚ) ≤ B * M := by nlinarith
      exact f64round_le_rel (lt_of_lt_of_le one_pos h1) (by have := ilog2_nonneg h1; omega)
  have hquot : f64mul B P / M ≤ B + 1 / 2 := by
    rw [div_le_iff₀ hMpos]
    calc f64mul B P ≤ B * M * (1 + 1 / 2 ^ 53) := le_trans hxy hy
      _ = (B + B / 2 ^ 53) * M := by ring
      _ ≤ (B + 1 / 2) * M := by
          apply mul_le_mul_of_nonneg_right _ (le_of_lt hMpos)
          have : B / 2 ^ 53 ≤ 1 / 2 := by
            rw [div_le_iff₀ (by norm_num)]
            linarith
          linarith
  have hx0 : 0 ≤ f64mul B P := f64round_nonneg (mul_nonneg hB0 hP)
  have hexact : f64round (B + 1 / 2) = B + 1 / 2 := by
    have := f64round_exact (2 * n + 1) (-1) (by rw [abs_of_nonneg (by omega)]; omega) (by norm_num)
    have heq : ((2 * n + 1 : ℤ) : ℚ) * (2 : ℚ) ^ (-1 : ℤ) = B + 1 / 2 := by
      rw [hB]
      push_cast
      rw [zpow_neg_one]
      ring
    rwa [heq] at this
  calc f64div (f64mul B P) M ≤ f64round (B + 1 / 2) :=
        f64round_mono (div_nonneg hx0 (le_of_lt hMpos)) hquot
    _ = _ := hexact

/-- For a width below `2^52` the count computed by `render` stays within the width. -/
theorem filled_bounds (pb : ProgressBar) (hinv : pb.Inv) (h0 : 0 ≤ pb.barSize)
    (h52 : pb.barSize < 2 ^ 52) : 0 ≤ pb.filled ∧ pb.filled ≤ pb.barSize := by
  obtain ⟨hm, hp0, hpm⟩ := hinv
  have hB : f64ofInt pb.barSize = pb.barSize :=
    f64ofInt_exact _ (by rw [abs_of_nonneg h0]; omega)
  have hP := f64ofInt_nonneg hp0
  have hPM := f64ofInt_mono hp0 hpm
  have hM := f64ofInt_ge_one hm
  have hB0 : (0 : ℚ) ≤ f64ofInt pb.barSize := f64ofInt_nonneg h0
  have hMpos : (0 : ℚ) < f64ofInt pb.maxProgress := lt_of_lt_of_le one_pos hM
  have hle := f64_scaled_quotient_le pb.barSize hB h0 h52 hP hPM hM
  have hge : 0 ≤ f64div (f64mul (f64ofInt pb.barSize) (f64ofInt pb.progress))
      (f64ofInt pb.maxProgress) :=
    f64round_nonneg (div_nonneg (f64round_nonneg (mul_nonneg hB0 hP)) (le_of_lt hMpos))
  have hBlt : (pb.barSize : ℚ) + 1 / 2 < 2 ^ 63 := by
    have : ((pb.barSize : ℤ) : ℚ) ≤ (((2 : ℤ) ^ (52 : ℕ) : ℤ) : ℚ) := by exact_mod_cast (le_of_lt h52)
    have h2 : (((2 : ℤ) ^ (52 : ℕ) : ℤ) : ℚ) = 2 ^ 52 := by norm_num
    rw [h2] at this
    norm_num at this ⊢
    linarith
  rw [hB] at hle hge
  unfold ProgressBar.filled
  rw [hB, f64toInt_of_nonneg hge (lt_of_le_of_lt hle hBlt)]
  refine ⟨Int.floor_nonneg.mpr hge, ?_⟩
  have h1 : ⌊f64div (f64mul (pb.barSize : ℚ) (f64ofInt pb.progress))
      (f64ofInt pb.maxProgress)⌋ < pb.barSize + 1 := by
    rw [Int.floor_lt]
    push_cast
    linarith
  omega

theorem strContains_iff (sub s : Str) : strContains sub s = true ↔ sub <:+: s := by
  induction s with
  | nil =>
    simp only [strContains, List.isPrefixOf_iff_prefix, List.prefix_nil, List.infix_nil]
  | cons c cs ih =>
    simp only [strContains, Bool.or_eq_true, List.isPrefixOf_iff_prefix, ih, List.infix_cons_iff]

theorem byteLen_cons (c : Char) (s : Str) : byteLen (c :: s) = c.utf8Size + byteLen s := by
  simp [byteLen]

theorem byteLen_append (a b : Str) : byteLen (a ++ b) = byteLen a + byteLen b := by
  simp [byteLen]

theorem byteLen_flatten_replicate (s : Str) :
    ∀ n : Nat, byteLen (List.replicate n s).flatten = n * byteLen s
  | 0 => by simp [byteLen]
  | n + 1 => by
    rw [List.replicate_succ, List.flatten_cons, byteLen_append, byteLen_flatten_replicate s n]
    ring

theorem allocate_returned (n : Nat) (s : Str) (h : n ≤ maxAlloc) :
    allocate true n s = .returned s := by
  unfold allocate
  rw [if_neg (by omega), if_pos rfl]
  split_ifs <;> rfl

/-- With memory, `strings.Repeat` returns for a count that is not negative and a result
within the allocator limit. -/
theorem strRepeat_returned (s : Str) (count : Int) (h0 : 0 ≤ count)
    (hlen : byteLen s * count.toNat ≤ maxAlloc) :
    strRepeat true s count = .returned (List.replicate count.toNat s).flatten := by
  unfold strRepeat
  by_cases hc0 : count = 0
  · rw [if_pos hc0, hc0]
    rfl
  · rw [if_neg hc0]
    by_cases hc1 : count = 1
    · rw [if_pos hc1, hc1]
      simp
    · rw [if_neg hc1, if_neg (by omega)]
      have hcast : (byteLen s : Int) * count = ((byteLen s * count.toNat : ℕ) : ℤ) := by
        push_cast
        rw [Int.toNat_of_nonneg h0]
      have hlt : ¬ (2 : ℤ) ^ 63 ≤ (byteLen s : Int) * count := by
        rw [hcast]
        have : ((byteLen s * count.toNat : ℕ) : ℤ) ≤ ((maxAlloc : ℕ) : ℤ) := by
          exact_mod_cast hlen
        unfold maxAlloc at this
        push_cast at this ⊢
        omega
      rw [if_neg hlt]
      by_cases hs : s = []
      · rw [if_pos hs, hs]
        simp
      · rw [if_neg hs]
        exact allocate_returned _ _ hlen

/-- A call of `strings.Repeat` with a count that is not negative does not panic for a
negative count. -/
theorem strRepeat_not_negative (memory : Bool) (s : Str) (count : Int) (h0 : 0 ≤ count) :
    strRepeat memory s count ≠ .panicked "strings: negative Repeat count" := by
  unfold strRepeat allocate
  split_ifs <;>
    first
    | (exfalso; omega)
    | (intro h; injection h with h2; revert h2; decide)
    | (intro h; cases h)

theorem strConcat_returned (a b : Str) (h : byteLen a + byteLen b ≤ maxAlloc) :
    strConcat true a b = .returned (a ++ b) := by
  unfold strConcat
  by_cases ha : a = []
  · rw [if_pos ha, ha]
    rfl
  · rw [if_neg ha]
    by_cases hb : b = []
    · rw [if_pos hb, hb, List.append_nil]
    · rw [if_neg hb]
      exact allocate_returned _ _ h

theorem strConcat_not_negative (memory : Bool) (a b : Str) :
    strConcat memory a b ≠ .panicked "strings: negative Repeat count" := by
  unfold strConcat allocate
  split_ifs <;>
    first
    | (intro h; injection h with h2; revert h2; decide)
    | (intro h; cases h)

theorem byteLen_replicate_blank : ∀ n : Nat, byteLen (List.replicate n ' ') = n
  | 0 => rfl
  | n + 1 => by
    rw [List.replicate_succ, byteLen_cons, byteLen_replicate_blank n,
      show (' ' : Char).utf8Size = 1 by decide]
    omega

/-- The number of bytes of the bar string. -/
theorem byteLen_barText (pb : ProgressBar) :
    byteLen pb.barText =
      pb.filled.toNat * byteLen pb.barChar + (pb.barSize - pb.filled).toNat := by
  unfold ProgressBar.barText
  rw [byteLen_append, byteLen_flatten_replicate, byteLen_replicate_blank]

/-- A call that returns a value with its line does not signal the end. -/
theorem Outcome_map_some_ne_none {α : Type} (o : Outcome Str) (v : α) :
    (o.map fun line => (some v, line)) ≠ .returned (none, []) ∧
    (o.map fun line => (some v, line)).map Prod.fst ≠ .returned none := by
  cases o <;> simp [Outcome.map]

/-- With `0 ≤ filled ≤ barSize`, memory and a bar string within the allocator limit,
both calls of `strings.Repeat` and the concatenation return. -/
theorem bar_of_filled_bounds (pb : ProgressBar) (hf0 : 0 ≤ pb.filled)
    (hfB : pb.filled ≤ pb.barSize) (hB : pb.barSize < 2 ^ 63)
    (hlen : byteLen pb.barText ≤ maxAlloc) :
    pb.bar true = .returned pb.barText := by
  have hw : wrap64 (pb.barSize - pb.filled) = pb.barSize - pb.filled :=
    wrap64_of_inInt64 ⟨by omega, by omega⟩
  have hb := byteLen_barText pb
  have h1 : byteLen pb.barChar * pb.filled.toNat ≤ maxAlloc := by
    rw [mul_comm]
    omega
  have h2 : byteLen [' '] * (pb.barSize - pb.filled).toNat ≤ maxAlloc := by
    have : byteLen [' '] = 1 := by decide
    rw [this, one_mul]
    omega
  unfold ProgressBar.bar
  rw [hw, strRepeat_returned _ _ hf0 h1, strRepeat_returned _ _ (by omega) h2]
  simp only
  have h3 : (List.replicate (pb.barSize - pb.filled).toNat [' ']).flatten =
      List.replicate (pb.barSize - pb.filled).toNat ' ' := by
    induction (pb.barSize - pb.filled).toNat with
    | zero => rfl
    | succ n ih => rw [List.replicate_succ, List.flatten_cons, ih]; rfl
  rw [h3]
  exact strConcat_returned _ _ (by
    have := byteLen_append (List.replicate pb.filled.toNat pb.barChar).flatten
      (List.replicate (pb.barSize - pb.filled).toNat ' ')
    unfold ProgressBar.barText at hlen
    omega)

/-- With `0 ≤ filled ≤ barSize` building the bar does not panic for a negative count,
whatever the memory. -/
theorem bar_not_negative (pb : ProgressBar) (memory : Bool) (hf0 : 0 ≤ pb.filled)
    (hfB : pb.filled ≤ pb.barSize) (hB : pb.barSize < 2 ^ 63) :
    pb.bar memory ≠ .panicked "strings: negative Repeat count" := by
  have hw : wrap64 (pb.barSize - pb.filled) = pb.barSize - pb.filled :=
    wrap64_of_inInt64 ⟨by omega, by omega⟩
  unfold ProgressBar.bar
  rw [hw]
  cases h1 : strRepeat memory pb.barChar pb.filled with
  | panicked m =>
    simp only
    rw [← h1]
    exact strRepeat_not_negative memory _ _ hf0
  | returned cells =>
    simp only
    cases h2 : strRepeat memory [' '] (pb.barSize - pb.filled) with
    | panicked m =>
      simp only
      rw [← h2]
      exact strRepeat_not_negative memory _ _ (by omega)
    | returned blanks =>
      simp only
      exact strConcat_not_negative memory _ _

theorem bar_returned (pb : ProgressBar) (hinv : pb.Inv) (h0 : 0 ≤ pb.barSize)
    (h52 : pb.barSize < 2 ^ 52) (hlen : byteLen pb.barText ≤ maxAlloc) :
    pb.bar true = .returned pb.barText := by
  obtain ⟨hf0, hfB⟩ := filled_bounds pb hinv h0 h52
  exact bar_of_filled_bounds pb hf0 hfB (by omega) hlen

/-- Where the pattern occurs, the text after the replacement is at least as long as the
replacement. -/
theorem byteLen_le_replaceFrom (old new : Str) :
    ∀ s : Str, old <:+: s → old ≠ [] → byteLen new ≤ byteLen (replaceFrom old new 0 s)
  | [], h, hold => absurd (List.infix_nil.mp h) hold
  | c :: cs, h, hold => by
    unfold replaceFrom
    split_ifs with hp
    · rw [byteLen_append]
      omega
    · rw [List.isPrefixOf_iff_prefix] at hp
      rw [List.infix_cons_iff] at h
      rcases h with h | h
      · exact absurd h hp
      · have := byteLen_le_replaceFrom old new cs h hold
        rw [byteLen_cons]
        omega

/-- The bar is not longer than the line it is put in. -/
theorem byteLen_barText_le_line (pb : ProgressBar) (order : Equiv.Perm (Fin 5))
    (hc : strContains "%bar%".toList (customFormat pb.barFormat (pb.ranged order)) = true) :
    byteLen pb.barText ≤ byteLen (pb.line order) := by
  unfold ProgressBar.line
  rw [if_pos hc]
  unfold replaceAll
  rw [if_neg (by decide)]
  exact byteLen_le_replaceFrom _ _ _ ((strContains_iff _ _).mp hc) (by decide)

/-- With `0 ≤ filled ≤ barSize`, memory and a line within the allocator limit, `barStr`
is the line. -/
theorem barStr_of_filled_bounds (pb : ProgressBar) (order : Equiv.Perm (Fin 5))
    (hw : strContains "%bar%".toList (customFormat pb.barFormat (pb.ranged order)) = true →
      0 ≤ pb.filled ∧ pb.filled ≤ pb.barSize ∧ pb.barSize < 2 ^ 63)
    (hlen : byteLen (pb.line order) ≤ maxAlloc) :
    pb.barStr order true = .returned (pb.line order) := by
  unfold ProgressBar.barStr
  simp only
  by_cases hc : strContains "%bar%".toList (customFormat pb.barFormat (pb.ranged order)) = true
  · have hb := byteLen_barText_le_line pb order hc
    obtain ⟨hf0, hfB, hB⟩ := hw hc
    rw [if_pos hc, bar_of_filled_bounds pb hf0 hfB hB (by omega)]
    simp only
    have hl : pb.line order = replaceAll (customFormat pb.barFormat (pb.ranged order))
        "%bar%".toList pb.barText := by
      unfold ProgressBar.line
      rw [if_pos hc]
    rw [← hl]
    exact allocate_returned _ _ hlen
  · rw [if_neg hc]
    unfold ProgressBar.line
    rw [if_neg hc]

theorem barStr_returned (pb : ProgressBar) (order : Equiv.Perm (Fin 5)) (hinv : pb.Inv)
    (hw : strContains "%bar%".toList (customFormat pb.barFormat (pb.ranged order)) = true →
      0 ≤ pb.barSize ∧ pb.barSize < 2 ^ 52)
    (hlen : byteLen (pb.line order) ≤ maxAlloc) :
    pb.barStr order true = .returned (pb.line order) := by
  apply barStr_of_filled_bounds pb order _ hlen
  intro hc
  obtain ⟨h0, h52⟩ := hw hc
  obtain ⟨hf0, hfB⟩ := filled_bounds pb hinv h0 h52
  exact ⟨hf0, hfB, by omega⟩

/-- `render` returns the line for every bar state within the invariant that can be
drawn. -/
theorem render_returned (pb : ProgressBar) (env : Env) (hinv : pb.Inv)
    (hd : pb.drawable env) :
    pb.render env.order env.memory = .returned ('\r' :: pb.line env.order) := by
  obtain ⟨hw, hlen, hmem⟩ := hd
  unfold ProgressBar.render
  rw [hmem, barStr_returned pb env.order hinv hw (by omega)]
  simp only
  exact allocate_returned _ _ hlen

/-- What `strings.Repeat` returns, when it returns. -/
theorem strRepeat_eq_of_returned (memory : Bool) (s : Str) (count : Int) (r : Str)
    (h : strRepeat memory s count = .returned r) :
    r = (List.replicate count.toNat s).flatten ∧ 0 ≤ count := by
  unfold strRepeat allocate at h
  split_ifs at h with h0 h1 h2 h3 h4 h5 h6 h7
  all_goals cases h
  · subst h0
    exact ⟨rfl, le_refl _⟩
  · subst h1
    exact ⟨by simp, by decide⟩
  · subst h4
    exact ⟨by simp, by omega⟩
  · exact ⟨rfl, by omega⟩
  · exact ⟨rfl, by omega⟩

theorem strConcat_eq_of_returned (memory : Bool) (a b r : Str)
    (h : strConcat memory a b = .returned r) : r = a ++ b := by
  unfold strConcat allocate at h
  split_ifs at h with h0 h1
  all_goals cases h
  · subst h0
    rfl
  · subst h1
    simp
  · rfl
  · rfl

/-- Whenever building the bar returns, for a width in the `int` range, it returns
`filled` copies of `barChar` followed by `barSize - filled` spaces. -/
theorem bar_eq_of_returned (pb : ProgressBar) (memory : Bool) (r : Str)
    (hB : inInt64 (pb.barSize - pb.filled)) (h : pb.bar memory = .returned r) :
    r = pb.barText ∧ 0 ≤ pb.filled ∧ pb.filled ≤ pb.barSize := by
  unfold ProgressBar.bar at h
  rw [wrap64_of_inInt64 hB] at h
  cases h1 : strRepeat memory pb.barChar pb.filled with
  | panicked m => rw [h1] at h; cases h
  | returned cells =>
    rw [h1] at h
    simp only at h
    cases h2 : strRepeat memory [' '] (pb.barSize - pb.filled) with
    | panicked m => rw [h2] at h; cases h
    | returned blanks =>
      rw [h2] at h
      simp only at h
      obtain ⟨e1, hc1⟩ := strRepeat_eq_of_returned _ _ _ _ h1
      obtain ⟨e2, hc2⟩ := strRepeat_eq_of_returned _ _ _ _ h2
      have e3 := strConcat_eq_of_returned _ _ _ _ h
      have h3 : (List.replicate (pb.barSize - pb.filled).toNat [' ']).flatten =
          List.replicate (pb.barSize - pb.filled).toNat ' ' := by
        induction (pb.barSize - pb.filled).toNat with
        | zero => rfl
        | succ n ih => rw [List.replicate_succ, List.flatten_cons, ih]; rfl
      refine ⟨?_, hc1, by omega⟩
      rw [e3, e1, e2, h3]
      rfl

theorem SetProgress_progress (pb : ProgressBar) (env : Env) (v : Int) :
    (pb.SetProgress env v).1.progress =
      if v < 0 then 0 else if v > pb.maxProgress then pb.maxProgress else v := rfl

theorem SetProgress_maxProgress (pb : ProgressBar) (env : Env) (v : Int) :
    (pb.SetProgress env v).1.maxProgress = pb.maxProgress := rfl

theorem SetProgress_barSize (pb : ProgressBar) (env : Env) (v : Int) :
    (pb.SetProgress env v).1.barSize = pb.barSize := rfl

/-- `SetProgress` establishes the invariant on every bar with `maxProgress ≥ 1`. -/
theorem SetProgress_inv (pb : ProgressBar) (env : Env) (v : Int) (h : 1 ≤ pb.maxProgress) :
    (pb.SetProgress env v).1.Inv := by
  unfold ProgressBar.Inv
  rw [SetProgress_progress, SetProgress_maxProgress]
  refine ⟨h, ?_, ?_⟩ <;> split_ifs <;> omega

theorem SetProgress_returned (pb : ProgressBar) (env : Env) (v : Int) (h : 1 ≤ pb.maxProgress)
    (hd : (pb.SetProgress env v).1.drawable env) :
    (pb.SetProgress env v).2 = .returned ('\r' :: (pb.SetProgress env v).1.line env.order) :=
  render_returned (pb.SetProgress env v).1 env (SetProgress_inv pb env v h) hd

/-- The float quotient of two small integers has the floor of the exact quotient. -/
theorem f64_quotient_floor (a m : ℤ) (ha : 0 ≤ a) (hm : 1 ≤ m) (h : a + m ≤ 2 ^ 52) :
    ⌊f64round ((a : ℚ) / (m : ℚ))⌋ = a / m := by
  have hmq : (0 : ℚ) < m := by exact_mod_cast (by omega : (0 : ℤ) < m)
  have hn0 : 0 ≤ a / m := Int.ediv_nonneg ha (by omega)
  have hlo : a / m * m ≤ a := Int.ediv_mul_le a (by omega)
  have hhi : a < (a / m + 1) * m := Int.lt_ediv_add_one_mul_self a (by omega)
  have hnle : a / m ≤ a := by nlinarith
  have hq0 : (0 : ℚ) ≤ (a : ℚ) / m := div_nonneg (by exact_mod_cast ha) (le_of_lt hmq)
  rw [Int.floor_eq_iff]
  constructor
  · -- the floor is representable and below the quotient
    have hex : f64round ((a / m : ℤ) : ℚ) = ((a / m : ℤ) : ℚ) := by
      have := f64round_exact (a / m) 0 (by rw [abs_of_nonneg hn0]; omega) (by norm_num)
      simpa using this
    rw [← hex]
    apply f64round_mono (by exact_mod_cast hn0)
    rw [le_div_iff₀ hmq]
    exact_mod_cast hlo
  · -- a representable number separates the quotient from the next integer
    obtain ⟨hj1, hj2⟩ := natLog2_spec m.toNat (by omega)
    have hjm : ((2 : ℤ) ^ natLog2 m.toNat) ≤ m := by
      have : (((2 : ℕ) ^ natLog2 m.toNat : ℕ) : ℤ) ≤ (m.toNat : ℤ) := by exact_mod_cast hj1
      rw [Int.toNat_of_nonneg (by omega)] at this
      exact_mod_cast this
    have hmj : m < (2 : ℤ) ^ (natLog2 m.toNat + 1) := by
      have : ((m.toNat : ℕ) : ℤ) < (((2 : ℕ) ^ (natLog2 m.toNat + 1) : ℕ) : ℤ) := by
        exact_mod_cast hj2
      rw [Int.toNat_of_nonneg (by omega)] at this
      exact_mod_cast this
    have hj53 : natLog2 m.toNat + 1 ≤ 53 := by
      by_contra hc
      push_neg at hc
      have : (2 : ℤ) ^ 53 ≤ (2 : ℤ) ^ natLog2 m.toNat :=
        pow_le_pow_right₀ (by norm_num) (by omega)
      omega
    have hpow : (2 : ℤ) ^ (natLog2 m.toNat + 1) = 2 * (2 : ℤ) ^ natLog2 m.toNat := by
      rw [pow_succ]; ring
    have hpos : (0 : ℤ) < (2 : ℤ) ^ (natLog2 m.toNat + 1) := by positivity
    have hbig : (a / m + 1) * (2 : ℤ) ^ (natLog2 m.toNat + 1) ≤ 2 ^ 53 := by
      rw [hpow]
      nlinarith
    have hr := f64round_exact ((a / m + 1) * (2 : ℤ) ^ (natLog2 m.toNat + 1) - 1)
      (-((natLog2 m.toNat + 1 : ℕ) : ℤ))
      (by rw [abs_of_nonneg (by nlinarith)]; omega) (by omega)
    have h2 : (2 : ℚ) ≠ 0 := by norm_num
    have hval : (((a / m + 1) * (2 : ℤ) ^ (natLog2 m.toNat + 1) - 1 : ℤ) : ℚ) *
        (2 : ℚ) ^ (-((natLog2 m.toNat + 1 : ℕ) : ℤ)) =
        ((a / m : ℤ) : ℚ) + 1 - 1 / (2 : ℚ) ^ (natLog2 m.toNat + 1) := by
      rw [zpow_neg, zpow_natCast]
      push_cast
      field_simp
    rw [hval] at hr
    have hqr : (a : ℚ) / m ≤ ((a / m : ℤ) : ℚ) + 1 - 1 / (2 : ℚ) ^ (natLog2 m.toNat + 1) := by
      have h1 : (a : ℚ) / m ≤ ((a / m : ℤ) : ℚ) + 1 - 1 / m := by
        rw [div_le_iff₀ hmq]
        have : (a : ℚ) + 1 ≤ (((a / m : ℤ) : ℚ) + 1) * m := by
          exact_mod_cast (by omega : a + 1 ≤ (a / m + 1) * m)
        have hm1 : (1 : ℚ) / m * m = 1 := by field_simp
        nlinarith
      have h3 : (1 : ℚ) / (2 : ℚ) ^ (natLog2 m.toNat + 1) ≤ 1 / m := by
        apply one_div_le_one_div_of_le hmq
        exact_mod_cast le_of_lt hmj
      linarith
    calc f64round ((a : ℚ) / m) ≤ f64round (((a / m : ℤ) : ℚ) + 1 -
          1 / (2 : ℚ) ^ (natLog2 m.toNat + 1)) := f64round_mono hq0 hqr
      _ = ((a / m : ℤ) : ℚ) + 1 - 1 / (2 : ℚ) ^ (natLog2 m.toNat + 1) := hr
      _ < ((a / m : ℤ) : ℚ) + 1 := by
          have : (0 : ℚ) < 1 / (2 : ℚ) ^ (natLog2 m.toNat + 1) := by positivity
          linarith

/-- Below the bound every float operation of `filled` is exact up to the last floor. -/
theorem filled_exact (pb : ProgressBar) (hinv : pb.Inv) (h0 : 0 ≤ pb.barSize)
    (hsmall : pb.barSize * pb.progress + pb.maxProgress ≤ 2 ^ 52) :
    pb.filled = pb.barSize * pb.progress / pb.maxProgress := by
  obtain ⟨hm, hp0, hpm⟩ := hinv
  unfold ProgressBar.filled
  rcases eq_or_lt_of_le hp0 with hz | hpos
  · rw [← hz]
    simp [f64ofInt, f64mul, f64div, f64round_zero, f64toInt, truncQ]
  · have hBp : 0 ≤ pb.barSize * pb.progress := mul_nonneg h0 hp0
    have hBle : pb.barSize ≤ pb.barSize * pb.progress := by nlinarith
    have hB : f64ofInt pb.barSize = pb.barSize :=
      f64ofInt_exact _ (by rw [abs_of_nonneg h0]; omega)
    have hP : f64ofInt pb.progress = pb.progress :=
      f64ofInt_exact _ (by rw [abs_of_nonneg hp0]; omega)
    have hM : f64ofInt pb.maxProgress = pb.maxProgress :=
      f64ofInt_exact _ (by rw [abs_of_nonneg (by omega)]; omega)
    have hX : f64mul (pb.barSize : ℚ) (pb.progress : ℚ) = ((pb.barSize * pb.progress : ℤ) : ℚ) := by
      have := f64ofInt_exact (pb.barSize * pb.progress) (by rw [abs_of_nonneg hBp]; omega)
      unfold f64ofInt at this
      unfold f64mul
      rw [← this]
      push_cast
      rfl
    have hfl := f64_quotient_floor (pb.barSize * pb.progress) pb.maxProgress hBp hm hsmall
    have hv0 : 0 ≤ f64round (((pb.barSize * pb.progress : ℤ) : ℚ) / (pb.maxProgress : ℚ)) :=
      f64round_nonneg (div_nonneg (by exact_mod_cast hBp) (by exact_mod_cast (by omega : (0:ℤ) ≤ pb.maxProgress)))
    have hn : pb.barSize * pb.progress / pb.maxProgress ≤ pb.barSize * pb.progress :=
      Int.ediv_le_self _ hBp
    have hvlt : f64round (((pb.barSize * pb.progress : ℤ) : ℚ) / (pb.maxProgress : ℚ)) < 2 ^ 63 := by
      have h1 := Int.lt_floor_add_one
        (f64round (((pb.barSize * pb.progress : ℤ) : ℚ) / (pb.maxProgress : ℚ)))
      rw [hfl] at h1
      have h2 : ((pb.barSize * pb.progress / pb.maxProgress : ℤ) : ℚ) + 1 ≤ (((2 : ℤ) ^ 53 : ℤ) : ℚ) := by
        exact_mod_cast (by omega : pb.barSize * pb.progress / pb.maxProgress + 1 ≤ (2 : ℤ) ^ 53)
      have h3 : (((2 : ℤ) ^ 53 : ℤ) : ℚ) < 2 ^ 63 := by norm_num
      linarith
    rw [hB, hP, hM, hX]
    unfold f64div
    rw [f64toInt_of_nonneg hv0 hvlt, hfl]

theorem percent_upper_aux {a v K : ℚ} (ha0 : 0 ≤ a) (ha : a ≤ 100) (hv : v ≤ a * K)
    (hK : K ≤ 1 + 1 / 2 ^ 44 / 100) : v ≤ a + 1 / 2 ^ 44 := by
  have h1 := mul_le_mul_of_nonneg_left hK ha0
  have h2 : a * (1 / 2 ^ 44 / 100) ≤ 100 * (1 / 2 ^ 44 / 100) :=
    mul_le_mul_of_nonneg_right ha (by norm_num)
  have h3 : a * (1 + 1 / 2 ^ 44 / 100) = a + a * (1 / 2 ^ 44 / 100) := by ring
  have h4 : (100 : ℚ) * (1 / 2 ^ 44 / 100) = 1 / 2 ^ 44 := by norm_num
  linarith

theorem percent_lower_aux {a v K : ℚ} (ha0 : 0 ≤ a) (ha : a ≤ 100) (hv : a * K ≤ v)
    (hK : 1 - 1 / 2 ^ 44 / 100 ≤ K) : a - 1 / 2 ^ 44 ≤ v := by
  have h1 := mul_le_mul_of_nonneg_left hK ha0
  have h2 : a * (1 / 2 ^ 44 / 100) ≤ 100 * (1 / 2 ^ 44 / 100) :=
    mul_le_mul_of_nonneg_right ha (by norm_num)
  have h3 : a * (1 - 1 / 2 ^ 44 / 100) = a - a * (1 / 2 ^ 44 / 100) := by ring
  have h4 : (100 : ℚ) * (1 / 2 ^ 44 / 100) = 1 / 2 ^ 44 := by norm_num
  linarith

/-- Two-sided bound on the float percentage `100 * float64(p) / float64(m)`. -/
theorem f64_percent_bounds (p m : ℤ) (hp : 1 ≤ p) (hpm : p ≤ m) (hm : m < 2 ^ 63) :
    100 * (p : ℚ) / m - 1 / 2 ^ 44 ≤ f64div (f64mul 100 (f64ofInt p)) (f64ofInt m) ∧
    f64div (f64mul 100 (f64ofInt p)) (f64ofInt m) ≤ 100 * (p : ℚ) / m + 1 / 2 ^ 44 := by
  have hpq : (1 : ℚ) ≤ p := by exact_mod_cast hp
  have hmq : (1 : ℚ) ≤ m := by exact_mod_cast (by omega : (1 : ℤ) ≤ m)
  have hpmq : (p : ℚ) ≤ m := by exact_mod_cast hpm
  have hm63 : (m : ℚ) ≤ 2 ^ 63 := by
    have : ((m : ℤ) : ℚ) ≤ (((2 : ℤ) ^ 63 : ℤ) : ℚ) := by exact_mod_cast le_of_lt hm
    simpa using this
  have hp0 : (0 : ℚ) < p := by linarith
  have hm0 : (0 : ℚ) < m := by linarith
  -- the four roundings
  have hPle : f64ofInt p ≤ p * (1 + 1 / 2 ^ 53) :=
    f64round_le_rel hp0 (by have := ilog2_nonneg hpq; omega)
  have hPge : p * (1 - 1 / 2 ^ 53) ≤ f64ofInt p :=
    f64round_ge_rel hp0 (by have := ilog2_nonneg hpq; omega)
  have hMle : f64ofInt m ≤ m * (1 + 1 / 2 ^ 53) :=
    f64round_le_rel hm0 (by have := ilog2_nonneg hmq; omega)
  have hMge : m * (1 - 1 / 2 ^ 53) ≤ f64ofInt m :=
    f64round_ge_rel hm0 (by have := ilog2_nonneg hmq; omega)
  have hP1 : (1 : ℚ) ≤ f64ofInt p := f64ofInt_ge_one hp
  have hM1 : (1 : ℚ) ≤ f64ofInt m := f64ofInt_ge_one (by omega)
  have hM0 : (0 : ℚ) < f64ofInt m := by linarith
  have hX1 : (1 : ℚ) ≤ 100 * f64ofInt p := by linarith
  have hX0 : (0 : ℚ) < 100 * f64ofInt p := by linarith
  have hXle : f64mul 100 (f64ofInt p) ≤ 100 * f64ofInt p * (1 + 1 / 2 ^ 53) :=
    f64round_le_rel hX0 (by have := ilog2_nonneg hX1; omega)
  have hXge : 100 * f64ofInt p * (1 - 1 / 2 ^ 53) ≤ f64mul 100 (f64ofInt p) :=
    f64round_ge_rel hX0 (by have := ilog2_nonneg hX1; omega)
  have hXpos : (0 : ℚ) < f64mul 100 (f64ofInt p) := by
    have : (0 : ℚ) < 100 * f64ofInt p * (1 - 1 / 2 ^ 53) := by
      apply mul_pos hX0; norm_num
    linarith
  have hY0 : (0 : ℚ) < f64mul 100 (f64ofInt p) / f64ofInt m := div_pos hXpos hM0
  have hMup : f64ofInt m ≤ 2 ^ 64 := by
    have : (m : ℚ) * (1 + 1 / 2 ^ 53) ≤ 2 ^ 63 * (1 + 1 / 2 ^ 53) :=
      mul_le_mul_of_nonneg_right hm63 (by norm_num)
    have h2 : (2 : ℚ) ^ 63 * (1 + 1 / 2 ^ 53) ≤ 2 ^ 64 := by norm_num
    linarith
  have hXlow : (1 / 2 : ℚ) ≤ f64mul 100 (f64ofInt p) := by
    have : (1 : ℚ) * (1 - 1 / 2 ^ 53) ≤ 100 * f64ofInt p * (1 - 1 / 2 ^ 53) :=
      mul_le_mul_of_nonneg_right hX1 (by norm_num)
    have h2 : (1 / 2 : ℚ) ≤ 1 * (1 - 1 / 2 ^ 53) := by norm_num
    linarith
  have hYnorm : -1022 ≤ ilog2 (f64mul 100 (f64ofInt p) / f64ofInt m) := by
    have : (2 : ℚ) ^ (-65 : ℤ) ≤ f64mul 100 (f64ofInt p) / f64ofInt m := by
      rw [le_div_iff₀ hM0]
      have h65 : (2 : ℚ) ^ (-65 : ℤ) = 1 / 2 ^ 65 := by
        rw [zpow_neg]; norm_num
      rw [h65]
      have : (1 : ℚ) / 2 ^ 65 * f64ofInt m ≤ 1 / 2 ^ 65 * 2 ^ 64 :=
        mul_le_mul_of_nonneg_left hMup (by norm_num)
      have h3 : (1 : ℚ) / 2 ^ 65 * 2 ^ 64 = 1 / 2 := by norm_num
      linarith
    have := le_ilog2 hY0 this
    omega
  have hVle := f64round_le_rel hY0 hYnorm
  have hVge := f64round_ge_rel hY0 hYnorm
  have hc : (0 : ℚ) < 1 + 1 / 2 ^ 53 := by norm_num
  have hd : (0 : ℚ) < 1 - 1 / 2 ^ 53 := by norm_num
  have hmd : (0 : ℚ) < m * (1 - 1 / 2 ^ 53) := mul_pos hm0 hd
  have hmc : (0 : ℚ) < m * (1 + 1 / 2 ^ 53) := mul_pos hm0 hc
  have ha100 : 100 * (p : ℚ) / m ≤ 100 := by
    rw [div_le_iff₀ hm0]; linarith
  have ha0 : 0 ≤ 100 * (p : ℚ) / m := by positivity
  constructor
  · -- lower bound
    have hXge' : 100 * (p : ℚ) * (1 - 1 / 2 ^ 53) ^ 2 ≤ f64mul 100 (f64ofInt p) := by
      have : 100 * (p * (1 - 1 / 2 ^ 53)) * (1 - 1 / 2 ^ 53) ≤
          100 * f64ofInt p * (1 - 1 / 2 ^ 53) :=
        mul_le_mul_of_nonneg_right (by linarith) (le_of_lt hd)
      calc 100 * (p : ℚ) * (1 - 1 / 2 ^ 53) ^ 2
          = 100 * (p * (1 - 1 / 2 ^ 53)) * (1 - 1 / 2 ^ 53) := by ring
        _ ≤ _ := this
        _ ≤ _ := hXge
    have hY : 100 * (p : ℚ) * (1 - 1 / 2 ^ 53) ^ 2 / (m * (1 + 1 / 2 ^ 53)) ≤
        f64mul 100 (f64ofInt p) / f64ofInt m :=
      div_le_div₀ (le_of_lt hXpos) hXge' hM0 hMle
    have hV : 100 * (p : ℚ) * (1 - 1 / 2 ^ 53) ^ 2 / (m * (1 + 1 / 2 ^ 53)) * (1 - 1 / 2 ^ 53)
        ≤ f64div (f64mul 100 (f64ofInt p)) (f64ofInt m) :=
      le_trans (mul_le_mul_of_nonneg_right hY (le_of_lt hd)) hVge
    have hfac : 100 * (p : ℚ) * (1 - 1 / 2 ^ 53) ^ 2 / (m * (1 + 1 / 2 ^ 53)) * (1 - 1 / 2 ^ 53)
        = 100 * (p : ℚ) / m * ((1 - 1 / 2 ^ 53) ^ 3 / (1 + 1 / 2 ^ 53)) := by
      field_simp
      ring
    have hnum : (1 : ℚ) - 1 / 2 ^ 44 / 100 ≤ (1 - 1 / 2 ^ 53) ^ 3 / (1 + 1 / 2 ^ 53) := by
      norm_num
    rw [hfac] at hV
    exact percent_lower_aux ha0 ha100 hV hnum
  · -- upper bound
    have hXle' : f64mul 100 (f64ofInt p) ≤ 100 * (p : ℚ) * (1 + 1 / 2 ^ 53) ^ 2 := by
      have : 100 * f64ofInt p * (1 + 1 / 2 ^ 53) ≤
          100 * (p * (1 + 1 / 2 ^ 53)) * (1 + 1 / 2 ^ 53) :=
        mul_le_mul_of_nonneg_right (by linarith) (le_of_lt hc)
      calc f64mul 100 (f64ofInt p) ≤ _ := hXle
        _ ≤ _ := this
        _ = _ := by ring
    have hnn : (0 : ℚ) ≤ 100 * (p : ℚ) * (1 + 1 / 2 ^ 53) ^ 2 := by positivity
    have hY : f64mul 100 (f64ofInt p) / f64ofInt m ≤
        100 * (p : ℚ) * (1 + 1 / 2 ^ 53) ^ 2 / (m * (1 - 1 / 2 ^ 53)) :=
      div_le_div₀ hnn hXle' hmd hMge
    have hV : f64div (f64mul 100 (f64ofInt p)) (f64ofInt m) ≤
        100 * (p : ℚ) * (1 + 1 / 2 ^ 53) ^ 2 / (m * (1 - 1 / 2 ^ 53)) * (1 + 1 / 2 ^ 53) :=
      le_trans hVle (mul_le_mul_of_nonneg_right hY (le_of_lt hc))
    have hfac : 100 * (p : ℚ) * (1 + 1 / 2 ^ 53) ^ 2 / (m * (1 - 1 / 2 ^ 53)) * (1 + 1 / 2 ^ 53)
        = 100 * (p : ℚ) / m * ((1 + 1 / 2 ^ 53) ^ 3 / (1 - 1 / 2 ^ 53)) := by
      field_simp
      ring
    have hnum : (1 + 1 / 2 ^ 53) ^ 3 / (1 - 1 / 2 ^ 53) ≤ (1 : ℚ) + 1 / 2 ^ 44 / 100 := by
      norm_num
    rw [hfac] at hV
    exact percent_upper_aux ha0 ha100 hV hnum

theorem f64_percent_bounds_nonneg (p m : ℤ) (hp : 0 ≤ p) (hpm : p ≤ m) (hm1 : 1 ≤ m)
    (hm : m < 2 ^ 63) :
    0 ≤ f64div (f64mul 100 (f64ofInt p)) (f64ofInt m) ∧
    100 * (p : ℚ) / m - 1 / 2 ^ 44 ≤ f64div (f64mul 100 (f64ofInt p)) (f64ofInt m) ∧
    f64div (f64mul 100 (f64ofInt p)) (f64ofInt m) ≤ 100 * (p : ℚ) / m + 1 / 2 ^ 44 := by
  have hM0 : (0 : ℚ) < f64ofInt m := lt_of_lt_of_le one_pos (f64ofInt_ge_one hm1)
  have hv0 : 0 ≤ f64div (f64mul 100 (f64ofInt p)) (f64ofInt m) :=
    f64round_nonneg (div_nonneg (f64round_nonneg (mul_nonneg (by norm_num)
      (f64ofInt_nonneg hp))) (le_of_lt hM0))
  rcases eq_or_lt_of_le hp with hz | hpos
  · rw [← hz]
    simp [f64ofInt, f64mul, f64div, f64round_zero]
  · exact ⟨hv0, f64_percent_bounds p m (by omega) hpm hm⟩

theorem NewProgressBar_inv (format : Str) (max size : Int) (char : Str) (now : Int) :
    (NewProgressBar format max size char now).Inv := by
  unfold ProgressBar.Inv NewProgressBar
  simp only
  split_ifs <;> omega

theorem Step_inv (pb : ProgressBar) (env : Env) (h : 1 ≤ pb.maxProgress) : (pb.Step env).1.Inv :=
  SetProgress_inv pb env _ h

theorem Reset_inv (pb : ProgressBar) (now : Int) (h : 1 ≤ pb.maxProgress) : (pb.Reset now).Inv := by
  unfold ProgressBar.Inv ProgressBar.Reset
  simp only
  omega

theorem ProgressIterator_Next_inv {T : Type} (it : ProgressIterator T) (env : Env)
    (h : it.progress.Inv) : (it.Next env).1.progress.Inv := by
  unfold ProgressIterator.Next
  split_ifs
  · exact h
  · exact h
  · split
    · exact h
    · exact SetProgress_inv _ _ _ h.1

theorem RangeIteratorImpl_Next_inv (ri : RangeIteratorImpl) (env : Env)
    (h : ri.progress.Inv) : (ri.Next env).1.progress.Inv := by
  unfold RangeIteratorImpl.Next
  split_ifs
  · exact h
  · exact Step_inv _ _ h.1

/-- After `k` calls the cursor of a sequence iterator is `min k (len xs)`. -/
theorem ProgressIterator_after_state {T : Type} (xs : List T) (pb : ProgressBar)
    (envs : Nat → Env) :
    ∀ k : Nat, ((NewProgressIterator xs pb).after envs k).iter = xs ∧
      ((NewProgressIterator xs pb).after envs k).index = min k xs.length ∧
      ((NewProgressIterator xs pb).after envs k).progress.maxProgress = pb.maxProgress ∧
      ((NewProgressIterator xs pb).after envs k).progress.barSize = pb.barSize
  | 0 => by simp [ProgressIterator.after, NewProgressIterator]
  | k + 1 => by
    obtain ⟨h1, h2, h3, h4⟩ := ProgressIterator_after_state xs pb envs k
    rw [ProgressIterator.after]
    unfold ProgressIterator.Next
    rw [h1, h2]
    by_cases hk : k < xs.length
    · have hmin : ((min k xs.length : ℕ) : ℤ) = k := by
        rw [min_eq_left (le_of_lt hk)]
      rw [hmin]
      rw [if_neg (by omega), if_neg (by omega)]
      have hget : xs[(k : ℤ).toNat]? = some xs[k] := by
        simp [List.getElem?_eq_getElem hk]
      rw [hget]
      simp only [SetProgress_maxProgress, SetProgress_barSize]
      refine ⟨trivial, ?_, h3, h4⟩
      rw [min_eq_left (by omega)]
      push_cast
      rfl
    · have hmin : ((min k xs.length : ℕ) : ℤ) = xs.length := by
        rw [min_eq_right (by omega)]
      rw [hmin, if_pos (le_refl _)]
      refine ⟨h1, ?_, h3, h4⟩
      rw [h2, min_eq_right (by omega), min_eq_right (by omega)]

theorem not_before_of_le {step end_ : Int} {a b : Int} {i j : ℕ} (hij : i ≤ j)
    (ha : a = b + i * step) (h : ¬ before step end_ a) : ¬ before step end_ (b + j * step) := by
  unfold before at h ⊢
  have hd : ((j : ℤ) - i) * step = j * step - i * step := by ring
  have hji : (0 : ℤ) ≤ (j : ℤ) - i := by omega
  rcases lt_trichotomy step 0 with hs | hs | hs
  · have : ((j : ℤ) - i) * step ≤ 0 := mul_nonpos_of_nonneg_of_nonpos hji (le_of_lt hs)
    omega
  · omega
  · have : 0 ≤ ((j : ℤ) - i) * step := mul_nonneg hji (le_of_lt hs)
    omega

/-- After `k` calls the counter of a range iterator is `start + j * step` for the
number `j ≤ k` of values returned, and it has stopped when `j < k`. -/
theorem RangeIteratorImpl_after_state (start end_ step : Int) (format : Str) (size : Int)
    (char : Str) (now : Int) (envs : Nat → Env) (hstep : step ≠ 0)
    (hno : ∀ j : ℕ, before step end_ (start + j * step) → inInt64 (start + (j + 1) * step)) :
    ∀ k : Nat,
      ((NewRangeIterator start end_ step format size char now).after envs k).step = step ∧
      ((NewRangeIterator start end_ step format size char now).after envs k).end_ = end_ ∧
      ((NewRangeIterator start end_ step format size char now).after envs k).progress.Inv ∧
      ((NewRangeIterator start end_ step format size char now).after envs k).progress.barSize
        = size ∧
      ∃ j : ℕ, j ≤ k ∧
        ((NewRangeIterator start end_ step format size char now).after envs k).current
          = start + j * step ∧
        (j < k → ¬ before step end_ (start + j * step))
  | 0 => by
    refine ⟨?_, rfl, NewProgressBar_inv _ _ _ _ _, rfl, 0, le_refl _, ?_, ?_⟩
    · simp [RangeIteratorImpl.after, NewRangeIterator, hstep]
    · simp [RangeIteratorImpl.after, NewRangeIterator]
    · omega
  | k + 1 => by
    obtain ⟨h1, h2, h3, h4, j, hj, hcur, hnb⟩ :=
      RangeIteratorImpl_after_state start end_ step format size char now envs hstep hno k
    rw [RangeIteratorImpl.after]
    unfold RangeIteratorImpl.Next
    rw [h1, h2, hcur]
    by_cases hb : before step end_ (start + j * step)
    · have hjk : j = k := by
        by_contra hne
        exact hnb (by omega) hb
      have hstop : ¬ ((step > 0 ∧ start + j * step ≥ end_) ∨
          (step < 0 ∧ start + j * step ≤ end_)) := by
        unfold before at hb
        omega
      rw [if_neg hstop]
      simp only
      refine ⟨trivial, trivial, Step_inv _ _ h3.1, h4, k + 1, le_refl _, ?_, by omega⟩
      have := hno j hb
      rw [show start + (j : ℤ) * step + step = start + ((j : ℤ) + 1) * step by ring,
        wrap64_of_inInt64 this, hjk]
      push_cast
      rfl
    · have hstop : (step > 0 ∧ start + j * step ≥ end_) ∨
          (step < 0 ∧ start + j * step ≤ end_) := by
        unfold before at hb
        omega
      rw [if_pos hstop]
      exact ⟨h1, h2, h3, h4, j, by omega, hcur, fun _ => hb⟩

/-- The bar of a range iterator after a call that is made strictly before the end is the
bar that `Step` leaves. -/
theorem RangeIteratorImpl_after_succ_progress (start end_ step : Int) (format : Str)
    (size : Int) (char : Str) (now : Int) (envs : Nat → Env) (k : Nat) (hstep : step ≠ 0)
    (hno : ∀ j : ℕ, before step end_ (start + j * step) → inInt64 (start + (j + 1) * step))
    (hb : before step end_ (start + k * step)) :
    ((NewRangeIterator start end_ step format size char now).after envs (k + 1)).progress =
      (((NewRangeIterator start end_ step format size char now).after envs k).progress.Step
        (envs k)).1 := by
  obtain ⟨h1, h2, h3, h4, j, hj, hcur, hnb⟩ :=
    RangeIteratorImpl_after_state start end_ step format size char now envs hstep hno k
  have hjk : j = k := by
    by_contra hne
    exact not_before_of_le hj rfl (hnb (by omega)) hb
  rw [RangeIteratorImpl.after]
  unfold RangeIteratorImpl.Next
  rw [h1, h2, hcur, hjk]
  have hstop : ¬ ((step > 0 ∧ start + k * step ≥ end_) ∨
      (step < 0 ∧ start + k * step ≤ end_)) := by
    unfold before at hb
    omega
  rw [if_neg hstop]

/-- The `k`-th call of `Next` on a fresh range iterator signals the end exactly when
`start + k * step` is not strictly before the end, whether or not earlier calls could
draw their line. -/
theorem NewRangeIterator_Next_end_iff (start end_ step : Int) (format : Str) (size : Int)
    (char : Str) (now : Int) (envs : Nat → Env) (k : Nat) (hstep : step ≠ 0)
    (hno : ∀ j : ℕ, before step end_ (start + j * step) → inInt64 (start + (j + 1) * step)) :
    (((NewRangeIterator start end_ step format size char now).after envs k).Next
        (envs k)).2 = .returned (none, []) ↔ ¬ before step end_ (start + k * step) := by
  obtain ⟨h1, h2, h3, h4, j, hj, hcur, hnb⟩ :=
    RangeIteratorImpl_after_state start end_ step format size char now envs hstep hno k
  unfold RangeIteratorImpl.Next
  rw [h1, h2, hcur]
  by_cases hb : before step end_ (start + j * step)
  · have hjk : j = k := by
      by_contra hne
      exact hnb (by omega) hb
    have hstop : ¬ ((step > 0 ∧ start + j * step ≥ end_) ∨
        (step < 0 ∧ start + j * step ≤ end_)) := by
      unfold before at hb
      omega
    rw [if_neg hstop, ← hjk]
    simp only [hb, not_true_eq_false, iff_false]
    exact (Outcome_map_some_ne_none _ _).1
  · have hstop : (step > 0 ∧ start + j * step ≥ end_) ∨
        (step < 0 ∧ start + j * step ≤ end_) := by
      unfold before at hb
      omega
    rw [if_pos hstop]
    simp only [true_iff]
    exact not_before_of_le hj rfl hb

/-- The value returned by the `k`-th call of `Next` on a fresh range iterator, when the
line of that call can be drawn. -/
theorem NewRangeIterator_Next_values (start end_ step : Int) (format : Str) (size : Int)
    (char : Str) (now : Int) (envs : Nat → Env) (k : Nat) (hstep : step ≠ 0)
    (hno : ∀ j : ℕ, before step end_ (start + j * step) → inInt64 (start + (j + 1) * step))
    (hdraw : before step end_ (start + k * step) →
      ((NewRangeIterator start end_ step format size char now).after envs
        (k + 1)).progress.drawable (envs k)) :
    ((((NewRangeIterator start end_ step format size char now).after envs k).Next
        (envs k)).2.map Prod.fst) =
      .returned (if before step end_ (start + k * step) then some (start + k * step)
        else none) := by
  obtain ⟨h1, h2, h3, h4, j, hj, hcur, hnb⟩ :=
    RangeIteratorImpl_after_state start end_ step format size char now envs hstep hno k
  by_cases hb : before step end_ (start + k * step)
  · have hd := hdraw hb
    rw [RangeIteratorImpl_after_succ_progress start end_ step format size char now envs k
      hstep hno hb] at hd
    have hjk : j = k := by
      by_contra hne
      exact not_before_of_le hj rfl (hnb (by omega)) hb
    have hstop : ¬ ((step > 0 ∧ start + j * step ≥ end_) ∨
        (step < 0 ∧ start + j * step ≤ end_)) := by
      unfold before at hb
      rw [hjk]
      omega
    have hline := SetProgress_returned
      ((NewRangeIterator start end_ step format size char now).after envs k).progress (envs k)
      (wrap64 (((NewRangeIterator start end_ step format size char now).after envs k).progress.progress + 1))
      h3.1 hd
    unfold RangeIteratorImpl.Next
    rw [h1, h2, hcur, if_neg hstop]
    simp only [ProgressBar.Step]
    rw [hline, if_pos hb, hjk]
    rfl
  · have hend := (NewRangeIterator_Next_end_iff start end_ step format size char now envs k
      hstep hno).mpr hb
    rw [hend, if_neg hb]
    rfl

/-- The bar of a sequence iterator after a call that returns an element is the bar that
`SetProgress` leaves. -/
theorem ProgressIterator_after_succ_progress {T : Type} (xs : List T) (pb : ProgressBar)
    (envs : Nat → Env) (k : Nat) (hk : k < xs.length) :
    ((NewProgressIterator xs pb).after envs (k + 1)).progress =
      (((NewProgressIterator xs pb).after envs k).progress.SetProgress (envs k)
        ((k : ℤ) + 1)).1 := by
  obtain ⟨h1, h2, h3, h4⟩ := ProgressIterator_after_state xs pb envs k
  rw [ProgressIterator.after]
  unfold ProgressIterator.Next
  rw [h1, h2]
  have hmin : ((min k xs.length : ℕ) : ℤ) = k := by
    rw [min_eq_left (le_of_lt hk)]
  rw [hmin, if_neg (by omega), if_neg (by omega)]
  have hget : xs[(k : ℤ).toNat]? = some xs[k] := by
    simp [List.getElem?_eq_getElem hk]
  rw [hget]

/-- The outcome of the `k`-th call of `Next` on a fresh sequence iterator, when the line
of that call can be drawn. -/
theorem ProgressIterator_Next_values {T : Type} (xs : List T) (pb : ProgressBar)
    (envs : Nat → Env) (k : Nat) (hmax : 1 ≤ pb.maxProgress)
    (hdraw : k < xs.length →
      ((NewProgressIterator xs pb).after envs (k + 1)).progress.drawable (envs k)) :
    ((((NewProgressIterator xs pb).after envs k).Next (envs k)).2.map Prod.fst) =
      .returned xs[k]? := by
  obtain ⟨h1, h2, h3, h4⟩ := ProgressIterator_after_state xs pb envs k
  by_cases hk : k < xs.length
  · have hd := hdraw hk
    rw [ProgressIterator_after_succ_progress xs pb envs k hk] at hd
    have hline := SetProgress_returned
      ((NewProgressIterator xs pb).after envs k).progress (envs k) ((k : ℤ) + 1)
      (by rw [h3]; exact hmax) hd
    unfold ProgressIterator.Next
    rw [h1, h2]
    have hmin : ((min k xs.length : ℕ) : ℤ) = k := by
      rw [min_eq_left (le_of_lt hk)]
    rw [hmin, if_neg (by omega), if_neg (by omega)]
    have hget : xs[(k : ℤ).toNat]? = some xs[k] := by
      simp [List.getElem?_eq_getElem hk]
    rw [hget]
    simp only
    rw [hline, List.getElem?_eq_getElem hk]
    rfl
  · unfold ProgressIterator.Next
    rw [h1, h2]
    have hmin : ((min k xs.length : ℕ) : ℤ) = xs.length := by
      rw [min_eq_right (by omega)]
    rw [hmin, if_pos (le_refl _), List.getElem?_eq_none (by omega)]
    rfl

/-- Resetting a sequence iterator that was made over `xs` gives the fresh iterator over
`xs` with the reset bar. -/
theorem ProgressIterator_Reset_after {T : Type} (xs : List T) (pb : ProgressBar)
    (envs : Nat → Env) (k : Nat) (now : Int) :
    ((NewProgressIterator xs pb).after envs k).Reset now =
      NewProgressIterator xs (((NewProgressIterator xs pb).after envs k).progress.Reset now) := by
  obtain ⟨h1, -, -, -⟩ := ProgressIterator_after_state xs pb envs k
  unfold ProgressIterator.Reset
  rw [h1]
  rfl

/-- The progress stored in the bar of a sequence iterator after `k + 1` calls of `Next`,
for `k` below the length of the sequence. -/
theorem ProgressIterator_after_progress {T : Type} (xs : List T) (pb : ProgressBar)
    (envs : Nat → Env) (k : Nat) (hk : k < xs.length) :
    ((NewProgressIterator xs pb).after envs (k + 1)).progress.progress =
      min ((k : ℤ) + 1) pb.maxProgress := by
  obtain ⟨h1, h2, h3, h4⟩ := ProgressIterator_after_state xs pb envs k
  rw [ProgressIterator.after]
  unfold ProgressIterator.Next
  rw [h1, h2]
  have hmin : ((min k xs.length : ℕ) : ℤ) = k := by
    rw [min_eq_left (le_of_lt hk)]
  rw [hmin, if_neg (by omega), if_neg (by omega)]
  have hget : xs[(k : ℤ).toNat]? = some xs[k] := by
    simp [List.getElem?_eq_getElem hk]
  rw [hget]
  simp only
  rw [SetProgress_progress, h3, if_neg (by omega)]
  by_cases hgt : (k : ℤ) + 1 > pb.maxProgress
  · rw [if_pos hgt, min_eq_right (by omega)]
  · rw [if_neg hgt, min_eq_left (by omega)]

/-- Truncating and flooring division agree once the quotient is coerced to at least
`1`, for a positive divisor. -/
theorem max_one_tdiv_of_pos (a b : Int) (hb : 0 < b) :
    max 1 (a.tdiv b) = max 1 ⌊(a : ℚ) / (b : ℚ)⌋ := by
  have hbq : (0 : ℚ) < (b : ℚ) := by exact_mod_cast hb
  rcases le_or_lt 0 a with ha | ha
  · rw [Int.tdiv_eq_ediv ha (le_of_lt hb)]
    congr 1
    symm
    rw [Int.floor_eq_iff]
    constructor
    · rw [le_div_iff₀ hbq]
      exact_mod_cast Int.ediv_mul_le a (ne_of_gt hb)
    · rw [div_lt_iff₀ hbq]
      exact_mod_cast Int.lt_ediv_add_one_mul_self a hb
  · have h1 : a.tdiv b ≤ 0 := by
      have : a.tdiv b = -((-a).tdiv b) := by rw [Int.neg_tdiv, neg_neg]
      rw [this, Int.tdiv_eq_ediv (by omega) (le_of_lt hb)]
      have := Int.ediv_nonneg (show 0 ≤ -a by omega) (le_of_lt hb)
      omega
    have h2 : ⌊(a : ℚ) / (b : ℚ)⌋ ≤ 0 := by
      have hneg : (a : ℚ) / (b : ℚ) < 0 := div_neg_of_neg_of_pos (by exact_mod_cast ha) hbq
      have := Int.floor_le ((a : ℚ) / (b : ℚ))
      by_contra hc
      push_neg at hc
      have : (1 : ℚ) ≤ (⌊(a : ℚ) / (b : ℚ)⌋ : ℚ) := by exact_mod_cast hc
      linarith
    rw [max_eq_left (by omega), max_eq_left (by omega)]

/-- Truncating and flooring division agree once the quotient is coerced to at least
`1`. -/
theorem max_one_tdiv (a b : Int) (hb : b ≠ 0) :
    max 1 (a.tdiv b) = max 1 ⌊(a : ℚ) / (b : ℚ)⌋ := by
  rcases lt_or_gt_of_ne hb with h | h
  · have := max_one_tdiv_of_pos (-a) (-b) (by omega)
    rw [Int.neg_tdiv, Int.tdiv_neg, neg_neg] at this
    rw [this]
    push_cast
    rw [neg_div_neg_eq]
  · exact max_one_tdiv_of_pos a b h

/-- The truncated quotient of an `int` by a non-zero `int` is an `int`, the quotient of
the least `int` by `-1` apart. -/
theorem inInt64_tdiv (a b : Int) (ha : inInt64 a) (hb : b ≠ 0)
    (hq : ¬ (a = -(2 ^ 63) ∧ b = -1)) : inInt64 (a.tdiv b) := by
  unfold inInt64 at ha ⊢
  have habs : (a.tdiv b).natAbs = a.natAbs / b.natAbs := Int.natAbs_tdiv a b
  by_cases h1 : b.natAbs = 1
  · rcases Int.natAbs_eq b with hb1 | hb1
    · rw [h1] at hb1
      rw [hb1]
      simp only [Nat.cast_one, Int.tdiv_one]
      exact ha
    · rw [h1] at hb1
      rw [hb1, Int.tdiv_neg]
      simp only [Nat.cast_one, Int.tdiv_one]
      have : a ≠ -(2 ^ 63) := fun h => hq ⟨h, hb1⟩
      omega
  · have h2 : 2 ≤ b.natAbs := by
      have : b.natAbs ≠ 0 := fun h => hb (Int.natAbs_eq_zero.mp h)
      omega
    have hle : a.natAbs / b.natAbs ≤ a.natAbs / 2 := Nat.div_le_div_left h2 (by norm_num)
    omega

/-- A zero step is the step `1`. -/
theorem NewRangeIterator_zero_step (start end_ : Int) (format : Str) (size : Int)
    (char : Str) (now : Int) :
    NewRangeIterator start end_ 0 format size char now =
      NewRangeIterator start end_ 1 format size char now := by
  simp [NewRangeIterator, DefaultStep]

/-- The maximum of the bar made by `NewRangeIterator`, for a non-zero step and a
difference `end - start` inside the `int` range. -/
theorem NewRangeIterator_maxProgress (start end_ step : Int) (format : Str) (size : Int)
    (char : Str) (now : Int) (hstep : step ≠ 0) (hsub : inInt64 (end_ - start))
    (hq : ¬ (end_ - start = -(2 ^ 63) ∧ step = -1)) :
    (NewRangeIterator start end_ step format size char now).progress.maxProgress =
      max 1 ((end_ - start).tdiv step) := by
  simp only [NewRangeIterator, if_neg hstep, NewProgressBar]
  rw [wrap64_of_inInt64 hsub, wrap64_of_inInt64 (inInt64_tdiv _ _ hsub hstep hq)]
  by_cases h : (end_ - start).tdiv step < 1
  · rw [if_pos h, max_eq_left (by omega)]
  · rw [if_neg h, max_eq_right (by omega)]

/-- In a range whose step divides `end - start`, the value number `k` is strictly
before the end exactly for `k` below the quotient. -/
theorem before_iff_lt_quotient (start end_ step n : Int) (hn : end_ - start = step * n)
    (hstep : step ≠ 0) (k : Int) : before step end_ (start + k * step) ↔ k < n := by
  unfold before
  have he : end_ = start + step * n := by omega
  rw [he]
  rcases lt_or_gt_of_ne hstep with hs | hs
  · have h1 : start + k * step > start + step * n ↔ k < n := by
      rw [mul_comm k step]
      constructor
      · intro h
        exact (mul_lt_mul_left_of_neg hs).mp (by omega)
      · intro h
        have := (mul_lt_mul_left_of_neg hs).mpr h
        omega
    constructor
    · rintro (⟨h, -⟩ | ⟨-, h⟩)
      · omega
      · exact h1.mp h
    · intro h
      exact Or.inr ⟨hs, h1.mpr h⟩
  · have h1 : start + k * step < start + step * n ↔ k < n := by
      rw [mul_comm k step]
      constructor
      · intro h
        exact (mul_lt_mul_left hs).mp (by omega)
      · intro h
        have := (mul_lt_mul_left hs).mpr h
        omega
    constructor
    · rintro (⟨-, h⟩ | ⟨h, -⟩)
      · exact h1.mp h
      · omega
    · intro h
      exact Or.inl ⟨hs, h1.mpr h⟩

/-- The number of values of a range that is not empty and whose step divides
`end - start` or is longer than it: the truncated quotient, coerced to at least `1`. -/
theorem range_count (start end_ s : Int) (hs : s ≠ 0)
    (hcond : s ∣ end_ - start ∨ |end_ - start| < |s|) (hb : before s end_ start) :
    ∃ n : Int, 1 ≤ n ∧ max 1 ((end_ - start).tdiv s) = n ∧
      ∀ k : ℕ, before s end_ (start + k * s) ↔ (k : Int) < n := by
  rcases hcond with ⟨n, hn⟩ | hlt
  · have hbn := before_iff_lt_quotient start end_ s n hn hs
    have hn0 : 0 < n := (hbn 0).mp (by simpa using hb)
    refine ⟨n, by omega, ?_, fun k => hbn k⟩
    rw [hn, Int.mul_tdiv_cancel_left _ hs]
    exact max_eq_right (by omega)
  · refine ⟨1, le_refl _, ?_, ?_⟩
    · have h0 : (end_ - start).tdiv s = 0 := by
        unfold before at hb
        rcases lt_or_gt_of_ne hs with hneg | hpos
        · have hd : end_ - start < 0 := by omega
          rw [abs_of_neg hd, abs_of_neg hneg] at hlt
          have : (end_ - start).tdiv s = (-(end_ - start)).tdiv (-s) := by
            rw [Int.neg_tdiv, Int.tdiv_neg, neg_neg]
          rw [this]
          exact Int.tdiv_eq_zero_of_lt (by omega) hlt
        · have hd : 0 < end_ - start := by omega
          rw [abs_of_pos hd, abs_of_pos hpos] at hlt
          exact Int.tdiv_eq_zero_of_lt (by omega) hlt
      rw [h0]
      rfl
    · intro k
      unfold before at hb ⊢
      rcases Nat.eq_zero_or_pos k with hk | hk
      · subst hk
        simp only [Nat.cast_zero, zero_mul, add_zero]
        constructor
        · intro _; decide
        · intro _; exact hb
      · have hk1 : (1 : ℤ) ≤ (k : ℤ) := by exact_mod_cast hk
        have hsplit : (k : ℤ) * s = s + ((k : ℤ) - 1) * s := by ring
        rcases lt_or_gt_of_ne hs with hneg | hpos
        · have hd : end_ - start < 0 := by omega
          rw [abs_of_neg hd, abs_of_neg hneg] at hlt
          have : ((k : ℤ) - 1) * s ≤ 0 :=
            mul_nonpos_of_nonneg_of_nonpos (by omega) (le_of_lt hneg)
          constructor
          · intro h; omega
          · intro h; omega
        · have hd : 0 < end_ - start := by omega
          rw [abs_of_pos hd, abs_of_pos hpos] at hlt
          have : 0 ≤ ((k : ℤ) - 1) * s := mul_nonneg (by omega) (le_of_lt hpos)
          constructor
          · intro h; omega
          · intro h; omega

/-- In a range between two `int` values whose step divides `end - start`, no addition
`current += step` made before the end leaves the `int` range. -/
theorem no_overflow_of_dvd (start end_ step n : Int) (hn : end_ - start = step * n)
    (hstep : step ≠ 0) (hs : inInt64 start) (he : inInt64 end_) (j : ℕ)
    (hb : before step end_ (start + j * step)) : inInt64 (start + (j + 1) * step) := by
  have hlt : (j : ℤ) < n := (before_iff_lt_quotient start end_ step n hn hstep j).mp hb
  have he2 : end_ = start + step * n := by omega
  unfold inInt64 at hs he ⊢
  have hj0 : (0 : ℤ) ≤ (j : ℤ) + 1 := by omega
  have hjn : (0 : ℤ) ≤ n - ((j : ℤ) + 1) := by omega
  have hsplit : step * n = ((j : ℤ) + 1) * step + (n - ((j : ℤ) + 1)) * step := by ring
  rcases lt_or_gt_of_ne hstep with hneg | hpos
  · have h1 : ((j : ℤ) + 1) * step ≤ 0 := mul_nonpos_of_nonneg_of_nonpos hj0 (le_of_lt hneg)
    have h2 : (n - ((j : ℤ) + 1)) * step ≤ 0 :=
      mul_nonpos_of_nonneg_of_nonpos hjn (le_of_lt hneg)
    omega
  · have h1 : 0 ≤ ((j : ℤ) + 1) * step := mul_nonneg hj0 (le_of_lt hpos)
    have h2 : 0 ≤ (n - ((j : ℤ) + 1)) * step := mul_nonneg hjn (le_of_lt hpos)
    omega

/-- A call of `Next` on a range iterator that signals the end leaves the iterator as it
is and writes nothing, and so does every call made on that iterator. -/
theorem RangeIteratorImpl_Next_end (ri : RangeIteratorImpl) (env : Env)
    (h : (ri.Next env).2.map Prod.fst = .returned none) (env2 : Env) :
    ri.Next env2 = (ri, .returned (none, [])) := by
  unfold RangeIteratorImpl.Next at h ⊢
  by_cases hc : (ri.step > 0 ∧ ri.current ≥ ri.end_) ∨ (ri.step < 0 ∧ ri.current ≤ ri.end_)
  · rw [if_pos hc]
  · rw [if_neg hc] at h
    exfalso
    simp only at h
    cases hS : (ri.progress.Step env).2 with
    | returned line => rw [hS] at h; simp [Outcome.map] at h
    | panicked msg => rw [hS] at h; simp [Outcome.map] at h

/-- Once a call of `Next` has signalled the end, the iterator does not change any
more. -/
theorem RangeIteratorImpl_after_end (ri : RangeIteratorImpl) (envs : Nat → Env) (k : Nat)
    (h : ((ri.after envs k).Next (envs k)).2.map Prod.fst = .returned none) :
    ∀ j : Nat, k ≤ j → ri.after envs j = ri.after envs k
  | 0, hj => by
    have : k = 0 := by omega
    rw [this]
  | j + 1, hj => by
    by_cases hk : k = j + 1
    · rw [hk]
    · have ih := RangeIteratorImpl_after_end ri envs k h j (by omega)
      rw [RangeIteratorImpl.after, ih, RangeIteratorImpl_Next_end _ _ h (envs j)]

/-- The range from an even `start` to the greatest `int` by the step `2`: the counter
stays even, so it never reaches the end. -/
theorem wraparound_range_state (start : Int) (hs : inInt64 start) (hev : start % 2 = 0)
    (now : Int) (envs : Nat → Env) :
    ∀ k : Nat,
      ((StepRangeIterator start (2 ^ 63 - 1) 2 now).after envs k).step = 2 ∧
      ((StepRangeIterator start (2 ^ 63 - 1) 2 now).after envs k).end_ = 2 ^ 63 - 1 ∧
      ((StepRangeIterator start (2 ^ 63 - 1) 2 now).after envs k).current % 2 = 0 ∧
      inInt64 ((StepRangeIterator start (2 ^ 63 - 1) 2 now).after envs k).current ∧
      ((StepRangeIterator start (2 ^ 63 - 1) 2 now).after envs k).progress.Inv ∧
      ((StepRangeIterator start (2 ^ 63 - 1) 2 now).after envs k).progress.barSize = 80
  | 0 => ⟨rfl, rfl, hev, hs, NewProgressBar_inv _ _ _ _ _, rfl⟩
  | k + 1 => by
    obtain ⟨h1, h2, h3, h4, h5, h6⟩ := wraparound_range_state start hs hev now envs k
    rw [RangeIteratorImpl.after]
    unfold RangeIteratorImpl.Next
    rw [h1, h2]
    unfold inInt64 at h4
    have hstop : ¬ (((2 : ℤ) > 0 ∧
        ((StepRangeIterator start (2 ^ 63 - 1) 2 now).after envs k).current ≥ 2 ^ 63 - 1) ∨
        ((2 : ℤ) < 0 ∧
        ((StepRangeIterator start (2 ^ 63 - 1) 2 now).after envs k).current ≤ 2 ^ 63 - 1)) := by
      omega
    rw [if_neg hstop]
    simp only
    refine ⟨trivial, trivial, ?_, ?_, Step_inv _ _ h5.1, h6⟩
    · unfold wrap64
      omega
    · unfold wrap64 inInt64
      omega

/-- No call of `Next` on the range from an even `start` to the greatest `int` by the
step `2` signals the end. -/
theorem wraparound_range_Next (start : Int) (hs : inInt64 start) (hev : start % 2 = 0)
    (now : Int) (envs : Nat → Env) (k : Nat) :
    (((StepRangeIterator start (2 ^ 63 - 1) 2 now).after envs k).Next (envs k)).2.map
      Prod.fst ≠ .returned none := by
  obtain ⟨h1, h2, h3, h4, h5, h6⟩ := wraparound_range_state start hs hev now envs k
  unfold RangeIteratorImpl.Next
  rw [h1, h2]
  unfold inInt64 at h4
  have hstop : ¬ (((2 : ℤ) > 0 ∧
      ((StepRangeIterator start (2 ^ 63 - 1) 2 now).after envs k).current ≥ 2 ^ 63 - 1) ∨
      ((2 : ℤ) < 0 ∧
      ((StepRangeIterator start (2 ^ 63 - 1) 2 now).after envs k).current ≤ 2 ^ 63 - 1)) := by
    omega
  rw [if_neg hstop]
  simp only
  exact (Outcome_map_some_ne_none _ _).2

theorem storedStep_ne_zero (step : Int) : storedStep step ≠ 0 := by
  unfold storedStep
  split_ifs with h
  · decide
  · exact h

/-- The iterator made for a step is the iterator made for the stored step. -/
theorem NewRangeIterator_storedStep (start end_ step : Int) (format : Str) (size : Int)
    (char : Str) (now : Int) :
    NewRangeIterator start end_ step format size char now =
      NewRangeIterator start end_ (storedStep step) format size char now := by
  unfold storedStep
  split_ifs with h
  · rw [h]
    exact NewRangeIterator_zero_step start end_ format size char now
  · rfl

/-! ## Lemmas on templates and field values -/

theorem infix_of_infix_append_disjoint (pat new X : Str) (hpat : pat ≠ [])
    (hdis : ∀ x ∈ new, x ∉ pat) (h : pat <:+: new ++ X) : pat <:+: X := by
  induction new with
  | nil => simpa using h
  | cons n ns ih =>
    rw [List.cons_append, List.infix_cons_iff] at h
    rcases h with hp | hi
    · exfalso
      cases pat with
      | nil => exact hpat rfl
      | cons p ps =>
        rw [List.cons_prefix_cons] at hp
        exact hdis n (List.mem_cons_self _ _) (by rw [← hp.1]; exact List.mem_cons_self _ _)
    · exact ih (fun x hx => hdis x (List.mem_cons_of_mem _ hx)) hi

theorem prefix_of_prefix_replaceFrom (old new : Str) (hnew : new ≠ []) :
    ∀ (s p : Str), (∀ x ∈ new, x ∉ p) → p <+: replaceFrom old new 0 s → p <+: s
  | [], p, _, h => by simpa [replaceFrom] using h
  | c :: cs, p, hdis, h => by
    cases p with
    | nil => exact List.nil_prefix
    | cons a p' =>
      unfold replaceFrom at h
      split_ifs at h with hold
      · exfalso
        cases new with
        | nil => exact hnew rfl
        | cons n ns =>
          rw [List.cons_append, List.cons_prefix_cons] at h
          exact hdis n (List.mem_cons_self _ _) (by rw [h.1]; exact List.mem_cons_self _ _)
      · rw [List.cons_prefix_cons] at h ⊢
        exact ⟨h.1, prefix_of_prefix_replaceFrom old new hnew cs p'
          (fun x hx hm => hdis x hx (List.mem_cons_of_mem _ hm)) h.2⟩

theorem not_infix_replaceFrom (pat old new : Str) (hpat : pat ≠ []) (hnew : new ≠ [])
    (hdis : ∀ x ∈ new, x ∉ pat) :
    ∀ (s : Str) (skip : Nat), ¬ pat <:+: s.drop skip → ¬ pat <:+: replaceFrom old new skip s
  | [], skip, _ => by
    cases skip <;> simp [replaceFrom, hpat]
  | c :: cs, skip + 1, h => by
    rw [replaceFrom]
    exact not_infix_replaceFrom pat old new hpat hnew hdis cs skip (by simpa using h)
  | c :: cs, 0, h => by
    rw [List.drop_zero] at h
    unfold replaceFrom
    split_ifs with hold
    · intro hin
      have h1 := infix_of_infix_append_disjoint pat new _ hpat hdis hin
      have h2 : ¬ pat <:+: cs.drop (old.length - 1) := fun hc =>
        h (hc.trans ((List.drop_suffix _ cs).isInfix.trans (List.suffix_cons c cs).isInfix))
      exact not_infix_replaceFrom pat old new hpat hnew hdis cs _ h2 h1
    · intro hin
      rw [List.infix_cons_iff] at hin
      rcases hin with hp | hi
      · cases pat with
        | nil => exact hpat rfl
        | cons a p' =>
          rw [List.cons_prefix_cons] at hp
          have := prefix_of_prefix_replaceFrom old new hnew cs p'
            (fun x hx hm => hdis x hx (List.mem_cons_of_mem _ hm)) hp.2
          exact h (List.IsPrefix.isInfix (by rw [List.cons_prefix_cons]; exact ⟨hp.1, this⟩))
      · have h2 : ¬ pat <:+: cs.drop 0 := fun hc =>
          h ((by simpa using hc : pat <:+: cs).trans (List.suffix_cons c cs).isInfix)
        exact not_infix_replaceFrom pat old new hpat hnew hdis cs 0 h2 hi

theorem not_infix_replaceAll (pat s old new : Str) (hpat : pat ≠ []) (hold : old ≠ [])
    (hnew : new ≠ []) (hdis : ∀ x ∈ new, x ∉ pat) (h : ¬ pat <:+: s) :
    ¬ pat <:+: replaceAll s old new := by
  unfold replaceAll
  rw [if_neg hold]
  exact not_infix_replaceFrom pat old new hpat hnew hdis s 0 (by simpa using h)

theorem replaceFrom_of_not_infix (old new : Str) :
    ∀ s : Str, ¬ old <:+: s → replaceFrom old new 0 s = s
  | [], _ => rfl
  | c :: cs, h => by
    unfold replaceFrom
    have hp : ¬ old.isPrefixOf (c :: cs) = true := by
      rw [List.isPrefixOf_iff_prefix]
      exact fun hc => h hc.isInfix
    rw [if_neg hp, replaceFrom_of_not_infix old new cs
      (fun hc => h (hc.trans (List.suffix_cons c cs).isInfix))]

theorem replaceAll_of_not_infix (s old new : Str) (hold : old ≠ []) (h : ¬ old <:+: s) :
    replaceAll s old new = s := by
  unfold replaceAll
  rw [if_neg hold]
  exact replaceFrom_of_not_infix old new s h

theorem digitChar_mem_fieldChars (d : Nat) (h : d < 10) : Nat.digitChar d ∈ fieldChars := by
  interval_cases d <;> decide

theorem toDigitsCore_mem_fieldChars : ∀ (fuel n : Nat) (ds : List Char),
    (∀ x ∈ ds, x ∈ fieldChars) → ∀ x ∈ Nat.toDigitsCore 10 fuel n ds, x ∈ fieldChars
  | 0, _, ds, h => by simpa [Nat.toDigitsCore] using h
  | fuel + 1, n, ds, h => by
    have hd : ∀ x ∈ Nat.digitChar (n % 10) :: ds, x ∈ fieldChars := by
      intro x hx
      rcases List.mem_cons.mp hx with rfl | hx
      · exact digitChar_mem_fieldChars _ (Nat.mod_lt _ (by norm_num))
      · exact h x hx
    unfold Nat.toDigitsCore
    simp only
    split_ifs
    · exact hd
    · exact toDigitsCore_mem_fieldChars fuel (n / 10) _ hd

theorem toDigitsCore_ne_nil : ∀ (fuel n : Nat) (ds : List Char),
    (0 < fuel ∨ ds ≠ []) → Nat.toDigitsCore 10 fuel n ds ≠ []
  | 0, _, ds, h => by
    rcases h with h | h
    · omega
    · simpa [Nat.toDigitsCore] using h
  | fuel + 1, n, ds, _ => by
    unfold Nat.toDigitsCore
    simp only
    split_ifs
    · simp
    · exact toDigitsCore_ne_nil fuel (n / 10) _ (Or.inr (by simp))

theorem natDigits_mem_fieldChars (n : Nat) : ∀ x ∈ natDigits n, x ∈ fieldChars :=
  toDigitsCore_mem_fieldChars _ _ [] (by simp)

theorem natDigits_ne_nil (n : Nat) : natDigits n ≠ [] :=
  toDigitsCore_ne_nil _ _ [] (Or.inl (by omega))

theorem signed_mem_fieldChars (neg : Bool) (width : Nat) (body : Str)
    (h : ∀ x ∈ body, x ∈ fieldChars) : ∀ x ∈ signed neg width body, x ∈ fieldChars := by
  intro x hx
  unfold signed zeroPad at hx
  split_ifs at hx
  · rcases List.mem_cons.mp hx with rfl | hx
    · decide
    · rcases List.mem_append.mp hx with hx | hx
      · rw [List.eq_of_mem_replicate hx]; decide
      · exact h x hx
  · rcases List.mem_append.mp hx with hx | hx
    · rw [List.eq_of_mem_replicate hx]; decide
    · exact h x hx

theorem signed_ne_nil (neg : Bool) (width : Nat) (body : Str) (h : body ≠ []) :
    signed neg width body ≠ [] := by
  unfold signed zeroPad
  split_ifs <;> simp [h]

theorem fmtInt_mem_fieldChars (width : Nat) (n : Int) : ∀ x ∈ fmtInt width n, x ∈ fieldChars :=
  signed_mem_fieldChars _ _ _ (natDigits_mem_fieldChars _)

theorem fmtInt_ne_nil (width : Nat) (n : Int) : fmtInt width n ≠ [] :=
  signed_ne_nil _ _ _ (natDigits_ne_nil _)

theorem fmtFixed2_mem_fieldChars (width : Nat) (v : ℚ) :
    ∀ x ∈ fmtFixed2 width v, x ∈ fieldChars := by
  unfold fmtFixed2
  apply signed_mem_fieldChars
  intro x hx
  rcases List.mem_append.mp hx with hx | hx
  · exact natDigits_mem_fieldChars _ x hx
  · simp only [List.mem_cons, List.mem_singleton, List.not_mem_nil, or_false] at hx
    rcases hx with rfl | rfl | rfl
    · decide
    · exact digitChar_mem_fieldChars _ (Nat.mod_lt _ (by norm_num))
    · exact digitChar_mem_fieldChars _ (Nat.mod_lt _ (by norm_num))

theorem fmtFixed2_ne_nil (width : Nat) (v : ℚ) : fmtFixed2 width v ≠ [] := by
  unfold fmtFixed2
  exact signed_ne_nil _ _ _ (by simp)

/-- Every value of the map `replacements` is non-empty and written with digits, `.`,
`-` and `:` only. -/
theorem replacements_value (pb : ProgressBar) (i : Fin 5) :
    (pb.replacements i).2 ≠ [] ∧ ∀ x ∈ (pb.replacements i).2, x ∈ fieldChars := by
  fin_cases i
  · exact ⟨fmtFixed2_ne_nil _ _, fmtFixed2_mem_fieldChars _ _⟩
  · refine ⟨?_, ?_⟩
    · show pb.timeStr ≠ []
      unfold ProgressBar.timeStr
      simp
    · show ∀ x ∈ pb.timeStr, x ∈ fieldChars
      unfold ProgressBar.timeStr
      intro x hx
      simp only at hx
      rcases List.mem_append.mp hx with hx | hx
      · exact fmtInt_mem_fieldChars _ _ x hx
      · rcases List.mem_cons.mp hx with rfl | hx
        · decide
        · exact fmtFixed2_mem_fieldChars _ _ x hx
  · exact ⟨fmtInt_ne_nil _ _, fmtInt_mem_fieldChars _ _⟩
  · exact ⟨fmtInt_ne_nil _ _, fmtInt_mem_fieldChars _ _⟩
  · exact ⟨fmtFixed2_ne_nil _ _, fmtFixed2_mem_fieldChars _ _⟩

/-- Substituting field values cannot create an occurrence of a pattern that shares no
character with them. -/
theorem not_infix_foldl_replaceAll (pat : Str) (hpat : pat ≠ [])
    (hdis : ∀ x ∈ pat, x ∉ fieldChars) :
    ∀ (l : List (Str × Str)) (format : Str),
      (∀ kv ∈ l, kv.2 ≠ [] ∧ ∀ x ∈ kv.2, x ∈ fieldChars) → ¬ pat <:+: format →
      ¬ pat <:+: l.foldl (fun format kv => replaceAll format ('%' :: kv.1 ++ ['%']) kv.2) format
  | [], _, _, h => h
  | kv :: l, format, hl, h => by
    rw [List.foldl_cons]
    apply not_infix_foldl_replaceAll pat hpat hdis l _
      (fun kv' hkv => hl kv' (List.mem_cons_of_mem _ hkv))
    have hkv := hl kv (List.mem_cons_self _ _)
    exact not_infix_replaceAll pat format _ kv.2 hpat (by simp) hkv.1
      (fun x hx hm => hdis x hm (hkv.2 x hx)) h

theorem ranged_value (pb : ProgressBar) (order : Equiv.Perm (Fin 5)) :
    ∀ kv ∈ pb.ranged order, kv.2 ≠ [] ∧ ∀ x ∈ kv.2, x ∈ fieldChars := by
  intro kv hkv
  unfold ProgressBar.ranged at hkv
  obtain ⟨i, _, rfl⟩ := List.mem_map.mp hkv
  exact replacements_value pb (order i)

/-- For a template with neither `%bar%` nor `\%` in it, `customFormat` only substitutes
the fields, and its result has no `%bar%` either. -/
theorem customFormat_plain (pb : ProgressBar) (order : Equiv.Perm (Fin 5))
    (hbar : strContains "%bar%".toList pb.barFormat = false)
    (hesc : strContains ['\\', '%'] pb.barFormat = false) :
    customFormat pb.barFormat (pb.ranged order) =
      (pb.ranged order).foldl
        (fun format kv => replaceAll format ('%' :: kv.1 ++ ['%']) kv.2) pb.barFormat ∧
    strContains "%bar%".toList (customFormat pb.barFormat (pb.ranged order)) = false := by
  have hbar' : ¬ "%bar%".toList <:+: pb.barFormat := by
    rw [← strContains_iff, hbar]; simp
  have hesc' : ¬ ['\\', '%'] <:+: pb.barFormat := by
    rw [← strContains_iff, hesc]; simp
  have h1 := not_infix_foldl_replaceAll "%bar%".toList (by decide) (by decide)
    (pb.ranged order) pb.barFormat (ranged_value pb order) hbar'
  have h2 := not_infix_foldl_replaceAll ['\\', '%'] (by decide) (by decide)
    (pb.ranged order) pb.barFormat (ranged_value pb order) hesc'
  have h3 : customFormat pb.barFormat (pb.ranged order) =
      (pb.ranged order).foldl
        (fun format kv => replaceAll format ('%' :: kv.1 ++ ['%']) kv.2) pb.barFormat := by
    unfold customFormat
    exact replaceAll_of_not_infix _ _ _ (by simp) h2
  refine ⟨h3, ?_⟩
  rw [h3]
  cases hc : strContains "%bar%".toList ((pb.ranged order).foldl
        (fun format kv => replaceAll format ('%' :: kv.1 ++ ['%']) kv.2) pb.barFormat) with
  | false => rfl
  | true => exact absurd ((strContains_iff _ _).mp hc) h1

theorem fieldNames_chars : ∀ k ∈ fieldNames, ∀ x ∈ k, x ∉ fieldChars ∧ x ≠ '%' := by
  decide

theorem percent_not_mem_fieldChars : '%' ∉ fieldChars := by decide

theorem replaceFrom_cons_zero (old new : Str) (c : Char) (cs : Str) :
    replaceFrom old new 0 (c :: cs) =
      if old.isPrefixOf (c :: cs) then new ++ replaceFrom old new (old.length - 1) cs
      else c :: replaceFrom old new 0 cs := by
  rw [replaceFrom]

theorem replaceFrom_cons_succ (old new : Str) (skip : Nat) (c : Char) (cs : Str) :
    replaceFrom old new (skip + 1) (c :: cs) = replaceFrom old new skip cs := by
  rw [replaceFrom]

theorem substituteFrom_nil (S : List (Str × Str)) (skip : Nat) :
    substituteFrom S skip [] = [] := by
  cases skip <;> rfl

theorem substituteFrom_cons_succ (S : List (Str × Str)) (skip : Nat) (c : Char) (cs : Str) :
    substituteFrom S (skip + 1) (c :: cs) = substituteFrom S skip cs := by
  rw [substituteFrom]

theorem substituteFrom_of_find_some (S : List (Str × Str)) (c : Char) (cs : Str)
    (kv : Str × Str)
    (h : S.find? (fun kv => ('%' :: kv.1 ++ ['%']).isPrefixOf (c :: cs)) = some kv) :
    substituteFrom S 0 (c :: cs) = kv.2 ++ substituteFrom S (kv.1.length + 1) cs := by
  rw [substituteFrom, h]

theorem substituteFrom_of_find_none (S : List (Str × Str)) (c : Char) (cs : Str)
    (h : S.find? (fun kv => ('%' :: kv.1 ++ ['%']).isPrefixOf (c :: cs)) = none) :
    substituteFrom S 0 (c :: cs) = c :: substituteFrom S 0 cs := by
  rw [substituteFrom, h]

/-- Replacing passes over a stretch that does not contain the first character of the
pattern. -/
theorem replaceFrom_append_of_not_mem (p0 : Char) (ps new : Str) :
    ∀ (w X : Str), p0 ∉ w →
      replaceFrom (p0 :: ps) new 0 (w ++ X) = w ++ replaceFrom (p0 :: ps) new 0 X
  | [], _, _ => rfl
  | a :: w, X, h => by
    have ha : a ≠ p0 := fun hc => h (by rw [hc]; exact List.mem_cons_self _ _)
    have hp : ¬ (p0 :: ps).isPrefixOf (a :: (w ++ X)) = true := by
      rw [List.isPrefixOf_iff_prefix, List.cons_prefix_cons]
      exact fun hc => ha hc.1.symm
    rw [List.cons_append, replaceFrom_cons_zero, if_neg hp,
      replaceFrom_append_of_not_mem p0 ps new w X (fun hc => h (List.mem_cons_of_mem _ hc)),
      List.cons_append]

/-- Skipping exactly a stretch continues behind it. -/
theorem replaceFrom_skip (old new : Str) :
    ∀ (w X : Str), replaceFrom old new w.length (w ++ X) = replaceFrom old new 0 X
  | [], _ => rfl
  | a :: w, X => by
    rw [List.cons_append, List.length_cons, replaceFrom_cons_succ, replaceFrom_skip old new w X]

theorem substituteFrom_skip (S : List (Str × Str)) :
    ∀ (w X : Str), substituteFrom S w.length (w ++ X) = substituteFrom S 0 X
  | [], _ => rfl
  | a :: w, X => by
    rw [List.cons_append, List.length_cons, substituteFrom_cons_succ,
      substituteFrom_skip S w X]

/-- Substituting passes over a stretch without `%`. -/
theorem substituteFrom_append_of_not_mem (S : List (Str × Str)) :
    ∀ (w X : Str), '%' ∉ w → substituteFrom S 0 (w ++ X) = w ++ substituteFrom S 0 X
  | [], _, _ => rfl
  | a :: w, X, h => by
    have ha : a ≠ '%' := fun hc => h (by rw [hc]; exact List.mem_cons_self _ _)
    have hf : S.find? (fun kv => ('%' :: kv.1 ++ ['%']).isPrefixOf (a :: (w ++ X))) = none := by
      rw [List.find?_eq_none]
      intro kv _
      rw [List.isPrefixOf_iff_prefix, List.cons_append, List.cons_prefix_cons]
      exact fun hc => ha hc.1.symm
    rw [List.cons_append, substituteFrom_of_find_none S a (w ++ X) hf,
      substituteFrom_append_of_not_mem S w X (fun hc => h (List.mem_cons_of_mem _ hc)),
      List.cons_append]

/-- A prefix of the substituted text that shares no character with the field values is
a prefix of the template. -/
theorem prefix_of_prefix_substituteFrom (S : List (Str × Str))
    (hS : ∀ kv ∈ S, kv.2 ≠ [] ∧ ∀ x ∈ kv.2, x ∈ fieldChars) :
    ∀ (s p : Str), (∀ x ∈ p, x ∉ fieldChars) → p <+: substituteFrom S 0 s → p <+: s
  | [], p, _, h => by simpa [substituteFrom_nil] using h
  | c :: cs, p, hdis, h => by
    cases p with
    | nil => exact List.nil_prefix
    | cons a p' =>
      cases hf : S.find? (fun kv => ('%' :: kv.1 ++ ['%']).isPrefixOf (c :: cs)) with
      | some kv =>
        exfalso
        rw [substituteFrom_of_find_some S c cs kv hf] at h
        have hkv := hS kv (List.mem_of_find?_eq_some hf)
        cases hv : kv.2 with
        | nil => exact hkv.1 hv
        | cons n ns =>
          rw [hv, List.cons_append, List.cons_prefix_cons] at h
          exact hdis a (List.mem_cons_self _ _)
            (by rw [h.1]; exact hkv.2 n (by rw [hv]; exact List.mem_cons_self _ _))
      | none =>
        rw [substituteFrom_of_find_none S c cs hf, List.cons_prefix_cons] at h
        rw [List.cons_prefix_cons]
        exact ⟨h.1, prefix_of_prefix_substituteFrom S hS cs p'
          (fun x hx => hdis x (List.mem_cons_of_mem _ hx)) h.2⟩

theorem noSharedPercent_of_cons {c : Char} {cs : Str} (h : noSharedPercent (c :: cs)) :
    noSharedPercent cs := by
  intro a ha b hb hab
  have := h a ha b hb hab
  cases hc : strContains ('%' :: a ++ '%' :: b ++ ['%']) cs with
  | false => rfl
  | true =>
    exfalso
    have hin := (strContains_iff _ _).mp hc
    have hin2 : ('%' :: a ++ '%' :: b ++ ['%']) <:+: c :: cs :=
      hin.trans (List.suffix_cons c cs).isInfix
    rw [← strContains_iff, this] at hin2
    exact Bool.false_ne_true hin2

/-- In a template without shared `%` signs, the text behind a placeholder does not go
on as the placeholder of another field would. -/
theorem not_prefix_behind_placeholder (a b : Str) (ha : a ∈ fieldNames) (hb : b ∈ fieldNames)
    (hab : a ≠ b) (rest : Str) (h : noSharedPercent ('%' :: ((a ++ ['%']) ++ rest))) :
    ¬ (b ++ ['%']) <+: rest := by
  intro hp
  obtain ⟨r, rfl⟩ := hp
  have hin : ('%' :: a ++ '%' :: b ++ ['%']) <:+: '%' :: ((a ++ ['%']) ++ (b ++ ['%'] ++ r)) :=
    List.IsPrefix.isInfix ⟨r, by simp⟩
  rw [← strContains_iff, h a ha b hb hab] at hin
  exact Bool.false_ne_true hin

/-- In a template without shared `%` signs, replacing one more placeholder in the text
in which the placeholders of `S` are substituted gives the text in which that one is
substituted as well. -/
theorem replaceFrom_substituteFrom (S : List (Str × Str)) (k v : Str)
    (hS : ∀ kv ∈ S, kv.1 ∈ fieldNames ∧ kv.2 ≠ [] ∧ ∀ x ∈ kv.2, x ∈ fieldChars)
    (hk : k ∈ fieldNames) (hkS : ∀ kv ∈ S, k ≠ kv.1) :
    ∀ (t : Str) (skip : Nat), noSharedPercent t →
      replaceFrom ('%' :: k ++ ['%']) v 0 (substituteFrom S skip t) =
        substituteFrom (S ++ [(k, v)]) skip t
  | [], skip, _ => by
    rw [substituteFrom_nil, substituteFrom_nil]
    rfl
  | c :: cs, skip + 1, h => by
    rw [substituteFrom_cons_succ, substituteFrom_cons_succ]
    exact replaceFrom_substituteFrom S k v hS hk hkS cs skip (noSharedPercent_of_cons h)
  | c :: cs, 0, h => by
    have hcs := noSharedPercent_of_cons h
    cases hf : S.find? (fun kv => ('%' :: kv.1 ++ ['%']).isPrefixOf (c :: cs)) with
    | some kv0 =>
      have hkv := hS kv0 (List.mem_of_find?_eq_some hf)
      have hf2 : (S ++ [(k, v)]).find?
          (fun kv => ('%' :: kv.1 ++ ['%']).isPrefixOf (c :: cs)) = some kv0 := by
        rw [List.find?_append, hf]
        rfl
      rw [substituteFrom_of_find_some S c cs kv0 hf,
        substituteFrom_of_find_some (S ++ [(k, v)]) c cs kv0 hf2]
      have hnm : '%' ∉ kv0.2 := fun hc => percent_not_mem_fieldChars (hkv.2.2 _ hc)
      rw [List.cons_append, replaceFrom_append_of_not_mem '%' (k ++ ['%']) v kv0.2 _ hnm]
      have ih := replaceFrom_substituteFrom S k v hS hk hkS cs (kv0.1.length + 1) hcs
      rw [List.cons_append] at ih
      rw [ih]
    | none =>
      by_cases hp : ('%' :: k ++ ['%']).isPrefixOf (c :: cs) = true
      · have hf2 : (S ++ [(k, v)]).find?
            (fun kv => ('%' :: kv.1 ++ ['%']).isPrefixOf (c :: cs)) = some (k, v) := by
          rw [List.find?_append, hf]
          simp only [List.find?, hp]
          rfl
        rw [substituteFrom_of_find_none S c cs hf,
          substituteFrom_of_find_some (S ++ [(k, v)]) c cs (k, v) hf2]
        have hp2 := hp
        rw [List.isPrefixOf_iff_prefix, List.cons_append, List.cons_prefix_cons] at hp2
        obtain ⟨hc, b, hb⟩ := hp2
        subst hc
        subst hb
        have hkc : '%' ∉ k := fun hc => ((fieldNames_chars k hk) _ hc).2 rfl
        have hfb : S.find? (fun kv => ('%' :: kv.1 ++ ['%']).isPrefixOf ('%' :: b)) = none := by
          rw [List.find?_eq_none]
          intro kv hkv
          rw [List.isPrefixOf_iff_prefix, List.cons_append, List.cons_prefix_cons]
          exact fun hc => not_prefix_behind_placeholder k kv.1 hk (hS kv hkv).1 (hkS kv hkv) b h
            hc.2
        have hX : substituteFrom S 0 (k ++ ['%'] ++ b) =
            (k ++ ['%']) ++ substituteFrom S 0 b := by
          rw [List.append_assoc, substituteFrom_append_of_not_mem S k _ hkc, List.singleton_append,
            substituteFrom_of_find_none S '%' b hfb, List.append_assoc, List.singleton_append]
        have hpre : ('%' :: k ++ ['%']).isPrefixOf
            ('%' :: ((k ++ ['%']) ++ substituteFrom S 0 b)) = true := by
          rw [List.isPrefixOf_iff_prefix, List.cons_append, List.cons_prefix_cons]
          exact ⟨rfl, List.prefix_append _ _⟩
        have hlen : ('%' :: k ++ ['%']).length - 1 = (k ++ ['%']).length := by
          simp
        have ih := replaceFrom_substituteFrom S k v hS hk hkS (k ++ ['%'] ++ b) (k.length + 1) hcs
        have hl : k.length + 1 = (k ++ ['%']).length := by simp
        rw [hl, substituteFrom_skip S (k ++ ['%']) b] at ih
        rw [hX, replaceFrom_cons_zero, if_pos hpre, hlen, replaceFrom_skip, ih]
        simp only [List.length_append, List.length_singleton]
      · have hf2 : (S ++ [(k, v)]).find?
            (fun kv => ('%' :: kv.1 ++ ['%']).isPrefixOf (c :: cs)) = none := by
          rw [List.find?_append, hf]
          simp only [List.find?, hp]
          rfl
        rw [substituteFrom_of_find_none S c cs hf,
          substituteFrom_of_find_none (S ++ [(k, v)]) c cs hf2]
        have hnp : ¬ ('%' :: k ++ ['%']).isPrefixOf (c :: substituteFrom S 0 cs) = true := by
          intro hc
          apply hp
          rw [List.isPrefixOf_iff_prefix, List.cons_append, List.cons_prefix_cons] at hc ⊢
          refine ⟨hc.1, prefix_of_prefix_substituteFrom S (fun kv hkv => (hS kv hkv).2) cs _
            ?_ hc.2⟩
          intro x hx
          rcases List.mem_append.mp hx with hx | hx
          · exact ((fieldNames_chars k hk) x hx).1
          · rw [List.mem_singleton] at hx
            rw [hx]
            exact percent_not_mem_fieldChars
        rw [replaceFrom_cons_zero, if_neg hnp,
          replaceFrom_substituteFrom S k v hS hk hkS cs 0 hcs]

theorem substituteFrom_nil_left : ∀ t : Str, substituteFrom [] 0 t = t
  | [] => rfl
  | c :: cs => by
    rw [substituteFrom_of_find_none [] c cs rfl, substituteFrom_nil_left cs]

/-- In a template without shared `%` signs, replacing the placeholders of different
fields one after the other is the one-pass substitution. -/
theorem foldl_replaceAll_eq_substituteFrom (t : Str) (ht : noSharedPercent t) :
    ∀ (l S : List (Str × Str)),
      (∀ kv ∈ S, kv.1 ∈ fieldNames ∧ kv.2 ≠ [] ∧ ∀ x ∈ kv.2, x ∈ fieldChars) →
      (∀ kv ∈ l, kv.1 ∈ fieldNames ∧ kv.2 ≠ [] ∧ ∀ x ∈ kv.2, x ∈ fieldChars) →
      ((S ++ l).map Prod.fst).Nodup →
      l.foldl (fun format kv => replaceAll format ('%' :: kv.1 ++ ['%']) kv.2)
        (substituteFrom S 0 t) = substituteFrom (S ++ l) 0 t
  | [], S, _, _, _ => by
    rw [List.append_nil]
    rfl
  | kv :: l, S, hS, hl, hnd => by
    have hkv := hl kv (List.mem_cons_self _ _)
    rw [List.foldl_cons]
    have hkS : ∀ kv2 ∈ S, kv.1 ≠ kv2.1 := by
      intro kv2 hkv2 heq
      rw [List.map_append, List.map_cons, List.nodup_append] at hnd
      exact hnd.2.2 (List.mem_map_of_mem Prod.fst hkv2) (by rw [← heq]; exact List.mem_cons_self _ _)
    have h1 : replaceAll (substituteFrom S 0 t) ('%' :: kv.1 ++ ['%']) kv.2 =
        substituteFrom (S ++ [kv]) 0 t := by
      unfold replaceAll
      rw [if_neg (by simp)]
      exact replaceFrom_substituteFrom S kv.1 kv.2 hS hkv.1 hkS t 0 ht
    rw [h1, foldl_replaceAll_eq_substituteFrom t ht l (S ++ [kv])
      (fun x hx => by
        rcases List.mem_append.mp hx with hx | hx
        · exact hS x hx
        · rw [List.mem_singleton] at hx
          rw [hx]
          exact hkv)
      (fun x hx => hl x (List.mem_cons_of_mem _ hx))
      (by rw [List.append_assoc, List.singleton_append]; exact hnd),
      List.append_assoc, List.singleton_append]

/-- The first element that satisfies a test does not depend on the order of the list
when at most one element of the list satisfies the test. -/
theorem find_eq_of_perm {α : Type} (p : α → Bool) {l1 l2 : List α} (h : l1.Perm l2)
    (huniq : ∀ a ∈ l1, ∀ b ∈ l1, p a = true → p b = true → a = b) :
    l1.find? p = l2.find? p := by
  induction h with
  | nil => rfl
  | cons x _ ih =>
    simp only [List.find?_cons]
    cases hx : p x
    · exact ih (fun a ha b hb =>
        huniq a (List.mem_cons_of_mem _ ha) b (List.mem_cons_of_mem _ hb))
    · rfl
  | swap x y l =>
    simp only [List.find?_cons]
    cases hx : p x
    · rfl
    · cases hy : p y
      · rfl
      · rw [huniq x (by simp) y (by simp) hx hy]
  | trans h1 _ ih1 ih2 =>
    rw [ih1 huniq, ih2 (fun a ha b hb => huniq a (h1.mem_iff.mpr ha) b (h1.mem_iff.mpr hb))]

theorem substituteFrom_congr (l1 l2 : List (Str × Str))
    (h : ∀ s : Str, l1.find? (fun kv => ('%' :: kv.1 ++ ['%']).isPrefixOf s) =
      l2.find? (fun kv => ('%' :: kv.1 ++ ['%']).isPrefixOf s)) :
    ∀ (t : Str) (skip : Nat), substituteFrom l1 skip t = substituteFrom l2 skip t
  | [], skip => by rw [substituteFrom_nil, substituteFrom_nil]
  | c :: cs, skip + 1 => by
    rw [substituteFrom_cons_succ, substituteFrom_cons_succ, substituteFrom_congr l1 l2 h cs skip]
  | c :: cs, 0 => by
    cases hf : l1.find? (fun kv => ('%' :: kv.1 ++ ['%']).isPrefixOf (c :: cs)) with
    | some kv =>
      rw [substituteFrom_of_find_some l1 c cs kv hf,
        substituteFrom_of_find_some l2 c cs kv (by rw [← h, hf]), substituteFrom_congr l1 l2 h cs _]
    | none =>
      rw [substituteFrom_of_find_none l1 c cs hf,
        substituteFrom_of_find_none l2 c cs (by rw [← h, hf]), substituteFrom_congr l1 l2 h cs 0]

theorem replacements_key (pb : ProgressBar) (i : Fin 5) :
    (pb.replacements i).1 = fieldNames.get i := by
  fin_cases i <;> rfl

theorem fieldNames_get_mem (i : Fin 5) : fieldNames.get i ∈ fieldNames :=
  List.get_mem _ _ _

theorem fieldNames_prefix_injective : ∀ i j : Fin 5,
    ('%' :: fieldNames.get i ++ ['%']).isPrefixOf ('%' :: fieldNames.get j ++ ['%']) = true →
      i = j := by
  decide

theorem ranged_field (pb : ProgressBar) (order : Equiv.Perm (Fin 5)) :
    ∀ kv ∈ pb.ranged order, kv.1 ∈ fieldNames ∧ kv.2 ≠ [] ∧ ∀ x ∈ kv.2, x ∈ fieldChars := by
  intro kv hkv
  unfold ProgressBar.ranged at hkv
  obtain ⟨i, _, rfl⟩ := List.mem_map.mp hkv
  refine ⟨?_, replacements_value pb (order i)⟩
  rw [replacements_key]
  exact fieldNames_get_mem _

theorem ranged_perm (pb : ProgressBar) (order : Equiv.Perm (Fin 5)) :
    (pb.ranged order).Perm (pb.ranged (Equiv.refl _)) := by
  unfold ProgressBar.ranged
  have h := (Equiv.Perm.map_finRange_perm order).map pb.replacements
  rw [List.map_map] at h
  simpa using h

/-- At most one placeholder of the five fields starts at a given place. -/
theorem ranged_unique (pb : ProgressBar) (order : Equiv.Perm (Fin 5)) (s : Str) :
    ∀ a ∈ pb.ranged order, ∀ b ∈ pb.ranged order,
      ('%' :: a.1 ++ ['%']).isPrefixOf s = true → ('%' :: b.1 ++ ['%']).isPrefixOf s = true →
      a = b := by
  intro a ha b hb hpa hpb
  unfold ProgressBar.ranged at ha hb
  obtain ⟨i, _, rfl⟩ := List.mem_map.mp ha
  obtain ⟨j, _, rfl⟩ := List.mem_map.mp hb
  rw [replacements_key] at hpa hpb
  have hij : order i = order j := by
    rw [List.isPrefixOf_iff_prefix] at hpa hpb
    rcases List.prefix_or_prefix_of_prefix hpa hpb with h | h
    · exact fieldNames_prefix_injective _ _ (List.isPrefixOf_iff_prefix.mpr h)
    · exact (fieldNames_prefix_injective _ _ (List.isPrefixOf_iff_prefix.mpr h)).symm
  rw [hij]

theorem ranged_keys_nodup (pb : ProgressBar) (order : Equiv.Perm (Fin 5)) :
    ((pb.ranged order).map Prod.fst).Nodup := by
  have hp := (ranged_perm pb order).map Prod.fst
  rw [hp.nodup_iff]
  have : (pb.ranged (Equiv.refl _)).map Prod.fst = fieldNames := by
    unfold ProgressBar.ranged
    rw [List.map_map]
    rfl
  rw [this]
  decide

/-- In a template without shared `%` signs, `customFormat` is the one-pass substitution
of the five fields followed by the unescaping of `\%`, whatever the order of the
replacements. -/
theorem customFormat_eq_substituteFrom (pb : ProgressBar) (format : Str)
    (order : Equiv.Perm (Fin 5)) (h : noSharedPercent format) :
    customFormat format (pb.ranged order) =
      replaceAll (substituteFrom (pb.ranged (Equiv.refl _)) 0 format) ['\\', '%'] ['%'] := by
  unfold customFormat
  have h1 := foldl_replaceAll_eq_substituteFrom format h (pb.ranged order) []
    (fun kv hkv => absurd hkv (List.not_mem_nil _)) (ranged_field pb order)
    (by rw [List.nil_append]; exact ranged_keys_nodup pb order)
  rw [substituteFrom_nil_left, List.nil_append] at h1
  rw [h1, substituteFrom_congr (pb.ranged order) (pb.ranged (Equiv.refl _))
    (fun s => find_eq_of_perm _ (ranged_perm pb order) (ranged_unique pb order s)) format 0]

/-! ## Properties of the specification -/

/-- C1: for every bar with `maxProgress ≥ 1`, every prior state, every environment and
every value `v`, the progress stored by `SetProgress(v)` is `v` clamped into
`[0, maxProgress]`: `0` below zero, `maxProgress` above it, `v` otherwise. -/
theorem C1_SetProgress_stores_clamp (pb : ProgressBar) (env : Env) (v : Int)
    (hmax : 1 ≤ pb.maxProgress) :
    (pb.SetProgress env v).1.progress = clamp v 0 pb.maxProgress ∧
    (v < 0 → (pb.SetProgress env v).1.progress = 0) ∧
    (pb.maxProgress < v → (pb.SetProgress env v).1.progress = pb.maxProgress) ∧
    (0 ≤ v → v ≤ pb.maxProgress → (pb.SetProgress env v).1.progress = v) := by
  rw [SetProgress_progress]
  unfold clamp
  refine ⟨?_, ?_, ?_, ?_⟩
  · split_ifs <;> omega
  · intro h
    rw [if_pos h]
  · intro h
    rw [if_neg (by omega), if_pos h]
  · intro h1 h2
    rw [if_neg (by omega), if_neg (by omega)]

/-- Witness of C1: a bar of `maxProgress = 10` asked for `25`, `-3` and `7`. -/
theorem C1_SetProgress_stores_clamp_witness :
    ((NewProgressBar [] 10 80 [] 0).SetProgress ⟨5, 6, Equiv.refl _, true⟩ 25).1.progress = 10 ∧
    ((NewProgressBar [] 10 80 [] 0).SetProgress ⟨5, 6, Equiv.refl _, true⟩ (-3)).1.progress = 0 ∧
    ((NewProgressBar [] 10 80 [] 0).SetProgress ⟨5, 6, Equiv.refl _, true⟩ 7).1.progress = 7 :=
  ⟨(C1_SetProgress_stores_clamp (NewProgressBar [] 10 80 [] 0) ⟨5, 6, Equiv.refl _, true⟩ 25
      (by decide)).2.2.1 (by decide),
   (C1_SetProgress_stores_clamp (NewProgressBar [] 10 80 [] 0) ⟨5, 6, Equiv.refl _, true⟩ (-3)
      (by decide)).2.1 (by decide),
   (C1_SetProgress_stores_clamp (NewProgressBar [] 10 80 [] 0) ⟨5, 6, Equiv.refl _, true⟩ 7
      (by decide)).2.2.2 (by decide) (by decide)⟩

/-- C2: the predicate `maxProgress ≥ 1 ∧ 0 ≤ progress ≤ maxProgress` holds for every bar
returned by `NewProgressBar`, whatever maximum is requested, and for the bar made by
`NewRangeIterator`; it is preserved by `Step`, `SetProgress` and `Reset`, by `Next` and
`Reset` of the sequence iterator and by `Next` of the range iterator (the only
operations of the source that write a bar). -/
theorem C2_invariant_established_and_preserved :
    (∀ (format : Str) (max size : Int) (char : Str) (now : Int),
      (NewProgressBar format max size char now).Inv) ∧
    (∀ (pb : ProgressBar) (env : Env), pb.Inv → (pb.Step env).1.Inv) ∧
    (∀ (pb : ProgressBar) (env : Env) (v : Int), pb.Inv → (pb.SetProgress env v).1.Inv) ∧
    (∀ (pb : ProgressBar) (now : Int), pb.Inv → (pb.Reset now).Inv) ∧
    (∀ (T : Type) (it : ProgressIterator T) (env : Env),
      it.progress.Inv → (it.Next env).1.progress.Inv) ∧
    (∀ (T : Type) (it : ProgressIterator T) (now : Int),
      it.progress.Inv → (it.Reset now).progress.Inv) ∧
    (∀ (start end_ step : Int) (format : Str) (size : Int) (char : Str) (now : Int),
      (NewRangeIterator start end_ step format size char now).progress.Inv) ∧
    (∀ (ri : RangeIteratorImpl) (env : Env), ri.progress.Inv → (ri.Next env).1.progress.Inv) :=
  ⟨NewProgressBar_inv,
   fun pb env h => Step_inv pb env h.1,
   fun pb env v h => SetProgress_inv pb env v h.1,
   fun pb now h => Reset_inv pb now h.1,
   fun _ it env h => ProgressIterator_Next_inv it env h,
   fun _ it now h => Reset_inv it.progress now h.1,
   fun _ _ _ _ _ _ _ => NewProgressBar_inv _ _ _ _ _,
   RangeIteratorImpl_Next_inv⟩

/-- C3, amended: for every sequence `xs` and every bar with `maxProgress ≥ 1` (as every
bar made by `NewProgressBar` has), the `k`-th call of `Next` (counted from `0`) on a
fresh sequence iterator over `xs` returns the `k`-th element of `xs` flagged as present
when `k < len xs`, provided that call can draw its line: if the formatted template
contains `%bar%` the width satisfies `0 ≤ barSize < 2^52`, the line to write, carriage
return included, is not longer than the allocator limit of `2^48` bytes, and the runtime
has the memory that `render` asks for.  The call number `len xs` and every later call
signal the end; for the empty sequence the first call already does. -/
theorem C3_sequence_Next_in_order {T : Type} (xs : List T) (pb : ProgressBar)
    (envs : Nat → Env) (k : Nat) (hmax : 1 ≤ pb.maxProgress)
    (hdraw : k < xs.length →
      ((NewProgressIterator xs pb).after envs (k + 1)).progress.drawable (envs k)) :
    ((((NewProgressIterator xs pb).after envs k).Next (envs k)).2.map Prod.fst) =
      .returned xs[k]? :=
  ProgressIterator_Next_values xs pb envs k hmax hdraw

/-- Witness of C3: the sequence `a, b, c` with a default bar of maximum `3`, in an
environment with memory; the calls number `0`, `2` and `3` return `a`, `c` and the end
signal. -/
theorem C3_sequence_Next_in_order_witness :
    ((NewProgressIterator ['a', 'b', 'c'] (NewProgressBar [] 3 80 [] 0)).after
      (fun _ => ⟨7, 8, Equiv.refl _, true⟩) 1).progress.drawable ⟨7, 8, Equiv.refl _, true⟩ ∧
    ((((NewProgressIterator ['a', 'b', 'c'] (NewProgressBar [] 3 80 [] 0)).after
        (fun _ => ⟨7, 8, Equiv.refl _, true⟩) 0).Next ⟨7, 8, Equiv.refl _, true⟩).2.map
          Prod.fst) = .returned (some 'a') ∧
    ((((NewProgressIterator ['a', 'b', 'c'] (NewProgressBar [] 3 80 [] 0)).after
        (fun _ => ⟨7, 8, Equiv.refl _, true⟩) 2).Next ⟨7, 8, Equiv.refl _, true⟩).2.map
          Prod.fst) = .returned (some 'c') ∧
    ((((NewProgressIterator ['a', 'b', 'c'] (NewProgressBar [] 3 80 [] 0)).after
        (fun _ => ⟨7, 8, Equiv.refl _, true⟩) 3).Next ⟨7, 8, Equiv.refl _, true⟩).2.map
          Prod.fst) = .returned none :=
  ⟨by decide!,
   C3_sequence_Next_in_order ['a', 'b', 'c'] (NewProgressBar [] 3 80 [] 0)
      (fun _ => ⟨7, 8, Equiv.refl _, true⟩) 0 (by decide) (fun _ => by decide!),
   C3_sequence_Next_in_order ['a', 'b', 'c'] (NewProgressBar [] 3 80 [] 0)
      (fun _ => ⟨7, 8, Equiv.refl _, true⟩) 2 (by decide) (fun _ => by decide!),
   C3_sequence_Next_in_order ['a', 'b', 'c'] (NewProgressBar [] 3 80 [] 0)
      (fun _ => ⟨7, 8, Equiv.refl _, true⟩) 3 (by decide) (fun h => absurd h (by decide))⟩

/-- C3, counterexample: a fresh sequence iterator over `a, b, c` with the default
template, which contains `%bar%`.  With a bar of width `-1` the first call of `Next`
does not return `a`: it panics in `strings.Repeat`, called by `render` with the count
`barSize - filled = -1`.  With a bar of width `2^49` it does not return `a` either,
even with memory: `strings.Repeat` asks for more than the allocator limit and the
runtime panics.  With the width `80` the call returns `a`. -/
theorem C3_sequence_Next_counterexample :
    ((NewProgressIterator ['a', 'b', 'c'] (NewProgressBar [] 3 (-1) [] 0)).Next
      ⟨7, 8, Equiv.refl _, true⟩).2 = .panicked "strings: negative Repeat count" ∧
    ((NewProgressIterator ['a', 'b', 'c'] (NewProgressBar [] 3 (2 ^ 49) [] 0)).Next
      ⟨7, 8, Equiv.refl _, true⟩).2 =
        .panicked "runtime error: makeslice: len out of range" ∧
    ((NewProgressIterator ['a', 'b', 'c'] (NewProgressBar [] 3 80 [] 0)).Next
      ⟨7, 8, Equiv.refl _, true⟩).2.map Prod.fst = .returned (some 'a') := by
  decide!

/-- C4, amended: for every start, end and non-zero step such that no addition
`current += step` made by the iterator leaves the `int` range, the `k`-th call of `Next`
(counted from `0`) on a fresh range iterator returns `start + k * step` as long as that
value is strictly before `end` in the direction of `step` (below it for a positive step,
above it for a negative one), provided that call can draw its line: if the formatted
template contains `%bar%` the width satisfies `0 ≤ barSize < 2^52`, the line to write,
carriage return included, is not longer than the allocator limit of `2^48` bytes, and
the runtime has the memory that `render` asks for.  Otherwise the call signals the end,
so also at every later call; a range whose start is at or past `end` yields nothing.
`StepRangeIterator` and `RangeIterator` are the range iterators with the default
template, width `80` and glyph. -/
theorem C4_range_Next_values (start end_ step : Int) (format : Str) (size : Int) (char : Str)
    (now : Int) (envs : Nat → Env) (k : Nat) (hstep : step ≠ 0)
    (hno : ∀ j : ℕ, before step end_ (start + j * step) → inInt64 (start + (j + 1) * step))
    (hdraw : before step end_ (start + k * step) →
      ((NewRangeIterator start end_ step format size char now).after envs
        (k + 1)).progress.drawable (envs k)) :
    ((((NewRangeIterator start end_ step format size char now).after envs k).Next
        (envs k)).2.map Prod.fst) =
      .returned (if before step end_ (start + k * step) then some (start + k * step)
        else none) ∧
    (¬ before step end_ start →
      ((NewRangeIterator start end_ step format size char now).Next (envs 0)).2 =
        .returned (none, [])) ∧
    StepRangeIterator start end_ step now =
      NewRangeIterator start end_ step DefaultFormat DefaultBarSize DefaultBarChar now ∧
    RangeIterator start end_ now =
      NewRangeIterator start end_ 1 DefaultFormat DefaultBarSize DefaultBarChar now := by
  refine ⟨?_, ?_, rfl, rfl⟩
  · exact NewRangeIterator_Next_values start end_ step format size char now envs k hstep hno
      hdraw
  · intro hb
    have := (NewRangeIterator_Next_end_iff start end_ step format size char now envs 0
      hstep hno).mpr (by simpa using hb)
    exact this

/-- Witness of C4: the ranges `(0, 10, 2)` and `(10, 0, -3)` with the default bar, in an
environment with memory; the calls number `4` and `5` of the first return `8` and the
end signal, the calls number `3` and `4` of the second return `1` and the end signal. -/
theorem C4_range_Next_values_witness :
    ((((StepRangeIterator 0 10 2 0).after (fun _ => ⟨7, 8, Equiv.refl _, true⟩) 4).Next
        ⟨7, 8, Equiv.refl _, true⟩).2.map Prod.fst) = .returned (some 8) ∧
    ((((StepRangeIterator 0 10 2 0).after (fun _ => ⟨7, 8, Equiv.refl _, true⟩) 5).Next
        ⟨7, 8, Equiv.refl _, true⟩).2.map Prod.fst) = .returned none ∧
    ((((StepRangeIterator 10 0 (-3) 0).after (fun _ => ⟨7, 8, Equiv.refl _, true⟩) 3).Next
        ⟨7, 8, Equiv.refl _, true⟩).2.map Prod.fst) = .returned (some 1) ∧
    ((((StepRangeIterator 10 0 (-3) 0).after (fun _ => ⟨7, 8, Equiv.refl _, true⟩) 4).Next
        ⟨7, 8, Equiv.refl _, true⟩).2.map Prod.fst) = .returned none :=
  ⟨(C4_range_Next_values 0 10 2 DefaultFormat DefaultBarSize DefaultBarChar 0
      (fun _ => ⟨7, 8, Equiv.refl _, true⟩) 4 (by decide)
      (fun j hb => by unfold before at hb; unfold inInt64; omega) (fun _ => by decide!)).1,
   (C4_range_Next_values 0 10 2 DefaultFormat DefaultBarSize DefaultBarChar 0
      (fun _ => ⟨7, 8, Equiv.refl _, true⟩) 5 (by decide)
      (fun j hb => by unfold before at hb; unfold inInt64; omega)
      (fun h => absurd h (by decide))).1,
   (C4_range_Next_values 10 0 (-3) DefaultFormat DefaultBarSize DefaultBarChar 0
      (fun _ => ⟨7, 8, Equiv.refl _, true⟩) 3 (by decide)
      (fun j hb => by unfold before at hb; unfold inInt64; omega) (fun _ => by decide!)).1,
   (C4_range_Next_values 10 0 (-3) DefaultFormat DefaultBarSize DefaultBarChar 0
      (fun _ => ⟨7, 8, Equiv.refl _, true⟩) 4 (by decide)
      (fun j hb => by unfold before at hb; unfold inInt64; omega)
      (fun h => absurd h (by decide))).1⟩

/-- C4, counterexample: the range `(0, 10, 2)` built by `NewRangeIterator` with the
default template, which contains `%bar%`.  With the width `-1` the first call of `Next`
does not return `0`: it panics in `strings.Repeat`, called by `render` with the count
`barSize - filled = -1`.  With the width `2^49` it does not return `0` either, even with
memory: `strings.Repeat` asks for more than the allocator limit and the runtime
panics. -/
theorem C4_range_Next_counterexample :
    ((NewRangeIterator 0 10 2 [] (-1) [] 0).Next ⟨7, 8, Equiv.refl _, true⟩).2
      = .panicked "strings: negative Repeat count" ∧
    ((NewRangeIterator 0 10 2 [] (2 ^ 49) [] 0).Next ⟨7, 8, Equiv.refl _, true⟩).2
      = .panicked "runtime error: makeslice: len out of range" ∧
    before 2 10 0 := by
  decide!

/-- C5, amended: for every bar state that satisfies the invariant, has a width
`0 ≤ barSize < 2^63` and is small enough that `barSize * progress + maxProgress ≤ 2^52`,
the number `filled` of `barChar` cells that `render` puts in the bar is exactly
`floor(barSize * progress / maxProgress)`, so it is `0` at progress `0` and `barSize` at
`progress = maxProgress`.  The bar is that many copies of `barChar` followed by
`barSize - filled` spaces: whenever building the bar returns it returns this string, it
does return when the string is not longer than the allocator limit of `2^48` bytes and
the runtime has the memory, and it then replaces `%bar%` in every template whose
formatted text contains `%bar%`, when the line is within that limit too. -/
theorem C5_fill_count_exact_when_small (pb : ProgressBar) (order : Equiv.Perm (Fin 5))
    (hinv : pb.Inv) (h0 : 0 ≤ pb.barSize) (h63 : pb.barSize < 2 ^ 63)
    (hsmall : pb.barSize * pb.progress + pb.maxProgress ≤ 2 ^ 52) :
    pb.filled = pb.barSize * pb.progress / pb.maxProgress ∧
    (pb.progress = 0 → pb.filled = 0) ∧
    (pb.progress = pb.maxProgress → pb.filled = pb.barSize) ∧
    (∀ (memory : Bool) (r : Str), pb.bar memory = .returned r →
      r = (List.replicate pb.filled.toNat pb.barChar).flatten ++
        List.replicate (pb.barSize - pb.filled).toNat ' ') ∧
    (byteLen pb.barText ≤ maxAlloc → pb.bar true = .returned pb.barText) ∧
    (strContains "%bar%".toList (customFormat pb.barFormat (pb.ranged order)) = true →
      byteLen (pb.line order) ≤ maxAlloc →
      pb.barStr order true = .returned (replaceAll (customFormat pb.barFormat (pb.ranged order))
        "%bar%".toList pb.barText)) := by
  have hf := filled_exact pb hinv h0 hsmall
  obtain ⟨hm, hp0, hpm⟩ := hinv
  have hf0 : 0 ≤ pb.filled := by
    rw [hf]
    exact Int.ediv_nonneg (mul_nonneg h0 hp0) (by omega)
  have hfB : pb.filled ≤ pb.barSize := by
    rw [hf]
    apply Int.ediv_le_of_le_mul (by omega)
    exact mul_le_mul_of_nonneg_left hpm h0
  refine ⟨hf, ?_, ?_, ?_, ?_, ?_⟩
  · intro hz
    rw [hf, hz]
    simp
  · intro hfull
    rw [hf, hfull]
    exact Int.mul_ediv_cancel _ (by omega)
  · intro memory r hr
    exact (bar_eq_of_returned pb memory r (by unfold inInt64; omega) hr).1
  · intro hlen
    exact bar_of_filled_bounds pb hf0 hfB h63 hlen
  · intro hc hlen
    have := barStr_of_filled_bounds pb order (fun _ => ⟨hf0, hfB, h63⟩) hlen
    rw [this]
    unfold ProgressBar.line
    rw [if_pos hc]

/-- Witness of C5: a bar of width `80` at `1` of `3`: `26` cells. -/
theorem C5_fill_count_exact_when_small_witness :
    (((NewProgressBar [] 3 80 [] 0).SetProgress ⟨7, 8, Equiv.refl _, true⟩ 1).1).filled = 26 :=
  (C5_fill_count_exact_when_small ((NewProgressBar [] 3 80 [] 0).SetProgress
    ⟨7, 8, Equiv.refl _, true⟩ 1).1 (Equiv.refl _) (by decide) (by decide) (by decide)
    (by decide)).1

/-- C5, counterexample: the default width `80` with `maxProgress = 1980507669857085`
(the default template, which contains `%bar%`).  After `SetProgress(maxProgress)` the
bar is complete and `floor(80 * progress / maxProgress) = 80`, but `render` computes
`filled = 79`: the float product `80 * maxProgress` is rounded, and the rounded
quotient falls below `80`. -/
theorem C5_fill_count_counterexample :
    strContains "%bar%".toList ((NewProgressBar [] 1980507669857085 80 [] 0).SetProgress
      ⟨7, 8, Equiv.refl _, true⟩ 1980507669857085).1.barFormat = true ∧
    ((NewProgressBar [] 1980507669857085 80 [] 0).SetProgress
      ⟨7, 8, Equiv.refl _, true⟩ 1980507669857085).1.progress = 1980507669857085 ∧
    ((NewProgressBar [] 1980507669857085 80 [] 0).SetProgress
      ⟨7, 8, Equiv.refl _, true⟩ 1980507669857085).1.maxProgress = 1980507669857085 ∧
    ((NewProgressBar [] 1980507669857085 80 [] 0).SetProgress
      ⟨7, 8, Equiv.refl _, true⟩ 1980507669857085).1.filled = 79 ∧
    ((NewProgressBar [] 1980507669857085 80 [] 0).SetProgress
      ⟨7, 8, Equiv.refl _, true⟩ 1980507669857085).1.bar true =
        .returned (List.replicate 79 '■' ++ [' ']) ∧
    (80 * 1980507669857085 / 1980507669857085 : Int) = 80 := by
  decide!

/-- C6, amended: for every bar state that satisfies the invariant, has a width
`0 ≤ barSize < 2^52` and a fill glyph `barChar` of exactly one character (the default
glyph is one), the bar string that `render` substitutes for `%bar%` has exactly
`barSize` characters: whenever building the bar returns, it returns a string of that
length, and it does return when that string is not longer than the allocator limit of
`2^48` bytes and the runtime has the memory. -/
theorem C6_bar_length_single_glyph (pb : ProgressBar) (hinv : pb.Inv) (h0 : 0 ≤ pb.barSize)
    (h52 : pb.barSize < 2 ^ 52) (hchar : pb.barChar.length = 1) :
    (pb.barText.length : Int) = pb.barSize ∧
    (∀ (memory : Bool) (r : Str), pb.bar memory = .returned r →
      (r.length : Int) = pb.barSize) ∧
    (byteLen pb.barText ≤ maxAlloc → pb.bar true = .returned pb.barText) := by
  obtain ⟨hf0, hfB⟩ := filled_bounds pb hinv h0 h52
  have hlen : (pb.barText.length : Int) = pb.barSize := by
    unfold ProgressBar.barText
    simp only [List.length_append, List.length_flatten, List.map_replicate, List.sum_replicate,
      List.length_replicate, hchar, smul_eq_mul, mul_one]
    omega
  refine ⟨hlen, ?_, fun hb => bar_returned pb hinv h0 h52 hb⟩
  intro memory r hr
  rw [(bar_eq_of_returned pb memory r (by unfold inInt64; omega) hr).1]
  exact hlen

/-- Witness of C6: the default bar of width `80` at `1` of `3`, built with memory. -/
theorem C6_bar_length_single_glyph_witness :
    ∃ s : Str, ((NewProgressBar [] 3 80 [] 0).SetProgress ⟨7, 8, Equiv.refl _, true⟩ 1).1.bar
      true = .returned s ∧ (s.length : Int) = 80 :=
  ⟨_, (C6_bar_length_single_glyph ((NewProgressBar [] 3 80 [] 0).SetProgress
      ⟨7, 8, Equiv.refl _, true⟩ 1).1 (by decide) (by decide) (by decide) (by decide)).2.2
      (by decide!),
    (C6_bar_length_single_glyph ((NewProgressBar [] 3 80 [] 0).SetProgress
      ⟨7, 8, Equiv.refl _, true⟩ 1).1 (by decide) (by decide) (by decide) (by decide)).1⟩

/-- C6, counterexample: with the two-character glyph `ab`, width `2` and a complete bar,
the bar string is `abab`, of length `4`, not `2`; with the width `-1` building the bar
panics and there is no bar string at all. -/
theorem C6_bar_length_counterexample :
    ((NewProgressBar [] 1 2 ['a', 'b'] 0).SetProgress ⟨7, 8, Equiv.refl _, true⟩ 1).1.bar true
      = .returned ['a', 'b', 'a', 'b'] ∧
    ((NewProgressBar [] 1 2 ['a', 'b'] 0).SetProgress ⟨7, 8, Equiv.refl _, true⟩ 1).1.barSize
      = 2 ∧
    ((NewProgressBar [] 1 (-1) [] 0).SetProgress ⟨7, 8, Equiv.refl _, true⟩ 1).1.bar true
      = .panicked "strings: negative Repeat count" ∧
    ((NewProgressBar [] 1 (-1) [] 0).SetProgress ⟨7, 8, Equiv.refl _, true⟩ 1).2
      = .panicked "strings: negative Repeat count" := by
  decide!

/-- C7, the code at the failing inputs: with the template `\%curr%` at progress `5`
the line printed is `\5`: the escaped `%` opened the placeholder `%curr%`, the field
value was substituted and the backslash stayed.  With the template `\%bar%` and a bar
of width `4` at `5` of `10` the line is the bar itself: the escaped `%` was unescaped
first and then opened `%bar%`.  An escape that is not followed by a field name and `%`
does print a plain `%`: `50\% done` gives `50% done`. -/
theorem C7_escaped_percent_opens_placeholder :
    ((NewProgressBar "\\%curr%".toList 10 80 [] 0).SetProgress ⟨7, 8, Equiv.refl _, true⟩ 5).2
      = .returned "\r\\5".toList ∧
    ((NewProgressBar "\\%bar%".toList 10 4 ['#'] 0).SetProgress ⟨7, 8, Equiv.refl _, true⟩ 5).2
      = .returned "\r##  ".toList ∧
    ((NewProgressBar "50\\% done".toList 10 80 [] 0).SetProgress ⟨7, 8, Equiv.refl _, true⟩ 5).2
      = .returned "\r50% done".toList := by
  decide!

/-- C8, the code at the failing input: the template `%bar\%` does not contain the
substring `%bar%`, yet with a bar of width `4` and glyph `#` at `5` of `10` the line
printed is the bar, `##` and two spaces: `customFormat` unescapes `\%` before `render`
looks for `%bar%`, so the escaped `%` closes a placeholder.  The template
`%curr%/%max%`, without an escape, prints `5/10` with no bar. -/
theorem C8_bar_inserted_without_placeholder :
    strContains "%bar%".toList "%bar\\%".toList = false ∧
    ((NewProgressBar "%bar\\%".toList 10 4 ['#'] 0).SetProgress
      ⟨7, 8, Equiv.refl _, true⟩ 5).1.barFormat = "%bar\\%".toList ∧
    ((NewProgressBar "%bar\\%".toList 10 4 ['#'] 0).SetProgress
      ⟨7, 8, Equiv.refl _, true⟩ 5).2 = .returned "\r##  ".toList ∧
    ((NewProgressBar "%curr%/%max%".toList 10 4 ['#'] 0).SetProgress
      ⟨7, 8, Equiv.refl _, true⟩ 5).2 = .returned "\r5/10".toList := by
  decide!

/-- C9, amended: for every bar state that satisfies the invariant (with `maxProgress` in
the `int64` range), the `%prog%` field is the decimal rendering, with exactly two
fractional digits, of `k / 100` for a whole number of hundredths `0 ≤ k ≤ 10000` (so the
field lies between `0.00` and `100.00`) that is within `0.005 + 2^-44` of the exact
`100 * progress / maxProgress`: `k / 100` is the float quotient
`100 * float64(progress) / float64(maxProgress)` rounded to hundredths, ties to even,
and the float quotient is within `2^-44` of the exact one. -/
theorem C9_percent_field (pb : ProgressBar) (hinv : pb.Inv) (h63 : pb.maxProgress < 2 ^ 63) :
    ∃ k : ℕ, k ≤ 10000 ∧
      pb.progressStr =
        natDigits (k / 100) ++ ['.', Nat.digitChar (k / 10 % 10), Nat.digitChar (k % 10)] ∧
      (k : ℤ) = roundHalfEven
        (f64div (f64mul 100 (f64ofInt pb.progress)) (f64ofInt pb.maxProgress) * 100) ∧
      |(k : ℚ) / 100 - 100 * (pb.progress : ℚ) / pb.maxProgress| ≤ 1 / 200 + 1 / 2 ^ 44 := by
  obtain ⟨hm, hp0, hpm⟩ := hinv
  obtain ⟨hv0, hlo, hhi⟩ := f64_percent_bounds_nonneg pb.progress pb.maxProgress hp0 hpm hm h63
  have hmq : (0 : ℚ) < pb.maxProgress := by exact_mod_cast (by omega : (0 : ℤ) < pb.maxProgress)
  have ha100 : 100 * (pb.progress : ℚ) / pb.maxProgress ≤ 100 := by
    rw [div_le_iff₀ hmq]
    have : (pb.progress : ℚ) ≤ pb.maxProgress := by exact_mod_cast hpm
    linarith
  have hr0 : 0 ≤ roundHalfEven
      (f64div (f64mul 100 (f64ofInt pb.progress)) (f64ofInt pb.maxProgress) * 100) :=
    roundHalfEven_nonneg (mul_nonneg hv0 (by norm_num))
  have hrle := roundHalfEven_le
    (f64div (f64mul 100 (f64ofInt pb.progress)) (f64ofInt pb.maxProgress) * 100)
  have hrge := roundHalfEven_ge
    (f64div (f64mul 100 (f64ofInt pb.progress)) (f64ofInt pb.maxProgress) * 100)
  have hk : ((roundHalfEven (f64div (f64mul 100 (f64ofInt pb.progress))
      (f64ofInt pb.maxProgress) * 100)).toNat : ℤ) = roundHalfEven
      (f64div (f64mul 100 (f64ofInt pb.progress)) (f64ofInt pb.maxProgress) * 100) :=
    Int.toNat_of_nonneg hr0
  have hkq : (((roundHalfEven (f64div (f64mul 100 (f64ofInt pb.progress))
      (f64ofInt pb.maxProgress) * 100)).toNat : ℕ) : ℚ) = (roundHalfEven
      (f64div (f64mul 100 (f64ofInt pb.progress)) (f64ofInt pb.maxProgress) * 100) : ℚ) := by
    exact_mod_cast hk
  have hsmall : (1 : ℚ) / 2 ^ 44 ≤ 1 / 1000 := by norm_num
  refine ⟨(roundHalfEven (f64div (f64mul 100 (f64ofInt pb.progress))
      (f64ofInt pb.maxProgress) * 100)).toNat, ?_, ?_, hk, ?_⟩
  · have : (roundHalfEven (f64div (f64mul 100 (f64ofInt pb.progress))
        (f64ofInt pb.maxProgress) * 100) : ℚ) < ((10001 : ℤ) : ℚ) := by
      push_cast
      linarith
    have h2 : roundHalfEven (f64div (f64mul 100 (f64ofInt pb.progress))
        (f64ofInt pb.maxProgress) * 100) < 10001 := by exact_mod_cast this
    omega
  · unfold ProgressBar.progressStr fmtFixed2
    simp only [abs_of_nonneg hv0, signed, zeroPad, not_lt.mpr hv0, decide_False,
      Nat.zero_sub, List.replicate_zero, List.nil_append]
    rfl
  · rw [hkq, abs_le]
    constructor <;> linarith

/-- Witness of C9: progress `1` of `3` renders as `33.33`. -/
theorem C9_percent_field_witness :
    (∃ k : ℕ, k ≤ 10000 ∧
      ((NewProgressBar [] 3 80 [] 0).SetProgress ⟨7, 8, Equiv.refl _, true⟩ 1).1.progressStr =
        natDigits (k / 100) ++ ['.', Nat.digitChar (k / 10 % 10), Nat.digitChar (k % 10)] ∧
      (k : ℤ) = roundHalfEven (f64div (f64mul 100 (f64ofInt 1)) (f64ofInt 3) * 100) ∧
      |(k : ℚ) / 100 - 100 * ((1 : ℤ) : ℚ) / ((3 : ℤ) : ℚ)| ≤ 1 / 200 + 1 / 2 ^ 44) ∧
    ((NewProgressBar [] 3 80 [] 0).SetProgress ⟨7, 8, Equiv.refl _, true⟩ 1).1.progressStr =
      "33.33".toList :=
  ⟨C9_percent_field ((NewProgressBar [] 3 80 [] 0).SetProgress ⟨7, 8, Equiv.refl _, true⟩ 1).1
    (by decide) (by decide), by decide!⟩

/-- C9, counterexample: progress `10^12` of `maxProgress = 2 * 10^16 + 1`.  The exact
percentage is below `0.005`, so rounded to two fractional digits it is `0.00` whatever
the rule for ties; the field reads `0.01`, because `float64(maxProgress)` is
`2 * 10^16` and the float quotient is the float next above `0.005`. -/
theorem C9_percent_field_counterexample :
    ((NewProgressBar [] 20000000000000001 80 [] 0).SetProgress
      ⟨7, 8, Equiv.refl _, true⟩ 1000000000000).1.progressStr = "0.01".toList ∧
    ((NewProgressBar [] 20000000000000001 80 [] 0).SetProgress
      ⟨7, 8, Equiv.refl _, true⟩ 1000000000000).1.Inv ∧
    (100 * 1000000000000 / 20000000000000001 : ℚ) < 1 / 200 ∧
    |(0 : ℚ) / 100 - 100 * 1000000000000 / 20000000000000001| < 1 / 200 ∧
    1 / 200 < |(1 : ℚ) / 100 - 100 * 1000000000000 / 20000000000000001| := by
  decide!

/-- C10: for every format, max, size, char (and clock reading), `NewProgressBar` returns a
bar with `maxProgress = max` when `max ≥ 1` and `1` otherwise, `barFormat` the format or
`DefaultFormat` when it is empty, `barChar` the char or `DefaultBarChar` when it is empty,
`barSize = size`, `progress = 0`, `speed = 0` and `gamma = 0.5`; the defaults are the
documented template and glyph, and `max = 0` and `max = -5` both give `1`. -/
theorem C10_NewProgressBar_fields (format : Str) (max size : Int) (char : Str) (now : Int) :
    (NewProgressBar format max size char now).maxProgress = (if 1 ≤ max then max else 1) ∧
    (NewProgressBar format max size char now).barFormat =
      (if format = [] then DefaultFormat else format) ∧
    (NewProgressBar format max size char now).barChar =
      (if char = [] then DefaultBarChar else char) ∧
    (NewProgressBar format max size char now).barSize = size ∧
    (NewProgressBar format max size char now).progress = 0 ∧
    (NewProgressBar format max size char now).speed = 0 ∧
    (NewProgressBar format max size char now).gamma = 1 / 2 ∧
    (NewProgressBar format max size char now).startTime = now ∧
    (NewProgressBar format 0 size char now).maxProgress = 1 ∧
    (NewProgressBar format (-5) size char now).maxProgress = 1 ∧
    (NewProgressBar [] max size [] now).barFormat =
      "%prog%% |%bar%| %curr%/%max% [%eta%, %spd%it/s]".toList ∧
    (NewProgressBar [] max size [] now).barChar = ['■'] := by
  refine ⟨?_, rfl, rfl, rfl, rfl, rfl, rfl, rfl, rfl, rfl, rfl, rfl⟩
  unfold NewProgressBar
  simp only
  split_ifs <;> omega

/-- C11: for every prior bar state and every clock reading, `Reset` sets `progress` to
`0` and `speed` to `0`, takes the clock reading as the new start time, and leaves
`barFormat`, `maxProgress`, `barSize`, `barChar` and `gamma` unchanged.  Its result is a
bar state alone: unlike `SetProgress` it has no output line, it does not render. -/
theorem C11_Reset_frame (pb : ProgressBar) (now : Int) :
    (pb.Reset now).progress = 0 ∧ (pb.Reset now).speed = 0 ∧
    (pb.Reset now).startTime = now ∧
    (pb.Reset now).barFormat = pb.barFormat ∧
    (pb.Reset now).maxProgress = pb.maxProgress ∧
    (pb.Reset now).barSize = pb.barSize ∧
    (pb.Reset now).barChar = pb.barChar ∧
    (pb.Reset now).gamma = pb.gamma :=
  ⟨rfl, rfl, rfl, rfl, rfl, rfl, rfl, rfl⟩

/-- C12, amended: for every sequence `xs`, every bar with `maxProgress ≥ 1` and every
number `k` of calls of `Next` already made (those after the end included), `Reset`
turns the iterator into the fresh iterator over `xs` with the reset bar, whose progress
is `0`: the `j`-th call of `Next` after it (counted from `0`) returns the `j`-th element
of `xs`, provided that call can draw its line (if the formatted template contains
`%bar%` the width satisfies `0 ≤ barSize < 2^52`, the line to write, carriage return
included, is not longer than the allocator limit of `2^48` bytes, and the runtime has
the memory that `render` asks for), and the end signal from `j = len xs` on. -/
theorem C12_sequence_Reset_restarts {T : Type} (xs : List T) (pb : ProgressBar)
    (envs envs2 : Nat → Env) (k j : Nat) (now : Int) (hmax : 1 ≤ pb.maxProgress)
    (hdraw : j < xs.length →
      ((((NewProgressIterator xs pb).after envs k).Reset now).after envs2
        (j + 1)).progress.drawable (envs2 j)) :
    ((NewProgressIterator xs pb).after envs k).Reset now =
      NewProgressIterator xs
        (((NewProgressIterator xs pb).after envs k).progress.Reset now) ∧
    (((((NewProgressIterator xs pb).after envs k).Reset now).after envs2 j).Next
      (envs2 j)).2.map Prod.fst = .returned xs[j]? ∧
    (((NewProgressIterator xs pb).after envs k).Reset now).index = 0 ∧
    (((NewProgressIterator xs pb).after envs k).Reset now).progress.progress = 0 := by
  obtain ⟨h1, h2, h3, h4⟩ := ProgressIterator_after_state xs pb envs k
  refine ⟨ProgressIterator_Reset_after xs pb envs k now, ?_, rfl, rfl⟩
  rw [ProgressIterator_Reset_after xs pb envs k now] at hdraw ⊢
  exact ProgressIterator_Next_values xs _ envs2 j (by rw [← h3] at hmax; exact hmax) hdraw

/-- Witness of C12: the sequence `a, b, c` with a default bar of maximum `3`, in an
environment with memory; after two calls of `Next` and a `Reset`, the calls number `0`
and `3` return `a` and the end signal. -/
theorem C12_sequence_Reset_restarts_witness :
    (((((NewProgressIterator ['a', 'b', 'c'] (NewProgressBar [] 3 80 [] 0)).after
        (fun _ => ⟨7, 8, Equiv.refl _, true⟩) 2).Reset 9).after
        (fun _ => ⟨7, 8, Equiv.refl _, true⟩) 0).Next ⟨7, 8, Equiv.refl _, true⟩).2.map
          Prod.fst = .returned (some 'a') ∧
    (((((NewProgressIterator ['a', 'b', 'c'] (NewProgressBar [] 3 80 [] 0)).after
        (fun _ => ⟨7, 8, Equiv.refl _, true⟩) 2).Reset 9).after
        (fun _ => ⟨7, 8, Equiv.refl _, true⟩) 3).Next ⟨7, 8, Equiv.refl _, true⟩).2.map
          Prod.fst = .returned none :=
  ⟨(C12_sequence_Reset_restarts ['a', 'b', 'c'] (NewProgressBar [] 3 80 [] 0)
      (fun _ => ⟨7, 8, Equiv.refl _, true⟩) (fun _ => ⟨7, 8, Equiv.refl _, true⟩) 2 0 9
      (by decide) (fun _ => by decide!)).2.1,
   (C12_sequence_Reset_restarts ['a', 'b', 'c'] (NewProgressBar [] 3 80 [] 0)
      (fun _ => ⟨7, 8, Equiv.refl _, true⟩) (fun _ => ⟨7, 8, Equiv.refl _, true⟩) 2 3 9
      (by decide) (fun h => absurd h (by decide))).2.1⟩

/-- C12, counterexample: a fresh sequence iterator over `a, b, c` with the default
template, which contains `%bar%`, no call of `Next` made yet.  With a bar of width `-1`,
after `Reset` the next call of `Next` does not return `a`: it panics in
`strings.Repeat`, called by `render` with the count `barSize - filled = -1`.  With a bar
of width `2^49` it does not return `a` either, even with memory: `strings.Repeat` asks
for more than the allocator limit and the runtime panics.  With the width `80` the call
returns `a`. -/
theorem C12_sequence_Reset_counterexample :
    (((NewProgressIterator ['a', 'b', 'c'] (NewProgressBar [] 3 (-1) [] 0)).Reset 9).Next
      ⟨7, 8, Equiv.refl _, true⟩).2 = .panicked "strings: negative Repeat count" ∧
    (((NewProgressIterator ['a', 'b', 'c'] (NewProgressBar [] 3 (2 ^ 49) [] 0)).Reset 9).Next
      ⟨7, 8, Equiv.refl _, true⟩).2 =
        .panicked "runtime error: makeslice: len out of range" ∧
    (((NewProgressIterator ['a', 'b', 'c'] (NewProgressBar [] 3 80 [] 0)).Reset 9).Next
      ⟨7, 8, Equiv.refl _, true⟩).2.map Prod.fst = .returned (some 'a') := by
  decide!

/-- C13, amended: for every start, end and step such that the range is not empty (the
start is strictly before the end in the direction of the stored step, which is the step
itself, or `1` for a zero step), the stored step divides `end - start` or is longer than
it (`|end - start| < |step|`, a range of one value), no addition `current += step` made
by the iterator leaves the `int` range, and the difference `end - start` lies in the
`int` range (and is not the least `int` divided by the step `-1`): the maximum of the
bar of the range iterator, `max 1 ((end - start) / step)` with Go's truncating division,
is the number of values the iterator yields.  The call number `k` of `Next` (counted
from `0`) signals the end exactly when `k` has reached that maximum, and before that it
returns `start + k * step`, provided that call can draw its line: if the formatted
template contains `%bar%` the width satisfies `0 ≤ barSize < 2^52`, the line to write,
carriage return included, is not longer than the allocator limit of `2^48` bytes, and
the runtime has the memory that `render` asks for. -/
theorem C13_range_maxProgress_counts_values (start end_ step : Int) (format : Str)
    (size : Int) (char : Str) (now : Int) (envs : Nat → Env) (k : Nat)
    (hcond : storedStep step ∣ end_ - start ∨ |end_ - start| < |storedStep step|)
    (hb : before (storedStep step) end_ start)
    (hno : ∀ j : ℕ, before (storedStep step) end_ (start + j * storedStep step) →
      inInt64 (start + (j + 1) * storedStep step))
    (hsub : inInt64 (end_ - start))
    (hq : ¬ (end_ - start = -(2 ^ 63) ∧ step = -1))
    (hdraw :
      (k : ℤ) < (NewRangeIterator start end_ step format size char now).progress.maxProgress →
      ((NewRangeIterator start end_ step format size char now).after envs
        (k + 1)).progress.drawable (envs k)) :
    (NewRangeIterator start end_ step format size char now).progress.maxProgress =
      max 1 ((end_ - start).tdiv (storedStep step)) ∧
    ((((NewRangeIterator start end_ step format size char now).after envs k).Next
        (envs k)).2 = .returned (none, []) ↔
      (NewRangeIterator start end_ step format size char now).progress.maxProgress ≤ k) ∧
    ((((NewRangeIterator start end_ step format size char now).after envs k).Next
        (envs k)).2.map Prod.fst) =
      .returned
        (if (k : ℤ) < (NewRangeIterator start end_ step format size char now).progress.maxProgress
          then some (start + k * storedStep step) else none) := by
  have hstep := storedStep_ne_zero step
  have hq2 : ¬ (end_ - start = -(2 ^ 63) ∧ storedStep step = -1) := by
    intro hc
    apply hq
    refine ⟨hc.1, ?_⟩
    have h2 := hc.2
    unfold storedStep at h2
    split_ifs at h2 with h
    · exact absurd h2 (by decide)
    · exact h2
  rw [NewRangeIterator_storedStep start end_ step format size char now] at hdraw ⊢
  generalize storedStep step = s at hcond hb hno hstep hq2 hdraw ⊢
  obtain ⟨n, hn1, hmaxn, hbn⟩ := range_count start end_ s hstep hcond hb
  have hmax : (NewRangeIterator start end_ s format size char now).progress.maxProgress
      = n := by
    rw [NewRangeIterator_maxProgress _ _ _ _ _ _ _ hstep hsub hq2, hmaxn]
  rw [hmax] at hdraw ⊢
  refine ⟨hmaxn.symm, ?_, ?_⟩
  · rw [NewRangeIterator_Next_end_iff start end_ s format size char now envs k hstep hno,
      hbn k]
    omega
  · rw [NewRangeIterator_Next_values start end_ s format size char now envs k hstep hno
      (fun hbk => hdraw ((hbn k).mp hbk))]
    by_cases hk : (k : ℤ) < n
    · rw [if_pos ((hbn k).mpr hk), if_pos hk]
    · rw [if_neg (fun h => hk ((hbn k).mp h)), if_neg hk]

/-- Witness of C13: the range `(0, 12, 3)` with the default bar, in an environment with
memory: the maximum is `4`, the call number `3` returns `9` and the call number `4`
signals the end; and the range `(0, 2, 3)` of one value, whose bar has the maximum
`1`. -/
theorem C13_range_maxProgress_counts_values_witness :
    before (storedStep 3) 12 0 ∧
    ((NewRangeIterator 0 12 3 [] 80 [] 0).progress.maxProgress =
        max 1 (((12 : ℤ) - 0).tdiv (storedStep 3)) ∧
      ((((NewRangeIterator 0 12 3 [] 80 [] 0).after
          (fun _ => ⟨7, 8, Equiv.refl _, true⟩) 3).Next
          ((fun _ => ⟨7, 8, Equiv.refl _, true⟩ : Nat → Env) 3)).2 = .returned (none, []) ↔
        (NewRangeIterator 0 12 3 [] 80 [] 0).progress.maxProgress ≤ ((3 : ℕ) : ℤ)) ∧
      ((((NewRangeIterator 0 12 3 [] 80 [] 0).after
          (fun _ => ⟨7, 8, Equiv.refl _, true⟩) 3).Next
          ((fun _ => ⟨7, 8, Equiv.refl _, true⟩ : Nat → Env) 3)).2.map Prod.fst) =
        .returned
          (if ((3 : ℕ) : ℤ) < (NewRangeIterator 0 12 3 [] 80 [] 0).progress.maxProgress
            then some (0 + ((3 : ℕ) : ℤ) * storedStep 3) else none)) ∧
    (NewRangeIterator 0 2 3 [] 80 [] 0).progress.maxProgress =
      max 1 (((2 : ℤ) - 0).tdiv (storedStep 3)) :=
  ⟨by decide,
   C13_range_maxProgress_counts_values 0 12 3 [] 80 [] 0
    (fun _ => ⟨7, 8, Equiv.refl _, true⟩) 3
    (Or.inl (by decide)) (by decide)
    (fun j hb => by
      rw [show storedStep 3 = 3 by decide] at hb ⊢
      unfold before at hb
      unfold inInt64
      omega)
    (by decide) (by decide) (fun _ => by decide!),
   (C13_range_maxProgress_counts_values 0 2 3 [] 80 [] 0
    (fun _ => ⟨7, 8, Equiv.refl _, true⟩) 0
    (Or.inr (by decide)) (by decide)
    (fun j hb => by
      rw [show storedStep 3 = 3 by decide] at hb ⊢
      unfold before at hb
      unfold inInt64
      omega)
    (by decide) (by decide) (fun _ => by decide!)).1⟩

/-- C13, counterexample: the range `(0, 10, 3)` gets a bar of maximum `3` but yields the
four values `0, 3, 6, 9` (the call number `3` returns `9`, the call number `4` the end
signal); the empty range `(5, 5, 1)` gets a bar of maximum `1` and yields nothing. -/
theorem C13_range_maxProgress_counterexample :
    (StepRangeIterator 0 10 3 0).progress.maxProgress = 3 ∧
    (((StepRangeIterator 0 10 3 0).after (fun _ => ⟨7, 8, Equiv.refl _, true⟩) 3).Next
      ⟨7, 8, Equiv.refl _, true⟩).2.map Prod.fst = .returned (some 9) ∧
    (((StepRangeIterator 0 10 3 0).after (fun _ => ⟨7, 8, Equiv.refl _, true⟩) 4).Next
      ⟨7, 8, Equiv.refl _, true⟩).2.map Prod.fst = .returned none ∧
    (StepRangeIterator 5 5 1 0).progress.maxProgress = 1 ∧
    ((StepRangeIterator 5 5 1 0).Next ⟨7, 8, Equiv.refl _, true⟩).2.map Prod.fst =
      .returned none := by
  decide!

/-- C14, amended: for every sequence `xs` of length `n` and every bar handed to
`NewProgressIterator`, after `k` calls of `Next` with `1 ≤ k ≤ n` the progress of the
owned bar is `min k maxProgress`; it is `k` when the bar has `maxProgress ≥ n`, and
for a bar sized to the sequence (`maxProgress = n`) it equals `n`, the maximum, exactly
when `k = n`, that is when the sequence is exhausted. -/
theorem C14_sequence_progress_tracks_calls {T : Type} (xs : List T) (pb : ProgressBar)
    (envs : Nat → Env) (k : Nat) (h1 : 1 ≤ k) (hk : k ≤ xs.length) :
    ((NewProgressIterator xs pb).after envs k).progress.progress =
      min (k : ℤ) pb.maxProgress ∧
    ((xs.length : ℤ) ≤ pb.maxProgress →
      ((NewProgressIterator xs pb).after envs k).progress.progress = k) ∧
    (pb.maxProgress = xs.length →
      (((NewProgressIterator xs pb).after envs k).progress.progress = pb.maxProgress ↔
        k = xs.length)) := by
  obtain ⟨i, rfl⟩ : ∃ i, k = i + 1 := ⟨k - 1, by omega⟩
  have h := ProgressIterator_after_progress xs pb envs i (by omega)
  rw [h]
  push_cast
  refine ⟨rfl, fun hle => min_eq_left (by omega), fun heq => ?_⟩
  rw [min_eq_left (by omega)]
  omega

/-- Witness of C14: the sequence `a, b, c` with a default bar of maximum `3`, after two
calls of `Next`. -/
theorem C14_sequence_progress_tracks_calls_witness :
    1 ≤ 2 ∧ 2 ≤ ['a', 'b', 'c'].length ∧
    ((NewProgressIterator ['a', 'b', 'c'] (NewProgressBar [] 3 80 [] 0)).after
      (fun _ => ⟨7, 8, Equiv.refl _, true⟩) 2).progress.progress =
      min ((2 : ℕ) : ℤ) (NewProgressBar [] 3 80 [] 0).maxProgress :=
  ⟨by decide, by decide,
   (C14_sequence_progress_tracks_calls ['a', 'b', 'c'] (NewProgressBar [] 3 80 [] 0)
      (fun _ => ⟨7, 8, Equiv.refl _, true⟩) 2 (by decide) (by decide)).1⟩

/-- C14, counterexample: the sequence `a, b, c` with a default bar of maximum `2`.  The
third call of `Next` returns `c`, and after it the progress of the bar is `2`, not `3`:
`SetProgress` clamped it to the maximum of the bar. -/
theorem C14_sequence_progress_counterexample :
    (((NewProgressIterator ['a', 'b', 'c'] (NewProgressBar [] 2 80 [] 0)).after
        (fun _ => ⟨7, 8, Equiv.refl _, true⟩) 2).Next ⟨7, 8, Equiv.refl _, true⟩).2.map Prod.fst =
      .returned (some 'c') ∧
    ((NewProgressIterator ['a', 'b', 'c'] (NewProgressBar [] 2 80 [] 0)).after
      (fun _ => ⟨7, 8, Equiv.refl _, true⟩) 3).progress.progress = 2 := by
  decide!

/-- C15, amended: for every start, end and step such that the difference `end - start`
lies in the `int` range (and is not the least `int` divided by the step `-1`),
`NewRangeIterator` stores the step `1` for a zero step and the given step otherwise,
sets `current` to `start`, and makes a bar whose maximum is `max 1 ⌊(end - start) / step⌋`
for the stored step, with the mathematical floor: the code truncates, which gives the
same maximum since every quotient below `1` becomes `1`.  A zero-step iterator is the
step-`1` iterator. -/
theorem C15_NewRangeIterator_fields (start end_ step : Int) (format : Str) (size : Int)
    (char : Str) (now : Int) (hsub : inInt64 (end_ - start))
    (hq : ¬ (end_ - start = -(2 ^ 63) ∧ step = -1)) :
    (NewRangeIterator start end_ step format size char now).step =
      (if step = 0 then 1 else step) ∧
    (NewRangeIterator start end_ step format size char now).current = start ∧
    (NewRangeIterator start end_ step format size char now).progress.maxProgress =
      max 1 ⌊((end_ - start : ℤ) : ℚ) / ((if step = 0 then 1 else step : ℤ) : ℚ)⌋ ∧
    (NewRangeIterator start end_ step format size char now).progress.maxProgress =
      max 1 ((end_ - start).tdiv (if step = 0 then 1 else step)) ∧
    NewRangeIterator start end_ 0 format size char now =
      NewRangeIterator start end_ 1 format size char now := by
  refine ⟨rfl, rfl, ?_, ?_, NewRangeIterator_zero_step start end_ format size char now⟩
  · by_cases hs : step = 0
    · subst hs
      rw [NewRangeIterator_zero_step, if_pos rfl,
        NewRangeIterator_maxProgress _ _ _ _ _ _ _ one_ne_zero hsub (by omega)]
      exact max_one_tdiv _ _ one_ne_zero
    · rw [if_neg hs, NewRangeIterator_maxProgress _ _ _ _ _ _ _ hs hsub hq]
      exact max_one_tdiv _ _ hs
  · by_cases hs : step = 0
    · subst hs
      rw [NewRangeIterator_zero_step, if_pos rfl,
        NewRangeIterator_maxProgress _ _ _ _ _ _ _ one_ne_zero hsub (by omega)]
    · rw [if_neg hs, NewRangeIterator_maxProgress _ _ _ _ _ _ _ hs hsub hq]

/-- Witness of C15: the range from `0` to `-10` by `3`: the quotient `-10 / 3` truncates
to `-3` and floors to `-4`, the maximum of the bar is `1` either way. -/
theorem C15_NewRangeIterator_fields_witness :
    inInt64 (-10 - 0) ∧
    (NewRangeIterator 0 (-10) 3 [] 80 [] 0).progress.maxProgress =
      max 1 ⌊(((-10 : ℤ) - 0 : ℤ) : ℚ) / ((if (3 : ℤ) = 0 then 1 else 3 : ℤ) : ℚ)⌋ :=
  ⟨by decide, (C15_NewRangeIterator_fields 0 (-10) 3 [] 80 [] 0 (by decide) (by decide)).2.2.1⟩

/-- C15, counterexample: the range from the least `int` to the greatest `int` by `1`.
The difference `end - start = 2^64 - 1` wraps around to `-1`, so the bar gets the
maximum `1`, not `max 1 ⌊(end - start) / 1⌋ = 2^64 - 1`. -/
theorem C15_NewRangeIterator_counterexample :
    inInt64 (-(2 ^ 63)) ∧ inInt64 (2 ^ 63 - 1) ∧
    (NewRangeIterator (-(2 ^ 63)) (2 ^ 63 - 1) 1 [] 80 [] 0).progress.maxProgress = 1 ∧
    max 1 ⌊(((2 ^ 63 - 1 : ℤ) - (-(2 ^ 63)) : ℤ) : ℚ) / ((1 : ℤ) : ℚ)⌋ = 2 ^ 64 - 1 := by
  decide!

/-- C16, amended: for every start, end and step, once a call of `Next` on a range
iterator has signalled the end, every later call signals it again and leaves the
iterator, its counter and its bar as they are, writing nothing: this holds in every
case, with or without wraparound and whatever the bar.  And when no addition
`current += step` made by the iterator (with the stored step, `1` for a zero step)
leaves the `int` range, the end signal is reached after finitely many calls, at most
`|end - start|` of them before it, whether or not the earlier calls could draw their
line. -/
theorem C16_range_Next_terminates (start end_ step : Int) (format : Str) (size : Int)
    (char : Str) (now : Int) (envs : Nat → Env) :
    (∀ k : ℕ,
      (((NewRangeIterator start end_ step format size char now).after envs k).Next
        (envs k)).2.map Prod.fst = .returned none →
      ∀ j : ℕ, k ≤ j →
        (NewRangeIterator start end_ step format size char now).after envs j =
          (NewRangeIterator start end_ step format size char now).after envs k ∧
        ((NewRangeIterator start end_ step format size char now).after envs j).Next (envs j) =
          ((NewRangeIterator start end_ step format size char now).after envs k,
            .returned (none, []))) ∧
    ((∀ j : ℕ, before (storedStep step) end_ (start + j * storedStep step) →
        inInt64 (start + (j + 1) * storedStep step)) →
      ∃ n : ℕ, n ≤ (end_ - start).natAbs ∧
        (((NewRangeIterator start end_ step format size char now).after envs n).Next
          (envs n)).2 = .returned (none, [])) := by
  constructor
  · intro k hk j hj
    have hsame := RangeIteratorImpl_after_end _ envs k hk j hj
    rw [hsame]
    exact ⟨rfl, RangeIteratorImpl_Next_end _ _ hk (envs j)⟩
  · intro hno
    have hstep := storedStep_ne_zero step
    rw [NewRangeIterator_storedStep start end_ step format size char now]
    generalize storedStep step = s at hno hstep ⊢
    refine ⟨(end_ - start).natAbs, le_refl _, ?_⟩
    rw [NewRangeIterator_Next_end_iff start end_ s format size char now envs _ hstep hno]
    unfold before
    have habs : |end_ - start| = ((end_ - start).natAbs : ℤ) := (Int.natCast_natAbs _).symm
    have h1 := le_abs_self (end_ - start)
    have h2 := neg_abs_le (end_ - start)
    have h3 := abs_nonneg (end_ - start)
    rw [habs] at h1 h2 h3
    rcases lt_or_gt_of_ne hstep with hneg | hpos
    · have : ((end_ - start).natAbs : ℤ) * s ≤ ((end_ - start).natAbs : ℤ) * (-1) :=
        mul_le_mul_of_nonneg_left (by omega) h3
      omega
    · have : ((end_ - start).natAbs : ℤ) * 1 ≤ ((end_ - start).natAbs : ℤ) * s :=
        mul_le_mul_of_nonneg_left (by omega) h3
      omega

/-- Witness of C16: in the range `(0, 10, 3)` some call among the first eleven signals
the end; in the range `(2^62, 2^62 + 2, 2^62 + 1)`, whose counter wraps around, the call
number `4` signals the end and the iterator after `7` calls is the iterator after
`4`. -/
theorem C16_range_Next_terminates_witness :
    (∃ n : ℕ, n ≤ ((10 : ℤ) - 0).natAbs ∧
      (((NewRangeIterator 0 10 3 [] 80 [] 0).after
        (fun _ => ⟨7, 8, Equiv.refl _, true⟩) n).Next
        ((fun _ => ⟨7, 8, Equiv.refl _, true⟩ : Nat → Env) n)).2 = .returned (none, [])) ∧
    (NewRangeIterator (2 ^ 62) (2 ^ 62 + 2) (2 ^ 62 + 1) [] 80 [] 0).after
        (fun _ => ⟨7, 8, Equiv.refl _, true⟩) 7 =
      (NewRangeIterator (2 ^ 62) (2 ^ 62 + 2) (2 ^ 62 + 1) [] 80 [] 0).after
        (fun _ => ⟨7, 8, Equiv.refl _, true⟩) 4 :=
  ⟨(C16_range_Next_terminates 0 10 3 [] 80 [] 0 (fun _ => ⟨7, 8, Equiv.refl _, true⟩)).2
    (fun j hb => by
      rw [show storedStep 3 = 3 by decide] at hb ⊢
      unfold before at hb
      unfold inInt64
      omega),
   ((C16_range_Next_terminates (2 ^ 62) (2 ^ 62 + 2) (2 ^ 62 + 1) [] 80 [] 0
    (fun _ => ⟨7, 8, Equiv.refl _, true⟩)).1 4 (by decide!) 7 (by decide)).1⟩

/-- C16, counterexample: the range from `2^63 - 2` to the greatest `int` `2^63 - 1` by
the step `2`, all three in the `int` range.  The first call of `Next` returns `2^63 - 2`,
the addition wraps the counter around to the least `int`, the second call returns
`-2^63`, and the counter stays even: no call, however late, signals the end. -/
theorem C16_range_wraparound_counterexample :
    inInt64 (2 ^ 63 - 2) ∧ inInt64 (2 ^ 63 - 1) ∧ inInt64 2 ∧
    ((StepRangeIterator (2 ^ 63 - 2) (2 ^ 63 - 1) 2 0).Next
      ⟨7, 8, Equiv.refl _, true⟩).2.map Prod.fst = .returned (some (2 ^ 63 - 2)) ∧
    (((StepRangeIterator (2 ^ 63 - 2) (2 ^ 63 - 1) 2 0).after
      (fun _ => ⟨7, 8, Equiv.refl _, true⟩) 1).Next
      ⟨7, 8, Equiv.refl _, true⟩).2.map Prod.fst = .returned (some (-(2 ^ 63))) ∧
    ∀ (envs : Nat → Env) (k : Nat),
      (((StepRangeIterator (2 ^ 63 - 2) (2 ^ 63 - 1) 2 0).after envs k).Next (envs k)).2.map
        Prod.fst ≠ .returned none :=
  ⟨by decide, by decide, by decide, by decide!, by decide!,
    fun envs k => wraparound_range_Next (2 ^ 63 - 2) (by decide) (by decide) 0 envs k⟩

/-- C17, amended: for every bar state that satisfies the invariant and whose progress is
below the greatest `int64` value `2^63 - 1` (as it is whenever `maxProgress` is below
it), `Step` has the effect of `SetProgress (progress + 1)`: the progress becomes
`min (progress + 1) maxProgress`, one more below the maximum and unchanged at the
maximum, so it never decreases. -/
theorem C17_Step_advances (pb : ProgressBar) (env : Env) (hinv : pb.Inv)
    (htop : pb.progress < 2 ^ 63 - 1) :
    pb.Step env = pb.SetProgress env (pb.progress + 1) ∧
    (pb.Step env).1.progress = min (pb.progress + 1) pb.maxProgress ∧
    (pb.progress < pb.maxProgress → (pb.Step env).1.progress = pb.progress + 1) ∧
    (pb.progress = pb.maxProgress → (pb.Step env).1.progress = pb.maxProgress) ∧
    pb.progress ≤ (pb.Step env).1.progress := by
  obtain ⟨hm, hp0, hpm⟩ := hinv
  have hw : wrap64 (pb.progress + 1) = pb.progress + 1 :=
    wrap64_of_inInt64 (by unfold inInt64; omega)
  have hstep : pb.Step env = pb.SetProgress env (pb.progress + 1) := by
    unfold ProgressBar.Step
    rw [hw]
  have hprog : (pb.Step env).1.progress = min (pb.progress + 1) pb.maxProgress := by
    rw [hstep, SetProgress_progress, if_neg (by omega)]
    by_cases hgt : pb.progress + 1 > pb.maxProgress
    · rw [if_pos hgt, min_eq_right (by omega)]
    · rw [if_neg hgt, min_eq_left (by omega)]
  refine ⟨hstep, hprog, fun h => ?_, fun h => ?_, ?_⟩
  · rw [hprog, min_eq_left (by omega)]
  · rw [hprog, min_eq_right (by omega)]
  · rw [hprog]
    exact le_min (by omega) hpm

/-- Witness of C17: a default bar of maximum `10` at progress `10`: `Step` leaves the
progress at `10`. -/
theorem C17_Step_advances_witness :
    ((NewProgressBar [] 10 80 [] 0).SetProgress ⟨7, 8, Equiv.refl _, true⟩ 10).1.Inv ∧
    ((((NewProgressBar [] 10 80 [] 0).SetProgress ⟨7, 8, Equiv.refl _, true⟩ 10).1.Step
      ⟨8, 9, Equiv.refl _, true⟩).1.progress =
      min ((((NewProgressBar [] 10 80 [] 0).SetProgress ⟨7, 8, Equiv.refl _, true⟩ 10).1).progress + 1)
        (((NewProgressBar [] 10 80 [] 0).SetProgress ⟨7, 8, Equiv.refl _, true⟩ 10).1).maxProgress) :=
  ⟨by decide!,
   (C17_Step_advances ((NewProgressBar [] 10 80 [] 0).SetProgress ⟨7, 8, Equiv.refl _, true⟩ 10).1
      ⟨8, 9, Equiv.refl _, true⟩ (by decide!) (by decide!)).2.1⟩

/-- C17, counterexample: a default bar whose maximum is the greatest `int64` value
`2^63 - 1`, taken to that maximum by `SetProgress`.  The invariant holds, but in `Step`
the sum `progress + 1` wraps around to `-2^63`, which `SetProgress` clamps to `0`: the
progress falls from `2^63 - 1` to `0` instead of staying at the maximum. -/
theorem C17_Step_counterexample :
    ((NewProgressBar [] (2 ^ 63 - 1) 80 [] 0).SetProgress
      ⟨7, 8, Equiv.refl _, true⟩ (2 ^ 63 - 1)).1.Inv ∧
    ((NewProgressBar [] (2 ^ 63 - 1) 80 [] 0).SetProgress
      ⟨7, 8, Equiv.refl _, true⟩ (2 ^ 63 - 1)).1.progress = 2 ^ 63 - 1 ∧
    (((NewProgressBar [] (2 ^ 63 - 1) 80 [] 0).SetProgress
      ⟨7, 8, Equiv.refl _, true⟩ (2 ^ 63 - 1)).1.Step ⟨8, 9, Equiv.refl _, true⟩).1.progress = 0 := by
  decide!

/-- C18, amended: for every template in which no two placeholders of different fields
share a `%` sign (it contains no `%a%b%` for distinct field names `a` and `b`), and
the five fields with the values of any bar state, which contain no `%`, `customFormat`
returns the same text whatever the order in which the map of replacements is ranged
over: the text in which one pass from left to right has replaced every placeholder,
with `\%` unescaped afterwards. -/
theorem C18_customFormat_order_independent (pb : ProgressBar) (format : Str)
    (order1 order2 : Equiv.Perm (Fin 5)) (h : noSharedPercent format) :
    customFormat format (pb.ranged order1) = customFormat format (pb.ranged order2) ∧
    customFormat format (pb.ranged order1) =
      replaceAll (substituteFrom (pb.ranged (Equiv.refl _)) 0 format) ['\\', '%'] ['%'] := by
  rw [customFormat_eq_substituteFrom pb format order1 h,
    customFormat_eq_substituteFrom pb format order2 h]
  exact ⟨rfl, rfl⟩

/-- Witness of C18: the default template with the values of a fresh bar of maximum
`10`, ranged over in two different orders. -/
theorem C18_customFormat_order_independent_witness :
    noSharedPercent DefaultFormat ∧
    customFormat DefaultFormat ((NewProgressBar [] 10 80 [] 0).ranged (Equiv.refl _)) =
      customFormat DefaultFormat ((NewProgressBar [] 10 80 [] 0).ranged (Equiv.swap 0 3)) :=
  ⟨by decide!,
   (C18_customFormat_order_independent (NewProgressBar [] 10 80 [] 0) DefaultFormat
      (Equiv.refl _) (Equiv.swap 0 3) (by decide!)).1⟩

/-- C18, counterexample: the template `%spd%max%` with the values of a fresh bar of
maximum `10`, none of which contains `%`.  When the map is ranged over with `spd`
before `max` the result is `0.00max%`, with `max` before `spd` it is `%spd10`. -/
theorem C18_customFormat_order_counterexample :
    (∀ kv ∈ (NewProgressBar [] 10 80 [] 0).ranged (Equiv.refl _), '%' ∉ kv.2) ∧
    customFormat "%spd%max%".toList ((NewProgressBar [] 10 80 [] 0).ranged (Equiv.refl _)) =
      "0.00max%".toList ∧
    customFormat "%spd%max%".toList ((NewProgressBar [] 10 80 [] 0).ranged (Equiv.swap 0 3)) =
      "%spd10".toList := by
  decide!

/-- C19, amended: for every bar state that satisfies the invariant, with a maximum in
the `int64` range, and every speed (zero, near zero and negative included), the
divisor `max speed 0.01` of the seconds-remaining value is at least the `float64`
`0.01`, which is at least `1/100`; the value is non-negative, is `0` at
`progress = maxProgress`, is at most the `float64` product of `100` and
`maxProgress - progress`, and is at most `100 * (maxProgress - progress)` whenever that
number is at most `2^53`. -/
theorem C19_timeRemaining_bounds (pb : ProgressBar) (hinv : pb.Inv)
    (h63 : pb.maxProgress < 2 ^ 63) :
    f64round (1 / 100) ≤ f64max pb.speed (f64round (1 / 100)) ∧
    (1 / 100 : ℚ) ≤ f64max pb.speed (f64round (1 / 100)) ∧
    0 ≤ pb.timeRemaining ∧
    (pb.progress = pb.maxProgress → pb.timeRemaining = 0) ∧
    pb.timeRemaining ≤ f64round (100 * f64ofInt (pb.maxProgress - pb.progress)) ∧
    (100 * (pb.maxProgress - pb.progress) ≤ 2 ^ 53 →
      pb.timeRemaining ≤ 100 * ((pb.maxProgress - pb.progress : ℤ) : ℚ)) := by
  obtain ⟨hm, hp0, hpm⟩ := hinv
  have hc : (1 / 100 : ℚ) ≤ f64round (1 / 100) := by
    rw [f64round_known_values.2.1]
    norm_num
  have hD : f64round (1 / 100) ≤ f64max pb.speed (f64round (1 / 100)) := by
    unfold f64max
    split_ifs with h
    · exact le_refl _
    · exact not_lt.mp h
  have hD2 : (1 / 100 : ℚ) ≤ f64max pb.speed (f64round (1 / 100)) := le_trans hc hD
  have hDpos : (0 : ℚ) < f64max pb.speed (f64round (1 / 100)) :=
    lt_of_lt_of_le (by norm_num) hD2
  have hw : wrap64 (pb.maxProgress - pb.progress) = pb.maxProgress - pb.progress :=
    wrap64_of_inInt64 (by unfold inInt64; omega)
  have hN : 0 ≤ f64ofInt (pb.maxProgress - pb.progress) := f64ofInt_nonneg (by omega)
  have hq0 : 0 ≤ f64ofInt (pb.maxProgress - pb.progress) /
      f64max pb.speed (f64round (1 / 100)) := div_nonneg hN (le_of_lt hDpos)
  have hq : f64ofInt (pb.maxProgress - pb.progress) / f64max pb.speed (f64round (1 / 100)) ≤
      100 * f64ofInt (pb.maxProgress - pb.progress) := by
    rw [div_le_iff₀ hDpos]
    have : f64ofInt (pb.maxProgress - pb.progress) * 1 ≤
        f64ofInt (pb.maxProgress - pb.progress) *
          (100 * f64max pb.speed (f64round (1 / 100))) :=
      mul_le_mul_of_nonneg_left (by linarith) hN
    linarith
  have hT : pb.timeRemaining = f64round (f64ofInt (pb.maxProgress - pb.progress) /
      f64max pb.speed (f64round (1 / 100))) := by
    unfold ProgressBar.timeRemaining f64div
    rw [hw]
  have hle : pb.timeRemaining ≤ f64round (100 * f64ofInt (pb.maxProgress - pb.progress)) := by
    rw [hT]
    exact f64round_mono hq0 hq
  refine ⟨hD, hD2, ?_, ?_, hle, ?_⟩
  · rw [hT]
    exact f64round_nonneg hq0
  · intro h
    rw [hT, h, sub_self]
    simp [f64ofInt, f64round_zero]
  · intro hsmall
    have hex : f64ofInt (pb.maxProgress - pb.progress) =
        ((pb.maxProgress - pb.progress : ℤ) : ℚ) :=
      f64ofInt_exact _ (by rw [abs_of_nonneg (by omega)]; omega)
    have h100 : f64round (100 * ((pb.maxProgress - pb.progress : ℤ) : ℚ)) =
        100 * ((pb.maxProgress - pb.progress : ℤ) : ℚ) := by
      have := f64round_exact (100 * (pb.maxProgress - pb.progress)) 0
        (by rw [abs_of_nonneg (by omega)]; omega) (by norm_num)
      simpa using this
    rw [hex, h100] at hle
    exact hle

/-- Witness of C19: a default bar of maximum `10` at progress `0` and speed `0`: the
seconds-remaining value is at most `1000`. -/
theorem C19_timeRemaining_bounds_witness :
    (NewProgressBar [] 10 80 [] 0).Inv ∧
    (NewProgressBar [] 10 80 [] 0).timeRemaining ≤
      100 * (((NewProgressBar [] 10 80 [] 0).maxProgress -
        (NewProgressBar [] 10 80 [] 0).progress : ℤ) : ℚ) :=
  ⟨by decide,
   (C19_timeRemaining_bounds (NewProgressBar [] 10 80 [] 0) (by decide)
      (by decide)).2.2.2.2.2 (by decide)⟩

/-- C19, counterexample: a default bar of maximum `10^15 + 3` at progress `0` and speed
`0`.  The invariant holds, and the seconds-remaining value is `100000000000000304`,
above `100 * (maxProgress - progress) = 100000000000000300`: the `float64` quotient by
`0.01` is rounded upwards. -/
theorem C19_timeRemaining_counterexample :
    (NewProgressBar [] (10 ^ 15 + 3) 80 [] 0).Inv ∧
    (NewProgressBar [] (10 ^ 15 + 3) 80 [] 0).progress = 0 ∧
    (NewProgressBar [] (10 ^ 15 + 3) 80 [] 0).speed = 0 ∧
    (NewProgressBar [] (10 ^ 15 + 3) 80 [] 0).timeRemaining = 100000000000000304 ∧
    ¬ (NewProgressBar [] (10 ^ 15 + 3) 80 [] 0).timeRemaining ≤
      100 * (((NewProgressBar [] (10 ^ 15 + 3) 80 [] 0).maxProgress -
        (NewProgressBar [] (10 ^ 15 + 3) 80 [] 0).progress : ℤ) : ℚ) := by
  decide!

/-- C20, amended: for every bar state with `0 ≤ barSize < 2^52`, `maxProgress ≥ 1` and
`0 ≤ progress ≤ maxProgress`, the fill count satisfies `0 ≤ filled ≤ barSize`, so both
repeat counts `filled` and `barSize - filled` are non-negative and building the bar
never panics for a negative count, with or without memory; it returns `filled` copies of
`barChar` followed by `barSize - filled` spaces when that string is not longer than the
allocator limit of `2^48` bytes and the runtime has the memory. -/
theorem C20_fill_count_within_width (pb : ProgressBar) (hinv : pb.Inv) (h0 : 0 ≤ pb.barSize)
    (h52 : pb.barSize < 2 ^ 52) :
    0 ≤ pb.filled ∧ pb.filled ≤ pb.barSize ∧ 0 ≤ pb.barSize - pb.filled ∧
    (∀ memory : Bool, pb.bar memory ≠ .panicked "strings: negative Repeat count") ∧
    (byteLen pb.barText ≤ maxAlloc → pb.bar true = .returned pb.barText) := by
  obtain ⟨hf0, hfB⟩ := filled_bounds pb hinv h0 h52
  exact ⟨hf0, hfB, by omega, fun memory => bar_not_negative pb memory hf0 hfB (by omega),
    fun hb => bar_returned pb hinv h0 h52 hb⟩

/-- Witness of C20: a default bar of maximum `3` and width `80` taken to progress `2`:
the fill count lies between `0` and `80`. -/
theorem C20_fill_count_within_width_witness :
    ((NewProgressBar [] 3 80 [] 0).SetProgress ⟨7, 8, Equiv.refl _, true⟩ 2).1.Inv ∧
    0 ≤ ((NewProgressBar [] 3 80 [] 0).SetProgress ⟨7, 8, Equiv.refl _, true⟩ 2).1.filled ∧
    ((NewProgressBar [] 3 80 [] 0).SetProgress ⟨7, 8, Equiv.refl _, true⟩ 2).1.filled ≤
      ((NewProgressBar [] 3 80 [] 0).SetProgress ⟨7, 8, Equiv.refl _, true⟩ 2).1.barSize :=
  ⟨by decide!,
   (C20_fill_count_within_width
      ((NewProgressBar [] 3 80 [] 0).SetProgress ⟨7, 8, Equiv.refl _, true⟩ 2).1
      (by decide!) (by decide!) (by decide!)).1,
   (C20_fill_count_within_width
      ((NewProgressBar [] 3 80 [] 0).SetProgress ⟨7, 8, Equiv.refl _, true⟩ 2).1
      (by decide!) (by decide!) (by decide!)).2.1⟩

/-- C20, counterexample: two bars of maximum `1`, taken to progress `1` by `SetProgress`;
the widths are non-negative and the invariant holds.  With the width `2^53 + 3`,
`float64(barSize)` is `2^53 + 4`, so the fill count is `2^53 + 4`, above the width: the
second repeat count `barSize - filled` is `-1`.  With the width `2^49` the fill count
is the width, but building the bar fails even with memory: `strings.Repeat` asks for
`3 * 2^49` bytes, more than the allocator limit, and the runtime panics. -/
theorem C20_fill_count_counterexample :
    ((NewProgressBar [] 1 (2 ^ 53 + 3) [] 0).SetProgress ⟨7, 8, Equiv.refl _, true⟩ 1).1.Inv ∧
    ((NewProgressBar [] 1 (2 ^ 53 + 3) [] 0).SetProgress
      ⟨7, 8, Equiv.refl _, true⟩ 1).1.barSize = 2 ^ 53 + 3 ∧
    ((NewProgressBar [] 1 (2 ^ 53 + 3) [] 0).SetProgress
      ⟨7, 8, Equiv.refl _, true⟩ 1).1.filled = 2 ^ 53 + 4 ∧
    ((NewProgressBar [] 1 (2 ^ 53 + 3) [] 0).SetProgress
      ⟨7, 8, Equiv.refl _, true⟩ 1).1.barSize -
      ((NewProgressBar [] 1 (2 ^ 53 + 3) [] 0).SetProgress
        ⟨7, 8, Equiv.refl _, true⟩ 1).1.filled = -1 ∧
    ((NewProgressBar [] 1 (2 ^ 49) [] 0).SetProgress ⟨7, 8, Equiv.refl _, true⟩ 1).1.Inv ∧
    ((NewProgressBar [] 1 (2 ^ 49) [] 0).SetProgress
      ⟨7, 8, Equiv.refl _, true⟩ 1).1.filled = 2 ^ 49 ∧
    ((NewProgressBar [] 1 (2 ^ 49) [] 0).SetProgress
      ⟨7, 8, Equiv.refl _, true⟩ 1).1.bar true =
        .panicked "runtime error: makeslice: len out of range" := by
  decide!

end GoProgressBar
